import Mathlib

/-!
# Rollout windows: `enterprise/internal/batches/scheduler/window/config.go`

A shallow embedding of `config.go` and a verification of its specification.

Conventions of the embedding.

* `time.Time` is an `Int`: nanoseconds since the Go zero time (1 January of year 1,
  00:00 UTC, a Monday), read in UTC.  `time.Duration` is an `Int` number of
  nanoseconds.  Both are unbounded here; the saturation of `Time.Sub` at the
  `int64` range and the wrap-around of `int` are outside the model.
* A pointer that may be nil is an `Option`.
* Code that can panic returns an `Outcome`; loops without a static bound take a
  fuel argument and answer `Outcome.noFuel` when it is used up.
* `config.go` uses declarations of the same package that live in other files
  (`Window`, `rate`, `Schedule`, `weekdaySet`, `parseWindow`) and a floating point
  expression.  Their behaviour is collected in `Env` and every function of
  `config.go` takes it as a parameter.  The theorems hold for every `Env`, under the
  assumptions they state (`endFound`, `Advances`, `Within`, `ScaleBounds`).
* `specEnv` is the instance of `Env` written after the specification of these
  declarations; `floatEnv` completes it with the floating point expression in binary64
  arithmetic (`f64Scale`), and meets the assumptions `Advances`, `Within` and
  `ScaleBounds` (`specEnv_advances`, `specEnv_within`, `f64Scale_bounds`).  What
  `weekdaySet.all` answers for a day set that lists the seven weekdays is not said by
  the specification; `endFound` holds in the instance for every other window
  (`specEnv_endFound`).
-/

namespace window

/-- A `time.Time`: nanoseconds since the Go zero time, in UTC. -/
abbrev Time := Int

/-- A `time.Duration`: a number of nanoseconds. -/
abbrev Duration := Int

/-- The constant `time.Second`. -/
def Second : Duration := 1000000000

/-- The constant `time.Minute`. -/
def Minute : Duration := 60 * Second

/-- The constant `time.Hour`. -/
def Hour : Duration := 60 * Minute

/-- What running a function gives: a returned value, a panic, or the fuel of a loop
without a static bound used up. -/
inductive Outcome (α : Type) where
  | ret (v : α)
  | panic (msg : String)
  | noFuel
  deriving DecidableEq, Repr

/-- Modelled from the spec: the enumeration of rate units is declared outside
`config.go`; a unit is its integer code, and the zero value of the type is code 0. -/
abbrev rateUnit := Nat

/-- Modelled from the spec: `rate` is declared outside `config.go`, which uses its
fields `n` (capacity count, `-1` unlimited, `0` zero) and `unit`. -/
structure rate where
  n : Int
  unit : rateUnit
  deriving DecidableEq, Repr

/-- Modelled from the spec: a time of day (hour, minute); `config.go` reads the two
fields of `window.end`. -/
structure timeOfDay where
  hour : Int
  minute : Int
  deriving DecidableEq, Repr

/-- Modelled from the spec: the set of weekdays of a window, declared outside
`config.go`.  It is kept as a code that `Env.all` and `Env.includes` interpret. -/
abbrev weekdaySet := Nat

/-- Modelled from the spec: `Window` is declared outside `config.go`, which uses its
fields `days`, `end` and `rate`; `start` is the optional opening time of day. -/
structure Window where
  days : weekdaySet
  start : Option timeOfDay
  end_ : Option timeOfDay
  rate : rate
  deriving DecidableEq, Repr

/-- Modelled from the spec: `Schedule` is declared outside `config.go`: a start
instant, the duration it is valid for, and the rate that drives its capacity. -/
structure Schedule where
  validFrom : Time
  duration : Duration
  rate : rate
  deriving DecidableEq, Repr

/-- Modelled from the spec: `newSchedule(base, d, rate)` is declared outside
`config.go`; it builds the schedule starting at `base`, valid for `d`. -/
def newSchedule (base : Time) (d : Duration) (r : rate) : Schedule :=
  ⟨base, d, r⟩

/-- Modelled from the spec: `Schedule.ValidUntil` is declared outside `config.go`;
`validFrom + duration` is the instant at which the schedule must be recomputed. -/
def Schedule.ValidUntil (s : Schedule) : Time :=
  s.validFrom + s.duration

/-- Modelled from the spec: a raw window descriptor of the site configuration
(`schema.BatchChangeRolloutWindow`), declared outside `config.go`. -/
structure BatchChangeRolloutWindow where
  days : Option (List String)
  start : Option String
  end_ : Option String
  rate : String
  deriving DecidableEq, Repr

/-- An entry of the raw list: a pointer to a descriptor. -/
abbrev RawWindow := Option BatchChangeRolloutWindow

/-- A Go `error` returned by `parseWindow`, kept as its message. -/
abbrev GoError := String

/-- The declarations `config.go` uses from the other files of its package, and its two
floating point expressions.

* `ratePerHour`: the constant of that name.
* `all`, `includes`: the methods of `weekdaySet`; a weekday is `time.Weekday`,
  `0` for Sunday to `6` for Saturday.
* `IsOpen`, `NextOpenAfter`: the methods of `Window`.
* `total`: the method `Schedule.total`.
* `scale d rem total`: the value of
  `time.Duration(float64(d) * (1.0 - math.Abs(float64(rem))/float64(total)))`, the
  floating point expression of `Estimate`.
* `parseWindow`: the parser of one raw window. -/
structure Env where
  ratePerHour : rateUnit
  all : weekdaySet → Bool
  includes : weekdaySet → Nat → Bool
  IsOpen : Window → Time → Bool
  NextOpenAfter : Window → Time → Time
  total : Schedule → Int
  scale : Duration → Int → Int → Duration
  parseWindow : RawWindow → Except GoError Window

/-- The method `time.Time.Truncate(d)` for `d > 0`: round down to a multiple of `d`
since the zero time. -/
def Truncate (t : Time) (d : Duration) : Time :=
  t - t % d

/-- The method `time.Time.Weekday()` of a UTC instant: `0` is Sunday; the zero time
is a Monday. -/
def Weekday (t : Time) : Nat :=
  ((t / (24 * Hour) + 1) % 7).toNat

/-- The call `time.Date(now.Year(), now.Month(), now.Day(), hour, minute, 0, 0, time.UTC)`
for a UTC instant `now`. -/
def Date (now : Time) (hour minute : Int) : Time :=
  Truncate now (24 * Hour) + hour * Hour + minute * Minute

/-- Configuration represents the rollout windows configured on the site. -/
structure Configuration where
  windows : List Window
  deriving DecidableEq, Repr

/-- The error built by `errors.Wrapf(err, "window %d", i)`: the message that is put in
front, and the error it wraps. -/
structure wrappedError where
  message : String
  cause : GoError
  deriving DecidableEq, Repr

/-- The call `errors.Wrapf(err, "window %d", i)`. -/
def Wrapf (err : GoError) (i : Nat) : wrappedError :=
  ⟨"window " ++ toString i, err⟩

/-- A `*multierror.Error`: nil, or the list of the collected errors. -/
abbrev multierror := Option (List wrappedError)

/-- The call `multierror.Append(errs, err)` for a non-nil `err` that is not itself a
`*multierror.Error`. -/
def multierrorAppend (errs : multierror) (err : wrappedError) : multierror :=
  match errs with
  | none => some [err]
  | some es => some (es ++ [err])

/-- The method `(*multierror.Error).ErrorOrNil`. -/
def ErrorOrNil (errs : multierror) : multierror :=
  match errs with
  | none => none
  | some [] => none
  | some es => some es

/-- The loop of `parseConfiguration` over the raw list, from index `i` on. -/
def parseLoop (X : Env) : List RawWindow → Nat → List Window → multierror →
    List Window × multierror
  | [], _, windows, errs => (windows, errs)
  | rawWindow :: rest, i, windows, errs =>
    match X.parseWindow rawWindow with
    | .error err => parseLoop X rest (i + 1) windows (multierrorAppend errs (Wrapf err i))
    | .ok w => parseLoop X rest (i + 1) (windows ++ [w]) errs

/-- The function `parseConfiguration`; it returns the windows that parsed together with
the error. -/
def parseConfiguration (X : Env) (raw : Option (List RawWindow)) :
    List Window × multierror :=
  match raw with
  | none => ([], none)
  | some entries =>
    let r := parseLoop X entries 0 [] none
    (r.1, ErrorOrNil r.2)

/-- The function `NewConfiguration`. -/
def NewConfiguration (X : Env) (raw : Option (List RawWindow)) :
    Except (List wrappedError) Configuration :=
  match parseConfiguration X raw with
  | (_, some err) => .error err
  | (windows, none) => .ok ⟨windows⟩

/-- The function `ValidateConfiguration`: nil, or the error. -/
def ValidateConfiguration (X : Env) (raw : Option (List RawWindow)) : multierror :=
  (parseConfiguration X raw).2

/-- HasRolloutWindows returns true if one or more windows have been defined. -/
def Configuration.HasRolloutWindows (cfg : Configuration) : Bool :=
  cfg.windows.length != 0

/-- First loop of `currentFor`: the index of the last window open at `now`, from the
value `index` on, the head of the list having index `i`. -/
def lastOpen (X : Env) (now : Time) : List Window → Nat → Int → Int
  | [], _, index => index
  | w :: ws, i, index => lastOpen X now ws (i + 1) (if X.IsOpen w now then (i : Int) else index)

/-- Second loop of `currentFor`: the earliest `NextOpenAfter(now)`, `next` being the
value so far. -/
def nextOpen (X : Env) (now : Time) : List Window → Option Time → Option Time
  | [], next => next
  | w :: ws, next =>
    let at_ := X.NextOpenAfter w now
    nextOpen X now ws
      (match next with
       | none => some at_
       | some nx => if at_ < nx then some at_ else some nx)

/-- The message of the panic in `currentFor`. -/
def dayPanic : String := "could not find end of a day-limited window in the next week"

/-- Third loop of `currentFor`: the search for the first day the window does not
apply on, `start` being the day reached so far.  The statement
`start.Add(-1 * time.Second)` of the source discards its result and is left out. -/
def dayEnd (X : Env) (window : Window) (now : Time) : Nat → Time → Outcome Time
  | 0, _ => .noFuel
  | fuel + 1, start =>
    let start := start + 24 * Hour
    if !X.includes window.days (Weekday start) then .ret start
    else if start > now + 7 * 24 * Hour then .panic dayPanic
    else dayEnd X window now fuel start

/-- The closing instant of the window itself, lines 150-172 of `config.go`.  The
search loop leaves within eight rounds (`ownEnd_ne_noFuel`), so that much fuel is
given. -/
def ownEnd (X : Env) (window : Window) (now : Time) : Outcome (Option Time) :=
  match window.end_ with
  | none =>
    if !X.all window.days then
      match dayEnd X window now 8 (Truncate now (24 * Hour)) with
      | .ret start => .ret (some start)
      | .panic msg => .panic msg
      | .noFuel => .noFuel
    else .ret none
  | some e => .ret (some (Date now e.hour e.minute))

/-- Fourth loop of `currentFor`: the later windows shorten the end. -/
def laterEnd (X : Env) (now : Time) : List Window → Option Time → Option Time
  | [], end_ => end_
  | w :: ws, end_ =>
    let nextActive := X.NextOpenAfter w now
    laterEnd X now ws
      (match end_ with
       | some e => if nextActive < e then some nextActive else some e
       | none => some nextActive)

/-- The method `currentFor`: the current rollout window, if any, and the duration for
which that window applies from now. -/
def currentFor (X : Env) (cfg : Configuration) (now : Time) :
    Outcome (Option Window × Option Duration) :=
  if cfg.windows.length = 0 then .ret (none, none)
  else
    let index := lastOpen X now cfg.windows 0 (-1)
    if index = -1 then
      match nextOpen X now cfg.windows none with
      | none => .ret (none, none)
      | some next => .ret (none, some (next - now))
    else
      match cfg.windows[index.toNat]? with
      | none => .panic "index out of range"
      | some window =>
        match ownEnd X window now with
        | .panic msg => .panic msg
        | .noFuel => .noFuel
        | .ret end_ =>
          match laterEnd X now (cfg.windows.drop (index.toNat + 1)) end_ with
          | none => .ret (some window, none)
          | some e => .ret (some window, some (e - now))

/-- The method `scheduleAt`. -/
def scheduleAt (X : Env) (cfg : Configuration) (at_ : Time) (minimal : Bool) :
    Outcome Schedule :=
  match currentFor X cfg at_ with
  | .panic msg => .panic msg
  | .noFuel => .noFuel
  | .ret (none, some validity) =>
    if validity ≥ 1 * Minute ∧ minimal = true then .ret (newSchedule at_ (1 * Minute) ⟨0, 0⟩)
    else .ret (newSchedule at_ validity ⟨0, 0⟩)
  | .ret (none, none) => .ret (newSchedule at_ (1 * Minute) ⟨0, 0⟩)
  | .ret (some window, none) =>
    if window.rate.unit = X.ratePerHour then .ret (newSchedule at_ (1 * Hour) window.rate)
    else .ret (newSchedule at_ (1 * Minute) window.rate)
  | .ret (some window, some validity) => .ret (newSchedule at_ validity window.rate)

/-- The loop of `Estimate`, entered with remaining count `rem` at instant `at_`. -/
def estimateLoop (X : Env) (cfg : Configuration) (until_ : Time) :
    Nat → Int → Time → Outcome (Option Time)
  | 0, _, at_ => if at_ < until_ then .noFuel else .ret none
  | fuel + 1, rem, at_ =>
    if at_ < until_ then
      match scheduleAt X cfg at_ false with
      | .panic msg => .panic msg
      | .noFuel => .noFuel
      | .ret schedule =>
        if X.total schedule = -1 then .ret (some at_)
        else
          let total := X.total schedule
          if total = 0 then estimateLoop X cfg until_ fuel rem schedule.ValidUntil
          else
            let rem := rem - total
            if rem < 0 then
              .ret (some (at_ + X.scale (schedule.ValidUntil - at_) rem total))
            else if rem = 0 then .ret (some schedule.ValidUntil)
            else estimateLoop X cfg until_ fuel rem schedule.ValidUntil
    else .ret none

/-- The method `Estimate`; `fuel` bounds the number of rounds of its loop. -/
def Estimate (X : Env) (cfg : Configuration) (fuel : Nat) (now : Time) (n : Int) :
    Outcome (Option Time) :=
  if !cfg.HasRolloutWindows then .ret (some now)
  else estimateLoop X cfg (now + 7 * 24 * Hour) fuel n now

/-- The method `Schedule`; `clock` is the value of `time.Now()`. -/
def Configuration.Schedule (X : Env) (cfg : Configuration) (clock : Time) :
    Outcome Schedule :=
  if !cfg.HasRolloutWindows then .ret (newSchedule clock (10 * Minute) ⟨-1, 0⟩)
  else scheduleAt X cfg clock true

/-- Modelled from the spec: the offset of a time of day from the start of its day. -/
def timeOfDay.offset (t : timeOfDay) : Duration :=
  t.hour * Hour + t.minute * Minute

/-- Modelled from the spec: `weekdaySet.all`, missing from the available sources.  A
day set is a code of seven bits, bit `d` for the weekday `d`; the code `0`, no day
listed, is the "all days" sentinel, which the specification keeps apart from a set that
lists the seven days.  The sentinel is the one code the specification names as all
days. -/
def specAll (ws : weekdaySet) : Bool :=
  ws % 128 == 0

/-- Modelled from the spec: `weekdaySet.includes`, missing from the available sources.
The sentinel includes every day; otherwise bit `day` of the code says whether the
weekday `day` is listed. -/
def specIncludes (ws : weekdaySet) (day : Nat) : Bool :=
  ws % 128 == 0 || (ws % 128).testBit day

/-- Modelled from the spec: `Window.IsOpen`, missing from the available sources: true
iff the weekday of `now` is in `days` and the time of day of `now` falls in
`[start, end)`, an absent `start` being the beginning of the day and an absent `end`
its end. -/
def specIsOpen (w : Window) (now : Time) : Bool :=
  specIncludes w.days (Weekday now) &&
  decide ((match w.start with
           | none => 0
           | some s => s.offset) ≤ now % (24 * Hour)) &&
  (match w.end_ with
   | none => true
   | some e => decide (now % (24 * Hour) < e.offset))

/-- Modelled from the spec: the search of `Window.NextOpenAfter` through the opening
instants of the coming days, `day` being the midnight reached; after `k` days without
an opening the answer is the one-week horizon. -/
def specNextFrom (w : Window) (now : Time) : Nat → Time → Time
  | 0, _ => now + 7 * 24 * Hour
  | k + 1, day =>
    let opening := day + (match w.start with
                          | none => 0
                          | some s => s.offset)
    if now ≤ opening ∧ specIsOpen w opening = true then opening
    else specNextFrom w now k (day + 24 * Hour)

/-- Modelled from the spec: `Window.NextOpenAfter`, missing from the available sources:
the earliest instant at or after `now` at which the window is open, searched within one
week. -/
def specNextOpenAfter (w : Window) (now : Time) : Time :=
  if specIsOpen w now = true then now
  else specNextFrom w now 8 (Truncate now (24 * Hour))

/-- Modelled from the spec: the code of the per-hour unit, the units being listed as
unlimited, zero, per-duration, per-hour. -/
def specRatePerHour : rateUnit := 3

/-- Modelled from the spec: `Schedule.total`, missing from the available sources: `-1`
if unlimited, `0` if zero, else `n` for a per-duration rate and `n * (duration / 1 hour)`,
truncated, for a per-hour rate.  The product is computed exactly here. -/
def specTotal (s : Schedule) : Int :=
  if s.rate.n = -1 then -1
  else if s.rate.n = 0 then 0
  else if s.rate.unit = specRatePerHour then Int.tdiv (s.rate.n * s.duration) Hour
  else s.rate.n

/-- The floating point expression of `Estimate` computed exactly:
`d * (1 - |rem| / total)`, truncated. -/
def exactScale (d : Duration) (rem total : Int) : Duration :=
  Int.tdiv (d * (total - |rem|)) total

/-- A binary64 value, or the exact result of an operation on binary64 values before it
is rounded: the rational `num / den`, with `den > 0`. -/
structure Frac where
  num : Int
  den : Nat
  deriving DecidableEq, Repr

/-- The number of times `n` can be halved before it is below 2, at most `fuel`. -/
def halvings : Nat → Nat → Nat
  | 0, _ => 0
  | fuel + 1, n => if n < 2 then 0 else halvings fuel (n / 2) + 1

/-- The integer part of the binary logarithm of `n > 0`. -/
def floorLog2 (n : Nat) : Nat :=
  halvings n n

/-- The binary exponent of the rational `a / b` with `a, b > 0`: the `e` with
`2 ^ e ≤ a / b < 2 ^ (e + 1)`. -/
def binExp (a b : Nat) : Int :=
  let e0 : Int := (floorLog2 a : Int) - (floorLog2 b : Int)
  if b * 2 ^ e0.toNat ≤ a * 2 ^ (-e0).toNat then e0 else e0 - 1

/-- The integer nearest to `N / M`, ties to even. -/
def roundHalfEven (N M : Nat) : Nat :=
  let m := N / M
  let r := N % M
  if M < 2 * r ∨ (2 * r = M ∧ m % 2 = 1) then m + 1 else m

/-- The binary64 value nearest to the rational `a / b` with `a, b > 0`, ties to even,
for a magnitude in the normal range: with `e` the binary exponent of the quotient, the
quotient is rounded to a multiple of `2 ^ (e - 52)`. -/
def roundPos (a b : Nat) : Frac :=
  let s : Int := 52 - binExp a b
  ⟨((roundHalfEven (a * 2 ^ s.toNat) (b * 2 ^ (-s).toNat) * 2 ^ (-s).toNat : Nat) : Int),
    2 ^ s.toNat⟩

/-- Rounding of an exact result to binary64: round to nearest, ties to even. -/
def f64 (q : Frac) : Frac :=
  if q.num = 0 then ⟨0, 1⟩
  else if 0 < q.num then roundPos q.num.natAbs q.den
  else ⟨-(roundPos q.num.natAbs q.den).num, (roundPos q.num.natAbs q.den).den⟩

/-- The quotient `math.Abs(float64(rem))/float64(total)` in binary64 arithmetic, for
`total ≠ 0`: the two conversions and the division, each rounded. -/
def f64Quot (rem total : Int) : Frac :=
  let fr : Frac := f64 ⟨rem, 1⟩
  let ft : Frac := f64 ⟨total, 1⟩
  f64 ⟨|fr.num| * ft.den * ft.num.sign, fr.den * ft.num.natAbs⟩

/-- The factor `perc := 1.0 - math.Abs(float64(rem))/float64(total)` in binary64
arithmetic. -/
def f64Perc (rem total : Int) : Frac :=
  let quot : Frac := f64Quot rem total
  f64 ⟨quot.den - quot.num, quot.den⟩

/-- The floating point expression of `Estimate` in binary64 arithmetic:
`time.Duration(float64(d) * perc)`, the conversion of `d` and the product rounded, and
the conversion to `time.Duration` dropping the fraction.  For 64-bit operands every
intermediate value is zero or in the normal range. -/
def f64Scale (d : Duration) (rem total : Int) : Duration :=
  let perc : Frac := f64Perc rem total
  let fd : Frac := f64 ⟨d, 1⟩
  let x : Frac := f64 ⟨fd.num * perc.num, fd.den * perc.den⟩
  Int.tdiv x.num x.den

/-- The rational a binary64 value stands for. -/
def Frac.val (q : Frac) : ℚ :=
  (q.num : ℚ) / (q.den : ℚ)

/-- The instance of `Env` written after the specification.  The floating point
expression of `Estimate` and the parser of one raw window, whose syntax the
specification leaves to a lower level, stay parameters. -/
def specEnv (scale : Duration → Int → Int → Duration)
    (parseWindow : RawWindow → Except GoError Window) : Env :=
  ⟨specRatePerHour, specAll, specIncludes, specIsOpen, specNextOpenAfter, specTotal,
    scale, parseWindow⟩

/-- A parser that rejects every entry, for the instances in which nothing is parsed. -/
def rejectAll : RawWindow → Except GoError Window :=
  fun _ => .error "rejected"

/-- The instance after the specification with binary64 arithmetic. -/
def floatEnv : Env :=
  specEnv f64Scale rejectAll

/-- The instance after the specification with exact arithmetic. -/
def exactEnv : Env :=
  specEnv exactScale rejectAll

/-- The errors `parseConfiguration` is to collect for the entries of a raw list whose
head has index `i`: for each entry that fails to parse, in order, the error of the
parser wrapped with the index of the entry. -/
def collected (X : Env) : List RawWindow → Nat → List wrappedError
  | [], _ => []
  | rawWindow :: rest, i =>
    match X.parseWindow rawWindow with
    | .error err => Wrapf err i :: collected X rest (i + 1)
    | .ok _ => collected X rest (i + 1)

/-- The windows of the entries of a raw list that parse, in order. -/
def parsed (X : Env) : List RawWindow → List Window
  | [] => []
  | rawWindow :: rest =>
    match X.parseWindow rawWindow with
    | .error _ => parsed X rest
    | .ok w => w :: parsed X rest

/-- Whether the parser rejects an entry. -/
def fails (X : Env) (rawWindow : RawWindow) : Bool :=
  match X.parseWindow rawWindow with
  | .error _ => true
  | .ok _ => false

/-- The search for the closing instant of `w` in `currentFor` comes to an end: `w` has an
end time of day, or its day set is the all-days sentinel, or its day set leaves some
weekday out. -/
def endFound (X : Env) (w : Window) : Prop :=
  w.end_ ≠ none ∨ X.all w.days = true ∨ ∃ d, d < 7 ∧ X.includes w.days d = false

instance (X : Env) (w : Window) : Decidable (endFound X w) := by
  unfold endFound
  infer_instance

/-- The instants that may close a window found open at `now`: its own closing
instant, when it has one, and the `NextOpenAfter(now)` of the windows `later`
declared after it. -/
def closings (X : Env) (now : Time) (own : Option Time) (later : List Window) : List Time :=
  own.toList ++ later.map (fun w => X.NextOpenAfter w now)

/-- What the theorems on durations assume of the declarations outside `config.go`, for
the windows of `cfg`: a window closed at `t` next opens after `t`, and the end time of
day of a window open at `t` lies after `t` on the day of `t`. -/
structure Advances (X : Env) (cfg : Configuration) : Prop where
  nextLater : ∀ w ∈ cfg.windows, ∀ t : Time, X.IsOpen w t = false → t < X.NextOpenAfter w t
  endLater : ∀ w ∈ cfg.windows, ∀ (t : Time) (e : timeOfDay), X.IsOpen w t = true →
    w.end_ = some e → t < Date t e.hour e.minute

/-- What the theorems on `Estimate` assume of its floating point expression, for a
duration `0 ≤ d < 2 ^ 53` nanoseconds (some 104 days, the range in which binary64 holds
every integer), a capacity `total > 0` and a remaining count `-total ≤ rem < 0`: the
scaled duration lies between `0` and `d`, and it does not decrease when `rem` grows. -/
structure ScaleBounds (X : Env) : Prop where
  nonneg : ∀ (d : Duration) (r T : Int), 0 ≤ d → d < 2 ^ 53 → 0 < T → -T ≤ r → r < 0 →
    0 ≤ X.scale d r T
  le : ∀ (d : Duration) (r T : Int), 0 ≤ d → d < 2 ^ 53 → 0 < T → -T ≤ r → r < 0 →
    X.scale d r T ≤ d
  mono : ∀ (d : Duration) (r r' T : Int), 0 ≤ d → d < 2 ^ 53 → 0 < T → -T ≤ r → r ≤ r' →
    r' < 0 → X.scale d r T ≤ X.scale d r' T

/-- What the theorems that scale a duration assume of the declarations outside
`config.go`, for the windows of `cfg`: the next opening of a window and the end time
of day of a window are less than `2 ^ 53` nanoseconds ahead. -/
structure Within (X : Env) (cfg : Configuration) : Prop where
  nextWithin : ∀ w ∈ cfg.windows, ∀ t : Time, X.NextOpenAfter w t - t < 2 ^ 53
  endWithin : ∀ w ∈ cfg.windows, ∀ (t : Time) (e : timeOfDay), w.end_ = some e →
    Date t e.hour e.minute - t < 2 ^ 53

/-- The times of day of a window lie within the day. -/
def validTimes (w : Window) : Prop :=
  (∀ s, w.start = some s → s.offset ≤ 24 * Hour) ∧ (∀ e, w.end_ = some e → e.offset ≤ 24 * Hour)

/-- Whether `ss` lists the successive non-minimal schedules from `at_`: each is the
schedule `scheduleAt` returns at the end instant of the one before. -/
def isWalk (X : Env) (cfg : Configuration) : Time → List Schedule → Bool
  | _, [] => true
  | at_, s :: ss => decide (scheduleAt X cfg at_ false = .ret s) && isWalk X cfg s.ValidUntil ss

/-- The sum of the positive total capacities of the schedules `ss`. -/
def positiveTotals (X : Env) (ss : List Schedule) : Int :=
  (ss.map (fun s => max (X.total s) 0)).sum

/-- A window from 11:00 to 12:00 on all days, at 10 per hour. -/
def hourly10 : Window :=
  ⟨0, some ⟨11, 0⟩, some ⟨12, 0⟩, ⟨10, specRatePerHour⟩⟩

/-- A window from 11:00 to 12:00 on all days, at 5 per hour. -/
def hourly5 : Window :=
  ⟨0, some ⟨11, 0⟩, some ⟨12, 0⟩, ⟨5, specRatePerHour⟩⟩

/-- A window from 09:00 to 17:00 on all days, at 10 per hour. -/
def dayShift : Window :=
  ⟨0, some ⟨9, 0⟩, some ⟨17, 0⟩, ⟨10, specRatePerHour⟩⟩

/-- A window from 12:00 to 13:00 on all days, at 20 per hour. -/
def lunch : Window :=
  ⟨0, some ⟨12, 0⟩, some ⟨13, 0⟩, ⟨20, specRatePerHour⟩⟩

/-- A window from 09:00 to 17:00 on all days, with the zero rate. -/
def frozen : Window :=
  ⟨0, some ⟨9, 0⟩, some ⟨17, 0⟩, ⟨0, 0⟩⟩

/-- A parser for the instances in which the raw list matters: it rejects a nil entry
and reads every other entry as the window `hourly10`. -/
def nilRejecting : RawWindow → Except GoError Window
  | none => .error "nil window"
  | some _ => .ok hourly10

/-- A window on Monday to Friday, all day, at 10 per hour: the days 1 to 5 are listed. -/
def weekdays : Window :=
  ⟨62, none, none, ⟨10, specRatePerHour⟩⟩

/-- A window without a restriction, at 10 per hour. -/
def always : Window :=
  ⟨0, none, none, ⟨10, specRatePerHour⟩⟩

/-! ## Construction and validation -/

theorem parseLoop_eq (X : Env) (entries : List RawWindow) :
    ∀ (i : Nat) (windows : List Window) (errs : multierror),
      parseLoop X entries i windows errs =
        (windows ++ parsed X entries,
          if collected X entries i = [] then errs
          else some (errs.getD [] ++ collected X entries i)) := by
  induction entries with
  | nil => intro i windows errs; simp [parseLoop, parsed, collected]
  | cons r rest ih =>
    intro i windows errs
    cases hp : X.parseWindow r with
    | error err =>
      simp only [parseLoop, parsed, collected, hp, ih]
      cases errs <;> by_cases hc : collected X rest (i + 1) = [] <;>
        simp [multierrorAppend, hc]
    | ok w =>
      simp only [parseLoop, parsed, collected, hp, ih]
      simp

theorem parseConfiguration_eq (X : Env) (entries : List RawWindow) :
    parseConfiguration X (some entries) =
      (parsed X entries,
        if collected X entries 0 = [] then none else some (collected X entries 0)) := by
  simp only [parseConfiguration, parseLoop_eq]
  by_cases hc : collected X entries 0 = []
  · simp [hc, ErrorOrNil]
  · simp only [hc, if_false, List.nil_append, Option.getD_none]
    cases h : collected X entries 0 with
    | nil => exact absurd h hc
    | cons e es => simp [ErrorOrNil]

theorem collected_eq_nil (X : Env) (entries : List RawWindow) :
    ∀ i, collected X entries i = [] ↔ ∀ r ∈ entries, fails X r = false := by
  induction entries with
  | nil => intro i; simp [collected]
  | cons r rest ih =>
    intro i
    cases hp : X.parseWindow r with
    | error err => simp [collected, fails, hp]
    | ok w => simp [collected, fails, hp, ih (i + 1)]

theorem collected_length (X : Env) (entries : List RawWindow) :
    ∀ i, (collected X entries i).length = (entries.filter (fails X)).length := by
  induction entries with
  | nil => intro i; simp [collected]
  | cons r rest ih =>
    intro i
    cases hp : X.parseWindow r with
    | error err => simp [collected, fails, hp, ih (i + 1)]
    | ok w => simp [collected, fails, hp, ih (i + 1)]

theorem mem_collected (X : Env) (entries : List RawWindow) :
    ∀ i e, e ∈ collected X entries i ↔
      ∃ k r err, entries[k]? = some r ∧ X.parseWindow r = .error err ∧
        e = Wrapf err (i + k) := by
  induction entries with
  | nil => intro i e; simp [collected]
  | cons r rest ih =>
    intro i e
    have hstep : (∃ k r' err, (r :: rest)[k]? = some r' ∧ X.parseWindow r' = .error err ∧
          e = Wrapf err (i + k)) ↔
        ((∃ err, X.parseWindow r = .error err ∧ e = Wrapf err i) ∨
          ∃ k r' err, rest[k]? = some r' ∧ X.parseWindow r' = .error err ∧
            e = Wrapf err (i + 1 + k)) := by
      constructor
      · rintro ⟨k, r', err, hk, hp, he⟩
        cases k with
        | zero =>
          simp only [List.getElem?_cons_zero, Option.some.injEq] at hk
          subst hk
          exact Or.inl ⟨err, hp, by simpa using he⟩
        | succ k =>
          simp only [List.getElem?_cons_succ] at hk
          exact Or.inr ⟨k, r', err, hk, hp, by rw [he]; congr 1; omega⟩
      · rintro (⟨err, hp, he⟩ | ⟨k, r', err, hk, hp, he⟩)
        · exact ⟨0, r, err, by simp, hp, by simpa using he⟩
        · exact ⟨k + 1, r', err, by simpa using hk, hp, by rw [he]; congr 1; omega⟩
    rw [hstep]
    cases hp : X.parseWindow r with
    | error err => simp [collected, hp, ih (i + 1)]
    | ok w => simp [collected, hp, ih (i + 1)]

/-- C5. `NewConfiguration` on an absent raw list succeeds with no window; on a raw list
it succeeds with the parsed windows when no entry fails and otherwise fails with the
collected errors; it fails iff some entry fails to parse; the collected errors are as
many as the failing entries, and they are exactly the parser errors of the failing
entries, each wrapped with the message "window i" of its index `i` in the raw list. -/
theorem NewConfiguration_collects (X : Env) (entries : List RawWindow) :
    NewConfiguration X none = .ok ⟨[]⟩ ∧
    NewConfiguration X (some entries) =
      (if collected X entries 0 = [] then .ok ⟨parsed X entries⟩
       else .error (collected X entries 0)) ∧
    ((∃ errs, NewConfiguration X (some entries) = .error errs) ↔
      ∃ r ∈ entries, fails X r = true) ∧
    (collected X entries 0).length = (entries.filter (fails X)).length ∧
    (∀ e : wrappedError, e ∈ collected X entries 0 ↔
      ∃ (i : Nat) (r : RawWindow) (err : GoError), entries[i]? = some r ∧
        X.parseWindow r = .error err ∧
        e = ⟨"window " ++ toString i, err⟩) := by
  have hnew : NewConfiguration X (some entries) =
      (if collected X entries 0 = [] then .ok ⟨parsed X entries⟩
       else .error (collected X entries 0)) := by
    simp only [NewConfiguration, parseConfiguration_eq]
    by_cases hc : collected X entries 0 = [] <;> simp [hc]
  refine ⟨rfl, hnew, ?_, collected_length X entries 0, ?_⟩
  · rw [hnew]
    by_cases hc : collected X entries 0 = []
    · have hall := (collected_eq_nil X entries 0).1 hc
      simp only [hc, if_true]
      constructor
      · rintro ⟨errs, h⟩
        cases h
      · rintro ⟨r, hr, hf⟩
        rw [hall r hr] at hf
        cases hf
    · simp only [hc, if_false]
      constructor
      · intro _
        by_contra hno
        apply hc
        apply (collected_eq_nil X entries 0).2
        intro r hr
        cases hf : fails X r with
        | false => rfl
        | true => exact absurd ⟨r, hr, hf⟩ hno
      · intro _
        exact ⟨_, rfl⟩
  · intro e
    rw [mem_collected]
    simp [Wrapf]

/-- C6. `ValidateConfiguration` returns an error exactly when `NewConfiguration` does,
and then the same collected errors. -/
theorem ValidateConfiguration_eq_NewConfiguration (X : Env) (raw : Option (List RawWindow)) :
    ValidateConfiguration X raw =
      (match NewConfiguration X raw with
       | .error errs => some errs
       | .ok _ => none) := by
  unfold ValidateConfiguration NewConfiguration
  rcases h : parseConfiguration X raw with ⟨windows, _ | err⟩ <;> simp

/-- The scenario of the specification: a raw list whose entries 0 and 2 fail to parse
gives exactly two errors, "window 0" and "window 2". -/
theorem NewConfiguration_two_bad (X : Env) (r0 r1 r2 : RawWindow) (e0 e2 : GoError)
    (w1 : Window) (h0 : X.parseWindow r0 = .error e0) (h1 : X.parseWindow r1 = .ok w1)
    (h2 : X.parseWindow r2 = .error e2) :
    NewConfiguration X (some [r0, r1, r2]) = .error [⟨"window 0", e0⟩, ⟨"window 2", e2⟩] := by
  simp [NewConfiguration, parseConfiguration, parseLoop, h0, h1, h2, multierrorAppend,
    ErrorOrNil, Wrapf]
  decide

/-! ## No rollout window -/

/-- C1. A configuration without windows has no rollout windows, and `Estimate` returns
exactly `now` for every queue position, whatever the fuel. -/
theorem Estimate_no_windows (X : Env) (cfg : Configuration) (h : cfg.windows = [])
    (fuel : Nat) (now : Time) (n : Int) :
    cfg.HasRolloutWindows = false ∧ Estimate X cfg fuel now n = .ret (some now) := by
  simp [Estimate, Configuration.HasRolloutWindows, h]

/-- C1 at the configuration without windows, at instant 17 and position 5. -/
theorem Estimate_no_windows_witness :
    (⟨[]⟩ : Configuration).windows = [] ∧
      (⟨[]⟩ : Configuration).HasRolloutWindows = false ∧
      Estimate exactEnv ⟨[]⟩ 0 17 5 = .ret (some 17) :=
  ⟨rfl, Estimate_no_windows exactEnv ⟨[]⟩ rfl 0 17 5⟩

/-! ## The loops of `currentFor` -/

theorem lastOpen_closed (X : Env) (now : Time) (ws : List Window) :
    ∀ (i : Nat) (index : Int), (∀ w ∈ ws, X.IsOpen w now = false) →
      lastOpen X now ws i index = index := by
  induction ws with
  | nil => intro i index _; rfl
  | cons w ws ih =>
    intro i index h
    have hw : X.IsOpen w now = false := h w (List.mem_cons_self _ _)
    simp only [lastOpen, hw]
    exact ih (i + 1) index (fun w' hw' => h w' (List.mem_cons_of_mem _ hw'))

theorem lastOpen_open (X : Env) (now : Time) (ws : List Window) :
    ∀ (i : Nat) (index : Int) (k : Nat) (w : Window), ws[k]? = some w →
      X.IsOpen w now = true →
      (∀ (j : Nat) (w' : Window), k < j → ws[j]? = some w' → X.IsOpen w' now = false) →
      lastOpen X now ws i index = ((i + k : Nat) : Int) := by
  induction ws with
  | nil => intro i index k w hk; simp at hk
  | cons v ws ih =>
    intro i index k w hk hopen hlater
    cases k with
    | zero =>
      simp only [List.getElem?_cons_zero, Option.some.injEq] at hk
      subst hk
      simp only [lastOpen, hopen, if_true]
      rw [lastOpen_closed]
      · simp
      · intro w' hw'
        obtain ⟨j, hj⟩ := List.getElem?_of_mem hw'
        exact hlater (j + 1) w' (Nat.succ_pos j) (by simpa using hj)
    | succ k =>
      simp only [List.getElem?_cons_succ] at hk
      simp only [lastOpen]
      rw [ih (i + 1) _ k w hk hopen]
      · congr 1; omega
      · intro j w' hj hw'
        exact hlater (j + 1) w' (by omega) (by simpa using hw')

/-- Among the windows open at `now` there is a last one. -/
theorem exists_last_open (X : Env) (now : Time) (ws : List Window)
    (h : ∃ w ∈ ws, X.IsOpen w now = true) :
    ∃ (k : Nat) (w : Window), ws[k]? = some w ∧ X.IsOpen w now = true ∧
      ∀ (j : Nat) (w' : Window), k < j → ws[j]? = some w' → X.IsOpen w' now = false := by
  induction ws with
  | nil => simp at h
  | cons v ws ih =>
    by_cases hrest : ∃ w ∈ ws, X.IsOpen w now = true
    · obtain ⟨k, w, hk, hopen, hlater⟩ := ih hrest
      refine ⟨k + 1, w, by simpa using hk, hopen, ?_⟩
      intro j w' hj hw'
      cases j with
      | zero => omega
      | succ j => exact hlater j w' (by omega) (by simpa using hw')
    · obtain ⟨w, hw, hopen⟩ := h
      have hv : X.IsOpen v now = true := by
        rcases List.mem_cons.1 hw with rfl | hw
        · exact hopen
        · exact absurd ⟨w, hw, hopen⟩ hrest
      refine ⟨0, v, by simp, hv, ?_⟩
      intro j w' hj hw'
      cases j with
      | zero => omega
      | succ j =>
        cases hc : X.IsOpen w' now with
        | false => rfl
        | true =>
          have hmem : w' ∈ ws := List.getElem?_mem (n := j) (by simpa using hw')
          exact absurd ⟨w', hmem, hc⟩ hrest

/-- The loops that keep the earliest opening compute a minimum: with no value so far
and no window the result is nil, and otherwise it is the least of the value so far
and the `NextOpenAfter(now)` of the windows. -/
theorem nextOpen_min (X : Env) (now : Time) (ws : List Window) :
    ∀ next : Option Time,
      (next.toList ++ ws.map (fun w => X.NextOpenAfter w now) = [] →
        nextOpen X now ws next = none) ∧
      (next.toList ++ ws.map (fun w => X.NextOpenAfter w now) ≠ [] →
        ∃ e, nextOpen X now ws next = some e ∧
          e ∈ next.toList ++ ws.map (fun w => X.NextOpenAfter w now) ∧
          ∀ c ∈ next.toList ++ ws.map (fun w => X.NextOpenAfter w now), e ≤ c) := by
  induction ws with
  | nil =>
    intro next
    cases next with
    | none => simp [nextOpen]
    | some nx => simp [nextOpen]
  | cons w ws ih =>
    intro next
    constructor
    · intro h; simp at h
    · intro _
      cases next with
      | none =>
        obtain ⟨e, he, hmem, hle⟩ := (ih (some (X.NextOpenAfter w now))).2 (by simp)
        refine ⟨e, by simpa [nextOpen] using he, by simpa using hmem, ?_⟩
        intro c hc
        exact hle c (by simpa using hc)
      | some nx =>
        by_cases hlt : X.NextOpenAfter w now < nx
        · obtain ⟨e, he, hmem, hle⟩ := (ih (some (X.NextOpenAfter w now))).2 (by simp)
          refine ⟨e, by simpa [nextOpen, hlt] using he, ?_, ?_⟩
          · simp only [Option.toList, List.singleton_append, List.mem_cons] at hmem
            simp only [Option.toList, List.singleton_append, List.map_cons, List.mem_cons]
            rcases hmem with h | h
            · exact Or.inr (Or.inl h)
            · exact Or.inr (Or.inr h)
          · intro c hc
            simp only [Option.toList, List.singleton_append, List.map_cons,
              List.mem_cons] at hc
            have h1 : e ≤ X.NextOpenAfter w now := hle _ (by simp)
            rcases hc with h | h | h
            · rw [h]; exact le_trans h1 (le_of_lt hlt)
            · rw [h]; exact h1
            · exact hle c (by simp [h])
        · obtain ⟨e, he, hmem, hle⟩ := (ih (some nx)).2 (by simp)
          refine ⟨e, by simpa [nextOpen, hlt] using he, ?_, ?_⟩
          · simp only [Option.toList, List.singleton_append, List.mem_cons] at hmem
            simp only [Option.toList, List.singleton_append, List.map_cons, List.mem_cons]
            rcases hmem with h | h
            · exact Or.inl h
            · exact Or.inr (Or.inr h)
          · intro c hc
            simp only [Option.toList, List.singleton_append, List.map_cons,
              List.mem_cons] at hc
            have h1 : e ≤ nx := hle _ (by simp)
            rcases hc with h | h | h
            · rw [h]; exact h1
            · rw [h]; exact le_trans h1 (not_lt.1 hlt)
            · exact hle c (by simp [h])

theorem laterEnd_eq_nextOpen (X : Env) (now : Time) (ws : List Window) :
    ∀ end_ : Option Time, laterEnd X now ws end_ = nextOpen X now ws end_ := by
  induction ws with
  | nil => intro end_; rfl
  | cons w ws ih =>
    intro end_
    cases end_ <;> simp [laterEnd, nextOpen, ih]

/-! ## Days -/

theorem day_eq : (24 * Hour : Int) = 86400000000000 := by
  norm_num [Hour, Minute, Second]

theorem Truncate_le (now : Time) : Truncate now (24 * Hour) ≤ now := by
  unfold Truncate
  rw [day_eq]
  unfold Time at *
  omega

theorem lt_Truncate_add (now : Time) : now < Truncate now (24 * Hour) + 24 * Hour := by
  unfold Truncate
  rw [day_eq]
  unfold Time at *
  omega

theorem Weekday_lt (t : Time) : Weekday t < 7 := by
  unfold Weekday
  rw [day_eq]
  omega

theorem Weekday_add_days (start : Time) (j : Nat) :
    Weekday (start + j * (24 * Hour)) = (Weekday start + j) % 7 := by
  unfold Weekday
  rw [day_eq]
  omega

/-- The search leaves at the first day that is not included, when the days before it
are within the week. -/
theorem dayEnd_found (X : Env) (window : Window) (now : Time) :
    ∀ (fuel : Nat) (start : Time) (k : Nat), 1 ≤ k → k ≤ fuel →
      (∀ j : Nat, 1 ≤ j → j < k →
        X.includes window.days (Weekday (start + j * (24 * Hour))) = true ∧
        start + j * (24 * Hour) ≤ now + 7 * 24 * Hour) →
      X.includes window.days (Weekday (start + k * (24 * Hour))) = false →
      dayEnd X window now fuel start = .ret (start + k * (24 * Hour)) := by
  intro fuel
  induction fuel with
  | zero => intro start k h1 h2; omega
  | succ fuel ih =>
    intro start k h1 h2 hbefore hk
    by_cases hk1 : k = 1
    · subst hk1
      have hk' : X.includes window.days (Weekday (start + 24 * Hour)) = false := by
        simpa using hk
      simp [dayEnd, hk']
    · have hfirst := hbefore 1 (le_refl 1) (by omega)
      have hinc : X.includes window.days (Weekday (start + 24 * Hour)) = true := by
        simpa using hfirst.1
      have hle : ¬ (start + 24 * Hour > now + 7 * 24 * Hour) := by
        have := hfirst.2
        simp only [Nat.cast_one, one_mul] at this
        exact not_lt.2 this
      simp only [dayEnd, hinc, Bool.not_true, Bool.false_eq_true, if_false, hle]
      have hshift : ∀ j : Nat, start + 24 * Hour + j * (24 * Hour) =
          start + ((j + 1 : Nat) : Int) * (24 * Hour) := by
        intro j; push_cast; ring
      have := ih (start + 24 * Hour) (k - 1) (by omega) (by omega)
        (by
          intro j hj1 hj2
          rw [hshift j]
          exact hbefore (j + 1) (by omega) (by omega))
        (by
          rw [hshift (k - 1)]
          have : k - 1 + 1 = k := by omega
          rw [this]; exact hk)
      rw [this, hshift (k - 1)]
      have : k - 1 + 1 = k := by omega
      rw [this]

/-- The search panics when every day it looks at is included. -/
theorem dayEnd_panics (X : Env) (window : Window) (now : Time) :
    ∀ (fuel : Nat) (start : Time) (k : Nat), 1 ≤ k → k ≤ fuel →
      (∀ j : Nat, 1 ≤ j → j ≤ k →
        X.includes window.days (Weekday (start + j * (24 * Hour))) = true) →
      (∀ j : Nat, 1 ≤ j → j < k → start + j * (24 * Hour) ≤ now + 7 * 24 * Hour) →
      now + 7 * 24 * Hour < start + k * (24 * Hour) →
      dayEnd X window now fuel start = .panic dayPanic := by
  intro fuel
  induction fuel with
  | zero => intro start k h1 h2; omega
  | succ fuel ih =>
    intro start k h1 h2 hinc hle hk
    have hinc1 : X.includes window.days (Weekday (start + 24 * Hour)) = true := by
      simpa using hinc 1 (le_refl 1) h1
    by_cases hk1 : k = 1
    · subst hk1
      have hk' : start + 24 * Hour > now + 7 * 24 * Hour := by simpa using hk
      simp only [dayEnd, hinc1, Bool.not_true, Bool.false_eq_true, if_false, hk', if_true]
    · have hle1 : ¬ (start + 24 * Hour > now + 7 * 24 * Hour) := by
        have := hle 1 (le_refl 1) (by omega)
        simp only [Nat.cast_one, one_mul] at this
        exact not_lt.2 this
      simp only [dayEnd, hinc1, Bool.not_true, Bool.false_eq_true, if_false, hle1]
      have hshift : ∀ j : Nat, start + 24 * Hour + j * (24 * Hour) =
          start + ((j + 1 : Nat) : Int) * (24 * Hour) := by
        intro j; push_cast; ring
      apply ih (start + 24 * Hour) (k - 1) (by omega) (by omega)
      · intro j hj1 hj2
        rw [hshift j]
        exact hinc (j + 1) (by omega) (by omega)
      · intro j hj1 hj2
        rw [hshift j]
        exact hle (j + 1) (by omega) (by omega)
      · rw [hshift (k - 1)]
        have : k - 1 + 1 = k := by omega
        rw [this]; exact hk

/-- A day set that leaves a weekday out ends the search of `currentFor`: it returns
the first midnight after `now` whose weekday is not included, at most seven days
ahead. -/
theorem dayEnd_of_excluded (X : Env) (window : Window) (now : Time)
    (h : ∃ d, d < 7 ∧ X.includes window.days d = false) :
    ∃ k : Nat, 1 ≤ k ∧ k ≤ 7 ∧
      dayEnd X window now 8 (Truncate now (24 * Hour)) =
        .ret (Truncate now (24 * Hour) + k * (24 * Hour)) ∧
      X.includes window.days (Weekday (Truncate now (24 * Hour) + k * (24 * Hour))) = false ∧
      ∀ j : Nat, 1 ≤ j → j < k →
        X.includes window.days (Weekday (Truncate now (24 * Hour) + j * (24 * Hour))) = true := by
  obtain ⟨d, hd, hex⟩ := h
  have hcover : ∃ j : Nat, 1 ≤ j ∧
      X.includes window.days (Weekday (Truncate now (24 * Hour) + j * (24 * Hour))) = false := by
    have hw := Weekday_lt (Truncate now (24 * Hour))
    refine ⟨(d + 7 - Weekday (Truncate now (24 * Hour)) - 1) % 7 + 1, by omega, ?_⟩
    rw [Weekday_add_days]
    have : (Weekday (Truncate now (24 * Hour)) +
        ((d + 7 - Weekday (Truncate now (24 * Hour)) - 1) % 7 + 1)) % 7 = d := by omega
    rw [this]; exact hex
  classical
  have hspec := Nat.find_spec hcover
  have hmin := fun j => Nat.find_min (m := j) hcover
  have hk7 : Nat.find hcover ≤ 7 := by
    by_contra hgt
    have hw := Weekday_lt (Truncate now (24 * Hour))
    have hlt : (d + 7 - Weekday (Truncate now (24 * Hour)) - 1) % 7 + 1 < Nat.find hcover := by
      omega
    apply hmin _ hlt
    refine ⟨by omega, ?_⟩
    rw [Weekday_add_days]
    have : (Weekday (Truncate now (24 * Hour)) +
        ((d + 7 - Weekday (Truncate now (24 * Hour)) - 1) % 7 + 1)) % 7 = d := by omega
    rw [this]; exact hex
  have hbefore : ∀ j : Nat, 1 ≤ j → j < Nat.find hcover →
      X.includes window.days (Weekday (Truncate now (24 * Hour) + j * (24 * Hour))) = true := by
    intro j hj1 hj2
    cases hc : X.includes window.days (Weekday (Truncate now (24 * Hour) + j * (24 * Hour))) with
    | true => rfl
    | false => exact absurd ⟨hj1, hc⟩ (hmin j hj2)
  refine ⟨Nat.find hcover, hspec.1, hk7, ?_, hspec.2, hbefore⟩
  apply dayEnd_found X window now 8 _ _ hspec.1 (by omega)
  · intro j hj1 hj2
    refine ⟨hbefore j hj1 hj2, ?_⟩
    have h1 := Truncate_le now
    have h2 : (j : Int) ≤ 7 := by exact_mod_cast (by omega : j ≤ 7)
    have h3 := day_eq
    nlinarith
  · exact hspec.2

/-- A day set that is not the sentinel and includes all seven weekdays makes the search
of `currentFor` panic. -/
theorem dayEnd_of_all_included (X : Env) (window : Window) (now : Time)
    (h : ∀ d, d < 7 → X.includes window.days d = true) :
    dayEnd X window now 8 (Truncate now (24 * Hour)) = .panic dayPanic := by
  apply dayEnd_panics X window now 8 _ 8 (by omega) (le_refl 8)
  · intro j _ _
    exact h _ (Weekday_lt _)
  · intro j hj1 hj2
    have h1 := Truncate_le now
    have h2 : (j : Int) ≤ 7 := by exact_mod_cast (by omega : j ≤ 7)
    have h3 := day_eq
    nlinarith
  · have h1 := lt_Truncate_add now
    have h3 := day_eq
    push_cast
    linarith

/-! ## `currentFor` -/

theorem dayEnd_ret_form (X : Env) (window : Window) (now : Time) :
    ∀ (fuel : Nat) (start e : Time), dayEnd X window now fuel start = .ret e →
      ∃ k : Nat, 1 ≤ k ∧ k ≤ fuel ∧ e = start + k * (24 * Hour) := by
  intro fuel
  induction fuel with
  | zero => intro start e h; simp [dayEnd] at h
  | succ fuel ih =>
    intro start e h
    simp only [dayEnd] at h
    split at h
    · refine ⟨1, le_refl 1, by omega, ?_⟩
      simp only [Outcome.ret.injEq] at h
      rw [← h]; simp
    · split at h
      · cases h
      · obtain ⟨k, hk, hkf, he⟩ := ih _ _ h
        refine ⟨k + 1, by omega, by omega, ?_⟩
        rw [he]; push_cast; ring

/-- The closing instant of the window itself is found when `endFound` holds. -/
theorem ownEnd_ret (X : Env) (w : Window) (now : Time) (h : endFound X w) :
    ∃ own, ownEnd X w now = .ret own := by
  unfold ownEnd
  cases he : w.end_ with
  | some e => exact ⟨_, rfl⟩
  | none =>
    cases hall : X.all w.days with
    | true => exact ⟨none, by simp⟩
    | false =>
      rcases h with h | h | h
      · exact absurd he h
      · rw [hall] at h; cases h
      · obtain ⟨k, _, _, hk, _⟩ := dayEnd_of_excluded X w now h
        exact ⟨some (Truncate now (24 * Hour) + k * (24 * Hour)), by simp [hk]⟩

/-- The closing instant of the window itself is found only when `endFound` holds;
otherwise `currentFor` panics. -/
theorem ownEnd_panic (X : Env) (w : Window) (now : Time) (h : ¬ endFound X w) :
    ownEnd X w now = .panic dayPanic := by
  unfold endFound at h
  push_neg at h
  obtain ⟨h1, h2, h3⟩ := h
  have hall : X.all w.days = false := by
    cases hc : X.all w.days with
    | true => exact absurd hc h2
    | false => rfl
  have hinc : ∀ d, d < 7 → X.includes w.days d = true := by
    intro d hd
    cases hc : X.includes w.days d with
    | true => rfl
    | false => exact absurd hc (h3 d hd)
  unfold ownEnd
  rw [h1]
  simp [hall, dayEnd_of_all_included X w now hinc]

/-- The eight rounds given to the day search are enough: the closing instant of the
window itself is found or the search panics. -/
theorem ownEnd_ne_noFuel (X : Env) (w : Window) (now : Time) :
    ownEnd X w now ≠ .noFuel := by
  by_cases h : endFound X w
  · obtain ⟨own, hown⟩ := ownEnd_ret X w now h
    rw [hown]
    intro hc
    cases hc
  · rw [ownEnd_panic X w now h]
    intro hc
    cases hc

/-- A closing instant found by the day search lies after `now`, at most eight days
ahead. -/
theorem ownEnd_day_later (X : Env) (w : Window) (now e : Time) (hend : w.end_ = none)
    (h : ownEnd X w now = .ret (some e)) : now < e ∧ e ≤ now + 8 * (24 * Hour) := by
  unfold ownEnd at h
  rw [hend] at h
  simp only at h
  split at h
  · cases hd : dayEnd X w now 8 (Truncate now (24 * Hour)) with
    | ret start =>
      rw [hd] at h
      simp only [Outcome.ret.injEq, Option.some.injEq] at h
      obtain ⟨k, hk, hk8, hs⟩ := dayEnd_ret_form X w now _ _ _ hd
      have h1 := lt_Truncate_add now
      have h1' := Truncate_le now
      have h2 : (1 : Int) ≤ k := by exact_mod_cast hk
      have h2' : (k : Int) ≤ 8 := by exact_mod_cast hk8
      have h3 := day_eq
      rw [← h, hs]
      constructor <;> nlinarith
    | panic msg => rw [hd] at h; cases h
    | noFuel => rw [hd] at h; cases h
  · cases h

theorem currentFor_closed (X : Env) (cfg : Configuration) (now : Time)
    (hne : cfg.windows ≠ []) (hclosed : ∀ w ∈ cfg.windows, X.IsOpen w now = false) :
    currentFor X cfg now =
      (match nextOpen X now cfg.windows none with
       | none => .ret (none, none)
       | some next => .ret (none, some (next - now))) := by
  have hlen : ¬ cfg.windows.length = 0 := by
    intro h; exact hne (List.length_eq_zero.1 h)
  simp only [currentFor, hlen, if_false, lastOpen_closed X now cfg.windows 0 (-1) hclosed,
    if_true]

theorem currentFor_open (X : Env) (cfg : Configuration) (now : Time) (i : Nat) (w : Window)
    (hi : cfg.windows[i]? = some w) (hopen : X.IsOpen w now = true)
    (hlast : ∀ (j : Nat) (w' : Window), i < j → cfg.windows[j]? = some w' →
      X.IsOpen w' now = false) :
    currentFor X cfg now =
      (match ownEnd X w now with
       | .panic msg => .panic msg
       | .noFuel => .noFuel
       | .ret end_ =>
         match laterEnd X now (cfg.windows.drop (i + 1)) end_ with
         | none => .ret (some w, none)
         | some e => .ret (some w, some (e - now))) := by
  have hlen : ¬ cfg.windows.length = 0 := by
    intro h
    rw [List.length_eq_zero.1 h] at hi
    simp at hi
  have hidx := lastOpen_open X now cfg.windows 0 (-1) i w hi hopen hlast
  have hneg : ¬ (((0 + i : Nat) : Int) = -1) := by omega
  simp only [currentFor, hlen, if_false, hidx, hneg]
  have htoNat : (((0 + i : Nat) : Int)).toNat = i := by simp
  rw [htoNat, hi]

/-- With a window open at `now`, `currentFor` does not return a nil window. -/
theorem currentFor_none_closed (X : Env) (cfg : Configuration) (now : Time)
    (v : Option Duration) (h : currentFor X cfg now = .ret (none, v)) :
    ∀ w ∈ cfg.windows, X.IsOpen w now = false := by
  by_contra hno
  push_neg at hno
  obtain ⟨w0, hw0, hopen0⟩ := hno
  have hopen0 : X.IsOpen w0 now = true := by simpa using hopen0
  obtain ⟨i, w, hi, hopen, hlast⟩ := exists_last_open X now cfg.windows ⟨w0, hw0, hopen0⟩
  rw [currentFor_open X cfg now i w hi hopen hlast] at h
  cases ho : ownEnd X w now with
  | panic msg => rw [ho] at h; cases h
  | noFuel => rw [ho] at h; cases h
  | ret end_ =>
    rw [ho] at h
    simp only at h
    cases hl : laterEnd X now (List.drop (i + 1) cfg.windows) end_ with
    | none => rw [hl] at h; cases h
    | some e => rw [hl] at h; cases h

/-- C2. When a window is open at `now`, there is a greatest index with an open window;
`currentFor` returns the window at that index (last in configuration order wins),
provided its closing instant is found; and `currentFor` returns a nil window only if
no window is open at `now`. -/
theorem currentFor_last_open (X : Env) (cfg : Configuration) (now : Time) :
    ((∃ w ∈ cfg.windows, X.IsOpen w now = true) →
      ∃ (i : Nat) (w : Window), cfg.windows[i]? = some w ∧ X.IsOpen w now = true ∧
        ∀ (j : Nat) (w' : Window), i < j → cfg.windows[j]? = some w' →
          X.IsOpen w' now = false) ∧
    (∀ (i : Nat) (w : Window), cfg.windows[i]? = some w → X.IsOpen w now = true →
      (∀ (j : Nat) (w' : Window), i < j → cfg.windows[j]? = some w' →
        X.IsOpen w' now = false) →
      endFound X w → ∃ v, currentFor X cfg now = .ret (some w, v)) ∧
    (∀ v, currentFor X cfg now = .ret (none, v) →
      ∀ w ∈ cfg.windows, X.IsOpen w now = false) := by
  refine ⟨exists_last_open X now cfg.windows, ?_, currentFor_none_closed X cfg now⟩
  intro i w hi hopen hlast hend
  obtain ⟨own, hown⟩ := ownEnd_ret X w now hend
  rw [currentFor_open X cfg now i w hi hopen hlast, hown]
  simp only
  cases laterEnd X now (List.drop (i + 1) cfg.windows) own with
  | none => exact ⟨none, rfl⟩
  | some e => exact ⟨some (e - now), rfl⟩

/-- With windows configured and none open, the duration `currentFor` returns leads to
the least next opening. -/
theorem currentFor_closed_min (X : Env) (cfg : Configuration) (now : Time)
    (hne : cfg.windows ≠ []) (hclosed : ∀ w ∈ cfg.windows, X.IsOpen w now = false) :
    ∃ d : Duration, currentFor X cfg now = .ret (none, some d) ∧
      (∃ w ∈ cfg.windows, X.NextOpenAfter w now = now + d) ∧
      ∀ w ∈ cfg.windows, now + d ≤ X.NextOpenAfter w now := by
  have hcands : (none : Option Time).toList ++
      cfg.windows.map (fun w => X.NextOpenAfter w now) ≠ [] := by
    simpa using hne
  obtain ⟨e, he, hmem, hle⟩ := (nextOpen_min X now cfg.windows none).2 hcands
  refine ⟨e - now, ?_, ?_, ?_⟩
  · rw [currentFor_closed X cfg now hne hclosed, he]
  · simp only [Option.toList, List.nil_append, List.mem_map] at hmem
    obtain ⟨w, hw, hwe⟩ := hmem
    exact ⟨w, hw, by rw [hwe]; ring⟩
  · intro w hw
    have := hle (X.NextOpenAfter w now) (by simp; exact ⟨w, hw, rfl⟩)
    linarith

/-- C3. With at least one window and none open at `now`, `currentFor` returns a nil
window and a non-nil duration `d` such that `now + d` is the least `NextOpenAfter(now)`
of the configured windows. -/
theorem currentFor_none_open (X : Env) (cfg : Configuration) (now : Time)
    (hne : cfg.windows ≠ []) (hclosed : ∀ w ∈ cfg.windows, X.IsOpen w now = false) :
    ∃ d : Duration, currentFor X cfg now = .ret (none, some d) ∧
      (∃ w ∈ cfg.windows, X.NextOpenAfter w now = now + d) ∧
      ∀ w ∈ cfg.windows, now + d ≤ X.NextOpenAfter w now :=
  currentFor_closed_min X cfg now hne hclosed

/-- C4. With the last open window `w` at index `i` and its closing instant found:
when neither `w` has a closing instant of its own nor a window is declared after it,
`currentFor` returns no validity; otherwise the validity it returns is `e - now` with
`e` the least of the closing instant of `w` itself and of the `NextOpenAfter(now)` of
the windows declared after index `i`, so that it never extends past the next opening
of a later window. -/
theorem currentFor_validity (X : Env) (cfg : Configuration) (now : Time) (i : Nat)
    (w : Window) (hi : cfg.windows[i]? = some w) (hopen : X.IsOpen w now = true)
    (hlast : ∀ (j : Nat) (w' : Window), i < j → cfg.windows[j]? = some w' →
      X.IsOpen w' now = false)
    (hend : endFound X w) :
    ∃ own, ownEnd X w now = .ret own ∧
      (closings X now own (cfg.windows.drop (i + 1)) = [] →
        currentFor X cfg now = .ret (some w, none)) ∧
      (closings X now own (cfg.windows.drop (i + 1)) ≠ [] →
        ∃ e : Time, currentFor X cfg now = .ret (some w, some (e - now)) ∧
          e ∈ closings X now own (cfg.windows.drop (i + 1)) ∧
          (∀ c ∈ closings X now own (cfg.windows.drop (i + 1)), e ≤ c) ∧
          ∀ w' ∈ cfg.windows.drop (i + 1), now + (e - now) ≤ X.NextOpenAfter w' now) := by
  obtain ⟨own, hown⟩ := ownEnd_ret X w now hend
  refine ⟨own, hown, ?_, ?_⟩
  · intro hnil
    rw [currentFor_open X cfg now i w hi hopen hlast, hown]
    simp only
    rw [laterEnd_eq_nextOpen, (nextOpen_min X now _ own).1 hnil]
  · intro hcons
    obtain ⟨e, he, hmem, hle⟩ := (nextOpen_min X now _ own).2 hcons
    refine ⟨e, ?_, hmem, hle, ?_⟩
    · rw [currentFor_open X cfg now i w hi hopen hlast, hown]
      simp only
      rw [laterEnd_eq_nextOpen, he]
    · intro w' hw'
      have := hle (X.NextOpenAfter w' now) (by
        simp only [List.mem_append, List.mem_map]
        exact Or.inr ⟨w', hw', rfl⟩)
      linarith

/-! ## `scheduleAt` -/

/-- The three ways `currentFor` goes: no window configured; windows configured and none
open; a last open window. -/
theorem currentFor_cases (X : Env) (cfg : Configuration) (now : Time) :
    (cfg.windows = [] ∧ currentFor X cfg now = .ret (none, none)) ∨
    (cfg.windows ≠ [] ∧ (∀ w ∈ cfg.windows, X.IsOpen w now = false) ∧
      ∃ w ∈ cfg.windows,
        currentFor X cfg now = .ret (none, some (X.NextOpenAfter w now - now))) ∨
    (∃ (i : Nat) (w : Window), cfg.windows[i]? = some w ∧ X.IsOpen w now = true ∧
      (∀ (j : Nat) (w' : Window), i < j → cfg.windows[j]? = some w' →
        X.IsOpen w' now = false) ∧
      currentFor X cfg now =
        (match ownEnd X w now with
         | .panic msg => .panic msg
         | .noFuel => .noFuel
         | .ret end_ =>
           match laterEnd X now (cfg.windows.drop (i + 1)) end_ with
           | none => .ret (some w, none)
           | some e => .ret (some w, some (e - now)))) := by
  by_cases hne : cfg.windows = []
  · left
    exact ⟨hne, by simp [currentFor, hne]⟩
  · by_cases hopen : ∃ w ∈ cfg.windows, X.IsOpen w now = true
    · right; right
      obtain ⟨i, w, hi, ho, hlast⟩ := exists_last_open X now cfg.windows hopen
      exact ⟨i, w, hi, ho, hlast, currentFor_open X cfg now i w hi ho hlast⟩
    · right; left
      have hclosed : ∀ w ∈ cfg.windows, X.IsOpen w now = false := by
        intro w hw
        cases hc : X.IsOpen w now with
        | false => rfl
        | true => exact absurd ⟨w, hw, hc⟩ hopen
      obtain ⟨d, hd, ⟨w, hw, hwd⟩, _⟩ := currentFor_closed_min X cfg now hne hclosed
      refine ⟨hne, hclosed, w, hw, ?_⟩
      rw [hd, hwd]
      congr 3
      ring

/-- The window `currentFor` returns is one of the configuration. -/
theorem currentFor_window_mem (X : Env) (cfg : Configuration) (now : Time) (w : Window)
    (v : Option Duration) (h : currentFor X cfg now = .ret (some w, v)) :
    w ∈ cfg.windows := by
  rcases currentFor_cases X cfg now with ⟨_, h0⟩ | ⟨_, _, w', _, h1⟩ |
    ⟨i, w', hi, _, _, h2⟩
  · rw [h0] at h; cases h
  · rw [h1] at h; cases h
  · rw [h2] at h
    cases ho : ownEnd X w' now with
    | panic msg => rw [ho] at h; cases h
    | noFuel => rw [ho] at h; cases h
    | ret end_ =>
      rw [ho] at h
      simp only at h
      have hmem : w' ∈ cfg.windows := List.getElem?_mem hi
      cases hl : laterEnd X now (List.drop (i + 1) cfg.windows) end_ with
      | none =>
        rw [hl] at h
        simp only [Outcome.ret.injEq, Prod.mk.injEq, Option.some.injEq] at h
        rw [← h.1]; exact hmem
      | some e =>
        rw [hl] at h
        simp only [Outcome.ret.injEq, Prod.mk.injEq, Option.some.injEq] at h
        rw [← h.1]; exact hmem

/-- With every closing instant found, `currentFor` returns. -/
theorem currentFor_ret (X : Env) (cfg : Configuration) (now : Time)
    (hfound : ∀ w ∈ cfg.windows, endFound X w) :
    ∃ r, currentFor X cfg now = .ret r := by
  rcases currentFor_cases X cfg now with ⟨_, h0⟩ | ⟨_, _, w', _, h1⟩ |
    ⟨i, w', hi, _, _, h2⟩
  · exact ⟨_, h0⟩
  · exact ⟨_, h1⟩
  · obtain ⟨own, hown⟩ := ownEnd_ret X w' now (hfound w' (List.getElem?_mem hi))
    rw [h2, hown]
    simp only
    cases laterEnd X now (List.drop (i + 1) cfg.windows) own with
    | none => exact ⟨_, rfl⟩
    | some e => exact ⟨_, rfl⟩

/-- Under `Advances`, a validity returned by `currentFor` is strictly positive. -/
theorem currentFor_validity_pos (X : Env) (cfg : Configuration) (now : Time)
    (hadv : Advances X cfg) (ow : Option Window) (v : Duration)
    (h : currentFor X cfg now = .ret (ow, some v)) : 0 < v := by
  rcases currentFor_cases X cfg now with ⟨_, h0⟩ | ⟨_, hclosed, w', hw', h1⟩ |
    ⟨i, w', hi, hopen, hlast, h2⟩
  · rw [h0] at h; cases h
  · rw [h1] at h
    simp only [Outcome.ret.injEq, Prod.mk.injEq, Option.some.injEq] at h
    have := hadv.nextLater w' hw' now (hclosed w' hw')
    rw [← h.2]
    linarith
  · rw [h2] at h
    have hmem : w' ∈ cfg.windows := List.getElem?_mem hi
    cases ho : ownEnd X w' now with
    | panic msg => rw [ho] at h; cases h
    | noFuel => rw [ho] at h; cases h
    | ret own =>
      rw [ho] at h
      simp only at h
      rw [laterEnd_eq_nextOpen] at h
      by_cases hc : own.toList ++
          (List.drop (i + 1) cfg.windows).map (fun w => X.NextOpenAfter w now) = []
      · rw [(nextOpen_min X now _ own).1 hc] at h
        cases h
      · obtain ⟨e, he, hmem_e, _⟩ := (nextOpen_min X now _ own).2 hc
        rw [he] at h
        simp only [Outcome.ret.injEq, Prod.mk.injEq, Option.some.injEq] at h
        have hlater : now < e := by
          rcases List.mem_append.1 hmem_e with hown | hnext
          · cases own with
            | none => simp at hown
            | some o =>
              simp only [Option.toList, List.mem_singleton] at hown
              subst hown
              cases hend : w'.end_ with
              | none => exact (ownEnd_day_later X w' now e hend ho).1
              | some t =>
                have hd : ownEnd X w' now = .ret (some (Date now t.hour t.minute)) := by
                  simp [ownEnd, hend]
                rw [hd] at ho
                simp only [Outcome.ret.injEq, Option.some.injEq] at ho
                rw [← ho]
                exact hadv.endLater w' hmem now t hopen hend
          · obtain ⟨w2, hw2, hw2e⟩ := List.mem_map.1 hnext
            obtain ⟨j, hj⟩ := List.getElem?_of_mem hw2
            rw [List.getElem?_drop] at hj
            have hclosed2 := hlast (i + 1 + j) w2 (by omega) hj
            have := hadv.nextLater w2 (List.getElem?_mem hj) now hclosed2
            rw [← hw2e]
            exact this
        rw [← h.2]
        linarith

/-- Under `Within`, a validity returned by `currentFor` is below `2 ^ 53` nanoseconds. -/
theorem currentFor_validity_lt (X : Env) (cfg : Configuration) (now : Time)
    (hwithin : Within X cfg) (ow : Option Window) (v : Duration)
    (h : currentFor X cfg now = .ret (ow, some v)) : v < 2 ^ 53 := by
  rcases currentFor_cases X cfg now with ⟨_, h0⟩ | ⟨_, hclosed, w', hw', h1⟩ |
    ⟨i, w', hi, hopen, hlast, h2⟩
  · rw [h0] at h; cases h
  · rw [h1] at h
    simp only [Outcome.ret.injEq, Prod.mk.injEq, Option.some.injEq] at h
    rw [← h.2]
    exact hwithin.nextWithin w' hw' now
  · rw [h2] at h
    have hmem : w' ∈ cfg.windows := List.getElem?_mem hi
    cases ho : ownEnd X w' now with
    | panic msg => rw [ho] at h; cases h
    | noFuel => rw [ho] at h; cases h
    | ret own =>
      rw [ho] at h
      simp only at h
      rw [laterEnd_eq_nextOpen] at h
      by_cases hc : own.toList ++
          (List.drop (i + 1) cfg.windows).map (fun w => X.NextOpenAfter w now) = []
      · rw [(nextOpen_min X now _ own).1 hc] at h
        cases h
      · obtain ⟨e, he, hmem_e, _⟩ := (nextOpen_min X now _ own).2 hc
        rw [he] at h
        simp only [Outcome.ret.injEq, Prod.mk.injEq, Option.some.injEq] at h
        rw [← h.2]
        rcases List.mem_append.1 hmem_e with hown | hnext
        · cases own with
          | none => simp at hown
          | some o =>
            simp only [Option.toList, List.mem_singleton] at hown
            subst hown
            cases hend : w'.end_ with
            | none =>
              have hday := (ownEnd_day_later X w' now e hend ho).2
              have h3 := day_eq
              have h53 : (2 : Int) ^ 53 = 9007199254740992 := by norm_num
              rw [h53]
              linarith
            | some t =>
              have hd : ownEnd X w' now = .ret (some (Date now t.hour t.minute)) := by
                simp [ownEnd, hend]
              rw [hd] at ho
              simp only [Outcome.ret.injEq, Option.some.injEq] at ho
              rw [← ho]
              exact hwithin.endWithin w' hmem now t hend
        · obtain ⟨w2, hw2, hw2e⟩ := List.mem_map.1 hnext
          rw [← hw2e]
          exact hwithin.nextWithin w2 (List.mem_of_mem_drop hw2) now

/-- Under `Within`, the duration of a schedule returned by `scheduleAt` is below `2 ^ 53`
nanoseconds. -/
theorem scheduleAt_duration_lt (X : Env) (cfg : Configuration) (at_ : Time) (minimal : Bool)
    (s : Schedule) (hwithin : Within X cfg) (h : scheduleAt X cfg at_ minimal = .ret s) :
    s.duration < 2 ^ 53 := by
  have hmin : (1 * Minute : Int) < 2 ^ 53 := by norm_num [Minute, Second]
  have hhour : (1 * Hour : Int) < 2 ^ 53 := by norm_num [Hour, Minute, Second]
  unfold scheduleAt at h
  cases hc : currentFor X cfg at_ with
  | panic msg => rw [hc] at h; cases h
  | noFuel => rw [hc] at h; cases h
  | ret r =>
    rw [hc] at h
    obtain ⟨ow, ov⟩ := r
    cases ow with
    | none =>
      cases ov with
      | none =>
        simp only [Outcome.ret.injEq] at h
        rw [← h]; exact hmin
      | some v =>
        have hv := currentFor_validity_lt X cfg at_ hwithin none v hc
        simp only at h
        split at h
        · simp only [Outcome.ret.injEq] at h
          rw [← h]; exact hmin
        · simp only [Outcome.ret.injEq] at h
          rw [← h]; exact hv
    | some w =>
      cases ov with
      | none =>
        simp only at h
        split at h
        · simp only [Outcome.ret.injEq] at h
          rw [← h]; exact hhour
        · simp only [Outcome.ret.injEq] at h
          rw [← h]; exact hmin
      | some v =>
        have hv := currentFor_validity_lt X cfg at_ hwithin (some w) v hc
        simp only [Outcome.ret.injEq] at h
        rw [← h]; exact hv

/-- A schedule returned by `scheduleAt` starts at `at_`, and under `Advances` its
duration is strictly positive. -/
theorem scheduleAt_shape (X : Env) (cfg : Configuration) (at_ : Time) (minimal : Bool)
    (s : Schedule) (hadv : Advances X cfg) (h : scheduleAt X cfg at_ minimal = .ret s) :
    s.validFrom = at_ ∧ 0 < s.duration := by
  have hmin : (0 : Int) < 1 * Minute := by norm_num [Minute, Second]
  have hhour : (0 : Int) < 1 * Hour := by norm_num [Hour, Minute, Second]
  unfold scheduleAt at h
  cases hc : currentFor X cfg at_ with
  | panic msg => rw [hc] at h; cases h
  | noFuel => rw [hc] at h; cases h
  | ret r =>
    rw [hc] at h
    obtain ⟨ow, ov⟩ := r
    cases ow with
    | none =>
      cases ov with
      | none =>
        simp only [Outcome.ret.injEq] at h
        rw [← h]; exact ⟨rfl, hmin⟩
      | some v =>
        have hv := currentFor_validity_pos X cfg at_ hadv none v hc
        simp only at h
        split at h
        · simp only [Outcome.ret.injEq] at h
          rw [← h]; exact ⟨rfl, hmin⟩
        · simp only [Outcome.ret.injEq] at h
          rw [← h]; exact ⟨rfl, hv⟩
    | some w =>
      cases ov with
      | none =>
        simp only at h
        split at h
        · simp only [Outcome.ret.injEq] at h
          rw [← h]; exact ⟨rfl, hhour⟩
        · simp only [Outcome.ret.injEq] at h
          rw [← h]; exact ⟨rfl, hmin⟩
      | some v =>
        have hv := currentFor_validity_pos X cfg at_ hadv (some w) v hc
        simp only [Outcome.ret.injEq] at h
        rw [← h]; exact ⟨rfl, hv⟩

/-- The rate of a schedule returned by `scheduleAt` is the zero rate or the rate of a
window of the configuration. -/
theorem scheduleAt_rate (X : Env) (cfg : Configuration) (at_ : Time) (minimal : Bool)
    (s : Schedule) (h : scheduleAt X cfg at_ minimal = .ret s) :
    s.rate = ⟨0, 0⟩ ∨ ∃ w ∈ cfg.windows, s.rate = w.rate := by
  unfold scheduleAt at h
  cases hc : currentFor X cfg at_ with
  | panic msg => rw [hc] at h; cases h
  | noFuel => rw [hc] at h; cases h
  | ret r =>
    rw [hc] at h
    obtain ⟨ow, ov⟩ := r
    cases ow with
    | none =>
      cases ov with
      | none =>
        simp only [Outcome.ret.injEq] at h
        rw [← h]; exact Or.inl rfl
      | some v =>
        simp only at h
        split at h <;>
        · simp only [Outcome.ret.injEq] at h
          rw [← h]; exact Or.inl rfl
    | some w =>
      have hw := currentFor_window_mem X cfg at_ w ov hc
      cases ov with
      | none =>
        simp only at h
        split at h <;>
        · simp only [Outcome.ret.injEq] at h
          rw [← h]; exact Or.inr ⟨w, hw, rfl⟩
      | some v =>
        simp only [Outcome.ret.injEq] at h
        rw [← h]; exact Or.inr ⟨w, hw, rfl⟩

/-- With every closing instant found, `scheduleAt` returns. -/
theorem scheduleAt_ret (X : Env) (cfg : Configuration) (at_ : Time) (minimal : Bool)
    (hfound : ∀ w ∈ cfg.windows, endFound X w) :
    ∃ s, scheduleAt X cfg at_ minimal = .ret s := by
  obtain ⟨⟨ow, ov⟩, hr⟩ := currentFor_ret X cfg at_ hfound
  unfold scheduleAt
  rw [hr]
  cases ow <;> cases ov <;> simp only <;> try split
  all_goals exact ⟨_, rfl⟩

/-! ## The loop of `Estimate` -/

/-- One round of the loop of `Estimate`, at an instant before the horizon at which
`scheduleAt` returns `s`. -/
theorem estimateLoop_step (X : Env) (cfg : Configuration) (until_ : Time) (fuel : Nat)
    (rem : Int) (at_ : Time) (s : Schedule) (hat : at_ < until_)
    (hs : scheduleAt X cfg at_ false = .ret s) :
    estimateLoop X cfg until_ (fuel + 1) rem at_ =
      if X.total s = -1 then .ret (some at_)
      else if X.total s = 0 then estimateLoop X cfg until_ fuel rem s.ValidUntil
      else if rem - X.total s < 0 then
        .ret (some (at_ + X.scale (s.ValidUntil - at_) (rem - X.total s) (X.total s)))
      else if rem - X.total s = 0 then .ret (some s.ValidUntil)
      else estimateLoop X cfg until_ fuel (rem - X.total s) s.ValidUntil := by
  simp only [estimateLoop, hat, if_true, hs]

/-- At or after the horizon the loop of `Estimate` is left without an estimate. -/
theorem estimateLoop_done (X : Env) (cfg : Configuration) (until_ : Time) (fuel : Nat)
    (rem : Int) (at_ : Time) (hat : ¬ at_ < until_) :
    estimateLoop X cfg until_ fuel rem at_ = .ret none := by
  cases fuel <;> simp [estimateLoop, hat]

/-- An estimate comes out of a round of the loop: the instant is before the horizon,
there is fuel, and `scheduleAt` returns. -/
theorem estimateLoop_some (X : Env) (cfg : Configuration) (until_ : Time) (fuel : Nat)
    (rem : Int) (at_ t : Time) (h : estimateLoop X cfg until_ fuel rem at_ = .ret (some t)) :
    at_ < until_ ∧ ∃ (fuel' : Nat) (s : Schedule), fuel = fuel' + 1 ∧
      scheduleAt X cfg at_ false = .ret s := by
  by_cases hat : at_ < until_
  · refine ⟨hat, ?_⟩
    cases fuel with
    | zero => simp [estimateLoop, hat] at h
    | succ fuel' =>
      cases hs : scheduleAt X cfg at_ false with
      | ret s => exact ⟨fuel', s, rfl, rfl⟩
      | panic msg => simp [estimateLoop, hat, hs] at h
      | noFuel => simp [estimateLoop, hat, hs] at h
  · rw [estimateLoop_done X cfg until_ fuel rem at_ hat] at h
    cases h

/-- More fuel does not change what the loop of `Estimate` returns. -/
theorem estimateLoop_fuel (X : Env) (cfg : Configuration) (until_ : Time) :
    ∀ (fuel fuel' : Nat) (rem : Int) (at_ : Time) (r : Option Time), fuel ≤ fuel' →
      estimateLoop X cfg until_ fuel rem at_ = .ret r →
      estimateLoop X cfg until_ fuel' rem at_ = .ret r := by
  intro fuel
  induction fuel with
  | zero =>
    intro fuel' rem at_ r _ h
    by_cases hat : at_ < until_
    · simp [estimateLoop, hat] at h
    · rw [estimateLoop_done X cfg until_ _ rem at_ hat] at h ⊢
      exact h
  | succ fuel ih =>
    intro fuel' rem at_ r hle h
    by_cases hat : at_ < until_
    · obtain ⟨k, rfl⟩ : ∃ k, fuel' = k + 1 := ⟨fuel' - 1, by omega⟩
      cases hs : scheduleAt X cfg at_ false with
      | panic msg => simp [estimateLoop, hat, hs] at h
      | noFuel => simp [estimateLoop, hat, hs] at h
      | ret s =>
        rw [estimateLoop_step X cfg until_ _ rem at_ s hat hs] at h ⊢
        by_cases h1 : X.total s = -1
        · simpa [h1] using h
        · by_cases h0 : X.total s = 0
          · simp only [h1, h0, if_false, if_true] at h ⊢
            exact ih k rem _ r (by omega) h
          · by_cases hneg : rem - X.total s < 0
            · simpa [h1, h0, hneg] using h
            · by_cases hz : rem - X.total s = 0
              · simpa [h1, h0, hneg, hz] using h
              · simp only [h1, h0, hneg, hz, if_false] at h ⊢
                exact ih k _ _ r (by omega) h
    · rw [estimateLoop_done X cfg until_ _ rem at_ hat] at h ⊢
      exact h

/-- An estimate of the loop is not before the instant the loop is entered at. -/
theorem estimateLoop_ge (X : Env) (cfg : Configuration) (until_ : Time)
    (hscale : ScaleBounds X) (hadv : Advances X cfg) (hwithin : Within X cfg) :
    ∀ (fuel : Nat) (rem : Int) (at_ t : Time), 0 ≤ rem →
      estimateLoop X cfg until_ fuel rem at_ = .ret (some t) → at_ ≤ t := by
  intro fuel
  induction fuel with
  | zero =>
    intro rem at_ t _ h
    obtain ⟨_, k, s, hk, _⟩ := estimateLoop_some X cfg until_ 0 rem at_ t h
    omega
  | succ fuel ih =>
    intro rem at_ t hrem h
    obtain ⟨hat, _, s, _, hs⟩ := estimateLoop_some X cfg until_ _ rem at_ t h
    obtain ⟨hfrom, hdur⟩ := scheduleAt_shape X cfg at_ false s hadv hs
    have hshort := scheduleAt_duration_lt X cfg at_ false s hwithin hs
    have hvu : s.ValidUntil = at_ + s.duration := by
      unfold Schedule.ValidUntil; rw [hfrom]
    rw [estimateLoop_step X cfg until_ _ rem at_ s hat hs] at h
    by_cases h1 : X.total s = -1
    · simp only [h1, if_true, Outcome.ret.injEq, Option.some.injEq] at h
      exact le_of_eq h
    · by_cases h0 : X.total s = 0
      · simp only [h1, h0, if_false, if_true] at h
        have := ih rem _ t hrem h
        rw [hvu] at this
        linarith
      · by_cases hneg : rem - X.total s < 0
        · simp only [h1, h0, hneg, if_false, if_true, Outcome.ret.injEq,
            Option.some.injEq] at h
          have hd : s.ValidUntil - at_ = s.duration := by rw [hvu]; ring
          rw [hd] at h
          have := hscale.nonneg s.duration (rem - X.total s) (X.total s) (le_of_lt hdur)
            hshort (by linarith) (by linarith) hneg
          rw [← h]
          linarith
        · by_cases hz : rem - X.total s = 0
          · rw [if_neg h1, if_neg h0, if_neg hneg, if_pos hz] at h
            simp only [Outcome.ret.injEq, Option.some.injEq] at h
            rw [← h, hvu]
            linarith
          · simp only [h1, h0, hneg, hz, if_false] at h
            have hpos : 0 ≤ rem - X.total s := not_lt.1 hneg
            have := ih _ _ t hpos h
            rw [hvu] at this
            linarith

/-- The loop of `Estimate` is monotone in the remaining count. -/
theorem estimateLoop_mono (X : Env) (cfg : Configuration) (until_ : Time)
    (hscale : ScaleBounds X) (hadv : Advances X cfg) (hwithin : Within X cfg) :
    ∀ (fuel1 fuel2 : Nat) (rem1 rem2 : Int) (at_ t1 t2 : Time), 0 ≤ rem1 → rem1 ≤ rem2 →
      estimateLoop X cfg until_ fuel1 rem1 at_ = .ret (some t1) →
      estimateLoop X cfg until_ fuel2 rem2 at_ = .ret (some t2) → t1 ≤ t2 := by
  intro fuel1
  induction fuel1 with
  | zero =>
    intro fuel2 rem1 rem2 at_ t1 t2 _ _ h1 _
    obtain ⟨_, k, s, hk, _⟩ := estimateLoop_some X cfg until_ 0 rem1 at_ t1 h1
    omega
  | succ fuel1 ih =>
    intro fuel2 rem1 rem2 at_ t1 t2 hrem hle h1 h2
    obtain ⟨hat, _, s, _, hs⟩ := estimateLoop_some X cfg until_ _ rem1 at_ t1 h1
    obtain ⟨_, k2, s2, hk2, hs2⟩ := estimateLoop_some X cfg until_ _ rem2 at_ t2 h2
    subst hk2
    obtain ⟨hfrom, hdur⟩ := scheduleAt_shape X cfg at_ false s hadv hs
    have hshort := scheduleAt_duration_lt X cfg at_ false s hwithin hs
    have hvu : s.ValidUntil = at_ + s.duration := by
      unfold Schedule.ValidUntil; rw [hfrom]
    have hd : s.ValidUntil - at_ = s.duration := by rw [hvu]; ring
    rw [estimateLoop_step X cfg until_ _ rem1 at_ s hat hs] at h1
    rw [estimateLoop_step X cfg until_ _ rem2 at_ s hat hs] at h2
    by_cases hu : X.total s = -1
    · simp only [hu, if_true, Outcome.ret.injEq, Option.some.injEq] at h1 h2
      rw [← h1, ← h2]
    · by_cases h0 : X.total s = 0
      · simp only [hu, h0, if_false, if_true] at h1 h2
        exact ih k2 rem1 rem2 _ t1 t2 hrem hle h1 h2
      · simp only [hu, h0, if_false] at h1 h2
        by_cases hneg1 : rem1 - X.total s < 0
        · simp only [hneg1, if_true, Outcome.ret.injEq, Option.some.injEq, hd] at h1
          have hT : 0 < X.total s := by linarith
          have hlow : -X.total s ≤ rem1 - X.total s := by linarith
          have hle1 := hscale.le s.duration (rem1 - X.total s) (X.total s) (le_of_lt hdur)
            hshort hT hlow hneg1
          by_cases hneg2 : rem2 - X.total s < 0
          · simp only [hneg2, if_true, Outcome.ret.injEq, Option.some.injEq, hd] at h2
            have := hscale.mono s.duration (rem1 - X.total s) (rem2 - X.total s)
              (X.total s) (le_of_lt hdur) hshort hT hlow (by linarith) hneg2
            rw [← h1, ← h2]
            linarith
          · by_cases hz2 : rem2 - X.total s = 0
            · rw [if_neg hneg2, if_pos hz2] at h2
              simp only [Outcome.ret.injEq, Option.some.injEq] at h2
              rw [← h1, ← h2, hvu]
              linarith
            · simp only [hneg2, hz2, if_false] at h2
              have := estimateLoop_ge X cfg until_ hscale hadv hwithin k2 _ _ t2 (not_lt.1 hneg2) h2
              rw [hvu] at this
              rw [← h1]
              linarith
        · have hneg2 : ¬ rem2 - X.total s < 0 := by
            intro hc
            exact hneg1 (by linarith)
          by_cases hz1 : rem1 - X.total s = 0
          · rw [if_neg hneg1, if_pos hz1] at h1
            simp only [Outcome.ret.injEq, Option.some.injEq] at h1
            by_cases hz2 : rem2 - X.total s = 0
            · rw [if_neg hneg2, if_pos hz2] at h2
              simp only [Outcome.ret.injEq, Option.some.injEq] at h2
              rw [← h1, ← h2]
            · simp only [hneg2, hz2, if_false] at h2
              have := estimateLoop_ge X cfg until_ hscale hadv hwithin k2 _ _ t2 (not_lt.1 hneg2) h2
              rw [← h1]
              exact this
          · have hz2 : ¬ rem2 - X.total s = 0 := by
              intro hc
              have h3 : 0 ≤ rem1 - X.total s := not_lt.1 hneg1
              have h4 : rem1 - X.total s ≤ 0 := by linarith
              exact hz1 (le_antisymm h4 h3)
            simp only [hneg1, hz1, if_false] at h1
            simp only [hneg2, hz2, if_false] at h2
            exact ih k2 _ _ _ t1 t2 (not_lt.1 hneg1) (by linarith) h1 h2

/-- C7. `Estimate` is monotone in the queue position: for `0 ≤ n ≤ m`, an estimate for
position `n` is not after an estimate for position `m`, whatever fuel each run is given.
The windows are assumed to advance (`Advances`) by less than `2 ^ 53` nanoseconds
(`Within`) and the floating point expression to scale within its bounds
(`ScaleBounds`). -/
theorem Estimate_monotone (X : Env) (cfg : Configuration) (hscale : ScaleBounds X)
    (hadv : Advances X cfg) (hwithin : Within X cfg) (now : Time) (n m : Int) (hn : 0 ≤ n) (hnm : n ≤ m)
    (fuel1 fuel2 : Nat) (t1 t2 : Time)
    (h1 : Estimate X cfg fuel1 now n = .ret (some t1))
    (h2 : Estimate X cfg fuel2 now m = .ret (some t2)) : t1 ≤ t2 := by
  unfold Estimate at h1 h2
  by_cases hw : cfg.HasRolloutWindows = true
  · simp only [hw, Bool.not_true, Bool.false_eq_true, if_false] at h1 h2
    exact estimateLoop_mono X cfg _ hscale hadv hwithin fuel1 fuel2 n m now t1 t2 hn hnm h1 h2
  · simp only [hw, Bool.not_false, if_true, Outcome.ret.injEq, Option.some.injEq] at h1 h2
    rw [← h1, ← h2]

/-! ## `Estimate` along the successive schedules -/

theorem scheduleAt_validFrom (X : Env) (cfg : Configuration) (at_ : Time) (minimal : Bool)
    (s : Schedule) (h : scheduleAt X cfg at_ minimal = .ret s) : s.validFrom = at_ := by
  unfold scheduleAt at h
  cases hc : currentFor X cfg at_ with
  | panic msg => rw [hc] at h; cases h
  | noFuel => rw [hc] at h; cases h
  | ret r =>
    rw [hc] at h
    obtain ⟨ow, ov⟩ := r
    cases ow <;> cases ov <;> simp only at h <;> try split at h
    all_goals
      simp only [Outcome.ret.injEq] at h
      rw [← h]; rfl

theorem isWalk_cons (X : Env) (cfg : Configuration) (at_ : Time) (s : Schedule)
    (ss : List Schedule) :
    isWalk X cfg at_ (s :: ss) = true ↔
      scheduleAt X cfg at_ false = .ret s ∧ isWalk X cfg s.ValidUntil ss = true := by
  simp [isWalk]

/-- Under `Advances` the schedules of a walk start at or after the instant the walk
starts at. -/
theorem isWalk_start_le (X : Env) (cfg : Configuration) (hadv : Advances X cfg) :
    ∀ (ss : List Schedule) (at_ : Time), isWalk X cfg at_ ss = true →
      ∀ s ∈ ss, at_ ≤ s.validFrom := by
  intro ss
  induction ss with
  | nil => intro at_ _ s hs; simp at hs
  | cons s0 ss ih =>
    intro at_ hwalk s hs
    obtain ⟨h0, hrest⟩ := (isWalk_cons X cfg at_ s0 ss).1 hwalk
    obtain ⟨hfrom, hdur⟩ := scheduleAt_shape X cfg at_ false s0 hadv h0
    rcases List.mem_cons.1 hs with rfl | hmem
    · exact le_of_eq hfrom.symm
    · have := ih s0.ValidUntil hrest s hmem
      unfold Schedule.ValidUntil at this
      rw [hfrom] at this
      linarith

/-- Under `Advances` the schedules of a walk before its last one start before it. -/
theorem isWalk_start_le_last (X : Env) (cfg : Configuration) (hadv : Advances X cfg) :
    ∀ (ss : List Schedule) (S : Schedule) (at_ : Time),
      isWalk X cfg at_ (ss ++ [S]) = true → ∀ s ∈ ss ++ [S], s.validFrom ≤ S.validFrom := by
  intro ss
  induction ss with
  | nil =>
    intro S at_ _ s hs
    simp only [List.nil_append, List.mem_singleton] at hs
    rw [hs]
  | cons s0 ss ih =>
    intro S at_ hwalk s hs
    obtain ⟨h0, hrest⟩ := (isWalk_cons X cfg at_ s0 (ss ++ [S])).1 hwalk
    obtain ⟨hfrom, hdur⟩ := scheduleAt_shape X cfg at_ false s0 hadv h0
    rcases List.mem_cons.1 hs with rfl | hmem
    · have := isWalk_start_le X cfg hadv (ss ++ [S]) s.ValidUntil hrest S (by simp)
      unfold Schedule.ValidUntil at this
      linarith
    · exact ih S s0.ValidUntil hrest s hmem

/-- Under `Advances` the schedules of a walk have a positive duration. -/
theorem isWalk_duration_pos (X : Env) (cfg : Configuration) (hadv : Advances X cfg) :
    ∀ (ss : List Schedule) (at_ : Time), isWalk X cfg at_ ss = true →
      ∀ s ∈ ss, 0 < s.duration := by
  intro ss
  induction ss with
  | nil => intro at_ _ s hs; simp at hs
  | cons s0 ss ih =>
    intro at_ hwalk s hs
    obtain ⟨h0, hrest⟩ := (isWalk_cons X cfg at_ s0 ss).1 hwalk
    rcases List.mem_cons.1 hs with rfl | hmem
    · exact (scheduleAt_shape X cfg at_ false s hadv h0).2
    · exact ih s0.ValidUntil hrest s hmem

theorem positiveTotals_cons (X : Env) (s : Schedule) (ss : List Schedule) :
    positiveTotals X (s :: ss) = max (X.total s) 0 + positiveTotals X ss := by
  simp [positiveTotals]

theorem positiveTotals_nonneg (X : Env) (ss : List Schedule) : 0 ≤ positiveTotals X ss := by
  induction ss with
  | nil => simp [positiveTotals]
  | cons s ss ih =>
    rw [positiveTotals_cons]
    have := le_max_right (X.total s) 0
    linarith

theorem positiveTotals_append_singleton (X : Env) (ss : List Schedule) (S : Schedule) :
    positiveTotals X (ss ++ [S]) = positiveTotals X ss + max (X.total S) 0 := by
  simp [positiveTotals]

/-- The loop of `Estimate` along a walk whose schedules start before the horizon and are
not unlimited: entered with the capacity of the schedules before `S` plus a remaining
count `r` below the capacity of `S`, it returns the scaled point inside `S`, or the end
of `S` when `r` is the whole capacity of `S`. -/
theorem estimateLoop_walk (X : Env) (cfg : Configuration) (until_ : Time) (S : Schedule)
    (hS : 0 < X.total S) (r : Int) (hr : 0 ≤ r) (hrT : r ≤ X.total S) :
    ∀ (ss : List Schedule) (at_ : Time) (fuel : Nat),
      isWalk X cfg at_ (ss ++ [S]) = true →
      (∀ s ∈ ss ++ [S], s.validFrom < until_) →
      (∀ s ∈ ss, 0 ≤ X.total s) →
      (r = 0 → positiveTotals X ss = 0) →
      ss.length + 1 ≤ fuel →
      estimateLoop X cfg until_ fuel (positiveTotals X ss + r) at_ =
        if r = X.total S then .ret (some S.ValidUntil)
        else .ret (some (S.validFrom + X.scale S.duration (r - X.total S) (X.total S))) := by
  intro ss
  induction ss with
  | nil =>
    intro at_ fuel hwalk hstart _ _ hfuel
    obtain ⟨k, rfl⟩ : ∃ k, fuel = k + 1 := ⟨fuel - 1, by omega⟩
    obtain ⟨h0, _⟩ := (isWalk_cons X cfg at_ S []).1 hwalk
    have hfrom := scheduleAt_validFrom X cfg at_ false S h0
    have hat : at_ < until_ := by
      have := hstart S (by simp)
      rw [hfrom] at this; exact this
    have hd : S.ValidUntil - at_ = S.duration := by
      unfold Schedule.ValidUntil; rw [hfrom]; ring
    rw [estimateLoop_step X cfg until_ k _ at_ S hat h0]
    have h1 : ¬ X.total S = -1 := by intro hc; rw [hc] at hS; exact absurd hS (by decide)
    have h2 : ¬ X.total S = 0 := by intro hc; rw [hc] at hS; exact absurd hS (by decide)
    rw [if_neg h1, if_neg h2]
    simp only [positiveTotals, List.map_nil, List.sum_nil, zero_add]
    by_cases heq : r = X.total S
    · have hn : ¬ r - X.total S < 0 := by rw [heq]; simp
      have hz : r - X.total S = 0 := by rw [heq]; simp
      rw [if_neg hn, if_pos hz, if_pos heq]
    · have hn : r - X.total S < 0 := by
        have : r < X.total S := lt_of_le_of_ne hrT heq
        linarith
      rw [if_pos hn, if_neg heq, hd, hfrom]
  | cons s0 ss ih =>
    intro at_ fuel hwalk hstart htot hzero hfuel
    obtain ⟨k, rfl⟩ : ∃ k, fuel = k + 1 := ⟨fuel - 1, by simp at hfuel; omega⟩
    obtain ⟨h0, hrest⟩ := (isWalk_cons X cfg at_ s0 (ss ++ [S])).1 hwalk
    have hfrom := scheduleAt_validFrom X cfg at_ false s0 h0
    have hat : at_ < until_ := by
      have := hstart s0 (by simp)
      rw [hfrom] at this; exact this
    have hs0 : 0 ≤ X.total s0 := htot s0 (List.mem_cons_self _ _)
    have hnn := positiveTotals_nonneg X ss
    have hih := ih s0.ValidUntil k hrest
      (fun s hs => hstart s (List.mem_cons_of_mem _ hs))
      (fun s hs => htot s (List.mem_cons_of_mem _ hs))
      (by
        intro hr0
        have := hzero hr0
        rw [positiveTotals_cons] at this
        have := le_max_right (X.total s0) 0
        linarith)
      (by simp at hfuel; omega)
    rw [estimateLoop_step X cfg until_ k _ at_ s0 hat h0]
    have h1 : ¬ X.total s0 = -1 := by intro hc; rw [hc] at hs0; exact absurd hs0 (by decide)
    rw [if_neg h1]
    rw [positiveTotals_cons, max_eq_left hs0]
    by_cases h2 : X.total s0 = 0
    · rw [if_pos h2, h2, zero_add]
      exact hih
    · rw [if_neg h2]
      have hpos : 0 < X.total s0 := lt_of_le_of_ne hs0 (Ne.symm h2)
      have hsimp : X.total s0 + positiveTotals X ss + r - X.total s0 =
          positiveTotals X ss + r := by ring
      rw [hsimp]
      have hgt : 0 < positiveTotals X ss + r := by
        rcases lt_or_eq_of_le hr with hlt | heq
        · linarith
        · have := hzero heq.symm
          rw [positiveTotals_cons, max_eq_left hs0] at this
          linarith
      rw [if_neg (not_lt.2 (le_of_lt hgt)), if_neg (ne_of_gt hgt)]
      exact hih

/-- C8, as amended.  Walking the successive non-minimal schedules from `now`, let no
unlimited schedule be met before a schedule `S` that starts within the 7-day horizon
and has a positive total capacity, and let `n` be the sum of the positive total
capacities of the schedules up to and including `S`.  Then `Estimate` returns exactly
the end instant of `S`, with any fuel of at least the number of schedules.  The windows
are assumed to advance (`Advances`) and a total capacity other than the unlimited `-1`
not to be negative. -/
theorem Estimate_boundary (X : Env) (cfg : Configuration) (hne : cfg.windows ≠ [])
    (hadv : Advances X cfg) (now : Time) (ss : List Schedule) (S : Schedule)
    (hwalk : isWalk X cfg now (ss ++ [S]) = true)
    (hlimited : ∀ s ∈ ss, X.total s ≠ -1) (hcount : ∀ s ∈ ss, -1 ≤ X.total s)
    (hhorizon : S.validFrom < now + 7 * 24 * Hour) (hS : 0 < X.total S)
    (n : Int) (hn : n = positiveTotals X (ss ++ [S]))
    (fuel : Nat) (hfuel : ss.length + 1 ≤ fuel) :
    Estimate X cfg fuel now n = .ret (some (S.validFrom + S.duration)) := by
  have hw : cfg.HasRolloutWindows = true := by
    cases h : cfg.windows with
    | nil => exact absurd h hne
    | cons w ws => simp [Configuration.HasRolloutWindows, h]
  have htot : ∀ s ∈ ss, 0 ≤ X.total s := by
    intro s hs
    have h1 := hlimited s hs
    have h2 := hcount s hs
    rcases lt_or_eq_of_le h2 with h | h
    · linarith
    · exact absurd h.symm h1
  have hstart : ∀ s ∈ ss ++ [S], s.validFrom < now + 7 * 24 * Hour := by
    intro s hs
    have := isWalk_start_le_last X cfg hadv ss S now hwalk s hs
    linarith
  have hloop := estimateLoop_walk X cfg (now + 7 * 24 * Hour) S hS (X.total S)
    (le_of_lt hS) (le_refl _) ss now fuel hwalk hstart htot
    (by intro h; rw [h] at hS; exact absurd hS (lt_irrefl 0)) hfuel
  rw [if_pos rfl] at hloop
  unfold Estimate
  rw [hw]
  simp only [Bool.not_true, Bool.false_eq_true, if_false]
  rw [hn, positiveTotals_append_singleton, max_eq_left (le_of_lt hS), hloop]
  rfl

/-- C9, as amended.  Walking the successive non-minimal schedules from `now`, let no
unlimited schedule be met before a schedule `S` that starts within the 7-day horizon
and has a total capacity `T > 0`, and let the remaining count before `S`, the position
`n` less the capacities of the schedules before `S`, be `r` with `0 ≤ r < T`, the
position not being reached before `S`.  Then `Estimate` returns the start of `S` plus
the duration of `S` scaled by the floating point expression for the remaining count
`r - T`, which in exact arithmetic is `D * r / T`. -/
theorem Estimate_inside (X : Env) (cfg : Configuration) (hne : cfg.windows ≠ [])
    (hadv : Advances X cfg) (now : Time) (ss : List Schedule) (S : Schedule)
    (hwalk : isWalk X cfg now (ss ++ [S]) = true)
    (hlimited : ∀ s ∈ ss, X.total s ≠ -1) (hcount : ∀ s ∈ ss, -1 ≤ X.total s)
    (hhorizon : S.validFrom < now + 7 * 24 * Hour) (hS : 0 < X.total S)
    (n r : Int) (hn : n = positiveTotals X ss + r) (hr : 0 ≤ r) (hrT : r < X.total S)
    (hbefore : r = 0 → positiveTotals X ss = 0)
    (fuel : Nat) (hfuel : ss.length + 1 ≤ fuel) :
    Estimate X cfg fuel now n =
        .ret (some (S.validFrom + X.scale S.duration (r - X.total S) (X.total S))) ∧
      exactScale S.duration (r - X.total S) (X.total S) = S.duration * r / X.total S := by
  have hw : cfg.HasRolloutWindows = true := by
    cases h : cfg.windows with
    | nil => exact absurd h hne
    | cons w ws => simp [Configuration.HasRolloutWindows, h]
  have htot : ∀ s ∈ ss, 0 ≤ X.total s := by
    intro s hs
    have h1 := hlimited s hs
    have h2 := hcount s hs
    rcases lt_or_eq_of_le h2 with h | h
    · linarith
    · exact absurd h.symm h1
  have hstart : ∀ s ∈ ss ++ [S], s.validFrom < now + 7 * 24 * Hour := by
    intro s hs
    have := isWalk_start_le_last X cfg hadv ss S now hwalk s hs
    linarith
  have hloop := estimateLoop_walk X cfg (now + 7 * 24 * Hour) S hS r hr (le_of_lt hrT)
    ss now fuel hwalk hstart htot hbefore hfuel
  rw [if_neg (ne_of_lt hrT)] at hloop
  constructor
  · unfold Estimate
    rw [hw]
    simp only [Bool.not_true, Bool.false_eq_true, if_false]
    rw [hn, hloop]
  · have hdur : 0 < S.duration :=
      isWalk_duration_pos X cfg hadv (ss ++ [S]) now hwalk S (by simp)
    unfold exactScale
    have habs : |r - X.total S| = X.total S - r := by
      rw [abs_of_neg (by linarith)]; ring
    rw [habs]
    have hsub : X.total S - (X.total S - r) = r := by ring
    rw [hsub]
    exact Int.tdiv_eq_ediv (mul_nonneg (le_of_lt hdur) hr) (le_of_lt hS)

/-! ## Rounding to binary64 -/

theorem halvings_spec : ∀ (fuel n : Nat), 0 < n → n ≤ fuel →
    2 ^ halvings fuel n ≤ n ∧ n < 2 ^ (halvings fuel n + 1) := by
  intro fuel
  induction fuel with
  | zero => intro n h1 h2; omega
  | succ fuel ih =>
    intro n hn hle
    unfold halvings
    by_cases h2 : n < 2
    · simp only [h2, if_true]
      constructor <;> simp <;> omega
    · simp only [h2, if_false]
      have hhalf : 0 < n / 2 := Nat.div_pos (by omega) (by decide)
      obtain ⟨hlo, hhi⟩ := ih (n / 2) hhalf (by omega)
      constructor
      · calc 2 ^ (halvings fuel (n / 2) + 1) = 2 ^ halvings fuel (n / 2) * 2 := pow_succ _ _
          _ ≤ n / 2 * 2 := Nat.mul_le_mul_right 2 hlo
          _ ≤ n := Nat.div_mul_le_self n 2
      · have : n < (n / 2 + 1) * 2 := by omega
        calc n < (n / 2 + 1) * 2 := this
          _ ≤ 2 ^ (halvings fuel (n / 2) + 1) * 2 := Nat.mul_le_mul_right 2 hhi
          _ = 2 ^ (halvings fuel (n / 2) + 1 + 1) := (pow_succ _ _).symm

theorem floorLog2_spec (n : Nat) (hn : 0 < n) :
    2 ^ floorLog2 n ≤ n ∧ n < 2 ^ (floorLog2 n + 1) :=
  halvings_spec n n hn (le_refl n)

theorem two_zpow_split (e : Int) :
    (2 : ℚ) ^ e = (2 : ℚ) ^ e.toNat / (2 : ℚ) ^ (-e).toNat := by
  rcases le_or_lt 0 e with h | h
  · have h1 : (-e).toNat = 0 := by omega
    have h2 : e = (e.toNat : Int) := by omega
    rw [h1, pow_zero, div_one]
    conv_lhs => rw [h2]
    exact zpow_natCast 2 _
  · have h1 : e.toNat = 0 := by omega
    have h2 : e = -((-e).toNat : Int) := by omega
    rw [h1, pow_zero, one_div]
    conv_lhs => rw [h2]
    rw [zpow_neg, zpow_natCast]

theorem binExp_spec (a b : Nat) (ha : 0 < a) (hb : 0 < b) :
    (2 : ℚ) ^ binExp a b ≤ (a : ℚ) / b ∧ (a : ℚ) / b < (2 : ℚ) ^ (binExp a b + 1) := by
  obtain ⟨hal, hah⟩ := floorLog2_spec a ha
  obtain ⟨hbl, hbh⟩ := floorLog2_spec b hb
  have hbq : (0 : ℚ) < b := by exact_mod_cast hb
  have hal' : (2 : ℚ) ^ (floorLog2 a : Int) ≤ a := by
    rw [zpow_natCast]; exact_mod_cast hal
  have hah' : (a : ℚ) < (2 : ℚ) ^ ((floorLog2 a : Int) + 1) := by
    have : ((floorLog2 a : Int) + 1) = ((floorLog2 a + 1 : Nat) : Int) := by push_cast; ring
    rw [this, zpow_natCast]; exact_mod_cast hah
  have hbl' : (2 : ℚ) ^ (floorLog2 b : Int) ≤ b := by
    rw [zpow_natCast]; exact_mod_cast hbl
  have hbh' : (b : ℚ) < (2 : ℚ) ^ ((floorLog2 b : Int) + 1) := by
    have : ((floorLog2 b : Int) + 1) = ((floorLog2 b + 1 : Nat) : Int) := by push_cast; ring
    rw [this, zpow_natCast]; exact_mod_cast hbh
  have h2 : (0 : ℚ) < 2 := by norm_num
  have hpos : ∀ e : Int, (0 : ℚ) < (2 : ℚ) ^ e := fun e => zpow_pos h2 e
  -- the quotient is below 2 ^ (e0 + 1) and above 2 ^ (e0 - 1)
  have hupper : (a : ℚ) / b < (2 : ℚ) ^ ((floorLog2 a : Int) - (floorLog2 b : Int) + 1) := by
    rw [div_lt_iff₀ hbq]
    have e1 : (2 : ℚ) ^ ((floorLog2 a : Int) - (floorLog2 b : Int) + 1) =
        (2 : ℚ) ^ ((floorLog2 a : Int) + 1) / (2 : ℚ) ^ (floorLog2 b : Int) := by
      rw [← zpow_sub₀ (by norm_num : (2 : ℚ) ≠ 0)]; congr 1; ring
    rw [e1, div_mul_eq_mul_div, lt_div_iff₀ (hpos _)]
    calc (a : ℚ) * (2 : ℚ) ^ (floorLog2 b : Int) ≤ a * b :=
          mul_le_mul_of_nonneg_left hbl' (by exact_mod_cast ha.le)
      _ < (2 : ℚ) ^ ((floorLog2 a : Int) + 1) * b := mul_lt_mul_of_pos_right hah' hbq
  have hlower : (2 : ℚ) ^ ((floorLog2 a : Int) - (floorLog2 b : Int) - 1) < (a : ℚ) / b := by
    rw [lt_div_iff₀ hbq]
    have e1 : (2 : ℚ) ^ ((floorLog2 a : Int) - (floorLog2 b : Int) - 1) =
        (2 : ℚ) ^ (floorLog2 a : Int) / (2 : ℚ) ^ ((floorLog2 b : Int) + 1) := by
      rw [← zpow_sub₀ (by norm_num : (2 : ℚ) ≠ 0)]; congr 1; ring
    rw [e1, div_mul_eq_mul_div, div_lt_iff₀ (hpos _)]
    calc (2 : ℚ) ^ (floorLog2 a : Int) * b < (2 : ℚ) ^ (floorLog2 a : Int) *
          (2 : ℚ) ^ ((floorLog2 b : Int) + 1) := mul_lt_mul_of_pos_left hbh' (hpos _)
      _ ≤ a * (2 : ℚ) ^ ((floorLog2 b : Int) + 1) :=
          mul_le_mul_of_nonneg_right hal' (hpos _).le
  -- the test of `binExp`
  have htest : b * 2 ^ ((floorLog2 a : Int) - (floorLog2 b : Int)).toNat ≤
      a * 2 ^ (-((floorLog2 a : Int) - (floorLog2 b : Int))).toNat ↔
      (2 : ℚ) ^ ((floorLog2 a : Int) - (floorLog2 b : Int)) ≤ (a : ℚ) / b := by
    rw [two_zpow_split, div_le_div_iff₀ (pow_pos h2 _) hbq]
    constructor
    · intro h
      have : ((b * 2 ^ ((floorLog2 a : Int) - (floorLog2 b : Int)).toNat : Nat) : ℚ) ≤
          ((a * 2 ^ (-((floorLog2 a : Int) - (floorLog2 b : Int))).toNat : Nat) : ℚ) := by
        exact_mod_cast h
      push_cast at this
      linarith
    · intro h
      have : ((b * 2 ^ ((floorLog2 a : Int) - (floorLog2 b : Int)).toNat : Nat) : ℚ) ≤
          ((a * 2 ^ (-((floorLog2 a : Int) - (floorLog2 b : Int))).toNat : Nat) : ℚ) := by
        push_cast
        linarith
      exact_mod_cast this
  unfold binExp
  simp only
  split
  · rename_i h
    exact ⟨htest.1 h, hupper⟩
  · rename_i h
    have hlt : (a : ℚ) / b < (2 : ℚ) ^ ((floorLog2 a : Int) - (floorLog2 b : Int)) := by
      by_contra hc
      exact h (htest.2 (not_lt.1 hc))
    refine ⟨hlower.le, ?_⟩
    have : (floorLog2 a : Int) - (floorLog2 b : Int) - 1 + 1 =
        (floorLog2 a : Int) - (floorLog2 b : Int) := by ring
    rw [this]
    exact hlt

theorem roundHalfEven_floor (N M : Nat) :
    N / M ≤ roundHalfEven N M ∧ roundHalfEven N M ≤ N / M + 1 := by
  unfold roundHalfEven
  simp only
  split <;> omega

theorem roundHalfEven_ge (N M k : Nat) (hM : 0 < M) (h : k * M ≤ N) :
    k ≤ roundHalfEven N M :=
  le_trans ((Nat.le_div_iff_mul_le hM).2 h) (roundHalfEven_floor N M).1

theorem roundHalfEven_le (N M k : Nat) (hM : 0 < M) (h : N ≤ k * M) :
    roundHalfEven N M ≤ k := by
  have hm : N / M ≤ k := by
    have := Nat.div_le_div_right (c := M) h
    rwa [Nat.mul_div_cancel _ hM] at this
  rcases Nat.lt_or_ge (N / M) k with hlt | hge
  · exact le_trans (roundHalfEven_floor N M).2 hlt
  · have hmk : N / M = k := le_antisymm hm hge
    have hN : N = k * M := by
      apply le_antisymm h
      rw [← hmk]
      exact Nat.div_mul_le_self N M
    have hr : N % M = 0 := by rw [hN]; exact Nat.mul_mod_left k M
    unfold roundHalfEven
    simp only [hr, hmk]
    have h1 : ¬ (M < 2 * 0 ∨ 2 * 0 = M ∧ k % 2 = 1) := by omega
    rw [if_neg h1]

theorem roundHalfEven_mono (N1 M1 N2 M2 : Nat) (h1 : 0 < M1) (h2 : 0 < M2)
    (h : N1 * M2 ≤ N2 * M1) : roundHalfEven N1 M1 ≤ roundHalfEven N2 M2 := by
  have hd1 := Nat.div_add_mod N1 M1
  have hd2 := Nat.div_add_mod N2 M2
  have hr1 := Nat.mod_lt N1 h1
  have hr2 := Nat.mod_lt N2 h2
  have hfloor : N1 / M1 ≤ N2 / M2 := by
    rw [Nat.le_div_iff_mul_le h2]
    have hle : N1 / M1 * M1 ≤ N1 := Nat.div_mul_le_self N1 M1
    have : N1 / M1 * M2 * M1 ≤ N2 * M1 := by
      calc N1 / M1 * M2 * M1 = N1 / M1 * M1 * M2 := by ring
        _ ≤ N1 * M2 := Nat.mul_le_mul_right M2 hle
        _ ≤ N2 * M1 := h
    exact Nat.le_of_mul_le_mul_right this h1
  rcases Nat.lt_or_ge (N1 / M1) (N2 / M2) with hlt | hge
  · exact le_trans (roundHalfEven_floor N1 M1).2 (le_trans hlt (roundHalfEven_floor N2 M2).1)
  · have hm : N1 / M1 = N2 / M2 := le_antisymm hfloor hge
    -- the remainders compare as the quotients do
    have hrem : N1 % M1 * M2 ≤ N2 % M2 * M1 := by
      have e1 : N1 * M2 = M1 * M2 * (N1 / M1) + N1 % M1 * M2 := by
        conv_lhs => rw [← hd1]
        ring
      have e2 : N2 * M1 = M1 * M2 * (N2 / M2) + N2 % M2 * M1 := by
        conv_lhs => rw [← hd2]
        ring
      rw [e1, e2, hm] at h
      exact Nat.le_of_add_le_add_left h
    unfold roundHalfEven
    simp only
    by_cases hup1 : M1 < 2 * (N1 % M1) ∨ 2 * (N1 % M1) = M1 ∧ N1 / M1 % 2 = 1
    · have hup2 : M2 < 2 * (N2 % M2) ∨ 2 * (N2 % M2) = M2 ∧ N2 / M2 % 2 = 1 := by
        rcases hup1 with hlt | ⟨heq, hodd⟩
        · left
          have : M1 * M2 < 2 * (N2 % M2) * M1 := by
            calc M1 * M2 < 2 * (N1 % M1) * M2 := Nat.mul_lt_mul_of_pos_right hlt h2
              _ = 2 * (N1 % M1 * M2) := by ring
              _ ≤ 2 * (N2 % M2 * M1) := Nat.mul_le_mul_left 2 hrem
              _ = 2 * (N2 % M2) * M1 := by ring
          have : M2 * M1 < 2 * (N2 % M2) * M1 := by rwa [Nat.mul_comm M2 M1]
          exact Nat.lt_of_mul_lt_mul_right this
        · have hle : M2 * M1 ≤ 2 * (N2 % M2) * M1 := by
            calc M2 * M1 = 2 * (N1 % M1) * M2 := by rw [heq]; ring
              _ = 2 * (N1 % M1 * M2) := by ring
              _ ≤ 2 * (N2 % M2 * M1) := Nat.mul_le_mul_left 2 hrem
              _ = 2 * (N2 % M2) * M1 := by ring
          have hle' : M2 ≤ 2 * (N2 % M2) := Nat.le_of_mul_le_mul_right hle h1
          rcases Nat.lt_or_ge M2 (2 * (N2 % M2)) with hlt | hge2
          · exact Or.inl hlt
          · exact Or.inr ⟨le_antisymm hge2 hle', by rw [← hm]; exact hodd⟩
      rw [if_pos hup1, if_pos hup2, hm]
    · rw [if_neg hup1]
      split
      · omega
      · omega

theorem roundPos_den_pos (a b : Nat) : 0 < (roundPos a b).den := by
  unfold roundPos
  simp only
  exact pow_pos (by decide) _

theorem roundPos_val (a b : Nat) :
    (roundPos a b).val =
      (roundHalfEven (a * 2 ^ (52 - binExp a b).toNat) (b * 2 ^ (-(52 - binExp a b)).toNat) : ℚ) /
        (2 : ℚ) ^ (52 - binExp a b) := by
  unfold roundPos Frac.val
  simp only
  rw [two_zpow_split (52 - binExp a b)]
  have hQ : ((2 : ℚ) ^ (-(52 - binExp a b)).toNat) ≠ 0 := pow_ne_zero _ (by norm_num)
  have hP : ((2 : ℚ) ^ (52 - binExp a b).toNat) ≠ 0 := pow_ne_zero _ (by norm_num)
  push_cast
  field_simp

/-- The scaled quotient that `roundPos` rounds is `a / b * 2 ^ s`. -/
theorem scaled_le_iff (a b : Nat) (s : Int) (k : Nat) :
    k * (b * 2 ^ (-s).toNat) ≤ a * 2 ^ s.toNat ↔ (k : ℚ) * b ≤ a * (2 : ℚ) ^ s := by
  have hQ : (0 : ℚ) < (2 : ℚ) ^ (-s).toNat := pow_pos (by norm_num) _
  rw [two_zpow_split s, mul_div_assoc', le_div_iff₀ hQ]
  constructor
  · intro h
    have : ((k * (b * 2 ^ (-s).toNat) : Nat) : ℚ) ≤ ((a * 2 ^ s.toNat : Nat) : ℚ) := by
      exact_mod_cast h
    push_cast at this
    linarith
  · intro h
    have : ((k * (b * 2 ^ (-s).toNat) : Nat) : ℚ) ≤ ((a * 2 ^ s.toNat : Nat) : ℚ) := by
      push_cast
      linarith
    exact_mod_cast this

theorem scaled_ge_iff (a b : Nat) (s : Int) (k : Nat) :
    a * 2 ^ s.toNat ≤ k * (b * 2 ^ (-s).toNat) ↔ a * (2 : ℚ) ^ s ≤ (k : ℚ) * b := by
  have hQ : (0 : ℚ) < (2 : ℚ) ^ (-s).toNat := pow_pos (by norm_num) _
  rw [two_zpow_split s, mul_div_assoc', div_le_iff₀ hQ]
  constructor
  · intro h
    have : ((a * 2 ^ s.toNat : Nat) : ℚ) ≤ ((k * (b * 2 ^ (-s).toNat) : Nat) : ℚ) := by
      exact_mod_cast h
    push_cast at this
    linarith
  · intro h
    have : ((a * 2 ^ s.toNat : Nat) : ℚ) ≤ ((k * (b * 2 ^ (-s).toNat) : Nat) : ℚ) := by
      push_cast
      linarith
    exact_mod_cast this

/-- The rounded value stays in the binade of the quotient. -/
theorem roundPos_binade (a b : Nat) (ha : 0 < a) (hb : 0 < b) :
    (2 : ℚ) ^ binExp a b ≤ (roundPos a b).val ∧
      (roundPos a b).val ≤ (2 : ℚ) ^ (binExp a b + 1) := by
  obtain ⟨hlo, hhi⟩ := binExp_spec a b ha hb
  have hbq : (0 : ℚ) < b := by exact_mod_cast hb
  have h2 : (2 : ℚ) ≠ 0 := by norm_num
  have hs : (0 : ℚ) < (2 : ℚ) ^ (52 - binExp a b) := zpow_pos (by norm_num) _
  have hM : 0 < b * 2 ^ (-(52 - binExp a b)).toNat :=
    Nat.mul_pos hb (pow_pos (by decide) _)
  rw [roundPos_val]
  constructor
  · rw [le_div_iff₀ hs, ← zpow_add₀ h2]
    have hsum : binExp a b + (52 - binExp a b) = ((52 : Nat) : Int) := by push_cast; ring
    rw [hsum, zpow_natCast]
    have : 2 ^ 52 ≤ roundHalfEven (a * 2 ^ (52 - binExp a b).toNat)
        (b * 2 ^ (-(52 - binExp a b)).toNat) := by
      apply roundHalfEven_ge _ _ _ hM
      rw [scaled_le_iff]
      have hc : ((2 ^ 52 : Nat) : ℚ) = (2 : ℚ) ^ (52 : Nat) := by norm_num
      rw [hc]
      have h1 : (2 : ℚ) ^ binExp a b * b ≤ a := (le_div_iff₀ hbq).1 hlo
      have e52 : (2 : ℚ) ^ (52 : Nat) = (2 : ℚ) ^ binExp a b * (2 : ℚ) ^ (52 - binExp a b) := by
        rw [← zpow_add₀ h2, hsum, zpow_natCast]
      rw [e52]
      calc (2 : ℚ) ^ binExp a b * (2 : ℚ) ^ (52 - binExp a b) * b
          = (2 : ℚ) ^ binExp a b * b * (2 : ℚ) ^ (52 - binExp a b) := by ring
        _ ≤ a * (2 : ℚ) ^ (52 - binExp a b) := mul_le_mul_of_nonneg_right h1 hs.le
    exact_mod_cast this
  · rw [div_le_iff₀ hs, ← zpow_add₀ h2]
    have hsum : binExp a b + 1 + (52 - binExp a b) = ((53 : Nat) : Int) := by push_cast; ring
    rw [hsum, zpow_natCast]
    have : roundHalfEven (a * 2 ^ (52 - binExp a b).toNat)
        (b * 2 ^ (-(52 - binExp a b)).toNat) ≤ 2 ^ 53 := by
      apply roundHalfEven_le _ _ _ hM
      rw [scaled_ge_iff]
      have hc : ((2 ^ 53 : Nat) : ℚ) = (2 : ℚ) ^ (53 : Nat) := by norm_num
      rw [hc]
      have h1 : (a : ℚ) < (2 : ℚ) ^ (binExp a b + 1) * b := (div_lt_iff₀ hbq).1 hhi
      have e53 : (2 : ℚ) ^ (53 : Nat) =
          (2 : ℚ) ^ (binExp a b + 1) * (2 : ℚ) ^ (52 - binExp a b) := by
        rw [← zpow_add₀ h2, hsum, zpow_natCast]
      rw [e53]
      calc (a : ℚ) * (2 : ℚ) ^ (52 - binExp a b)
          ≤ (2 : ℚ) ^ (binExp a b + 1) * b * (2 : ℚ) ^ (52 - binExp a b) :=
            mul_le_mul_of_nonneg_right h1.le hs.le
        _ = (2 : ℚ) ^ (binExp a b + 1) * (2 : ℚ) ^ (52 - binExp a b) * b := by ring
    exact_mod_cast this

theorem roundPos_pos (a b : Nat) (ha : 0 < a) (hb : 0 < b) : 0 < (roundPos a b).val :=
  lt_of_lt_of_le (zpow_pos (by norm_num) _) (roundPos_binade a b ha hb).1

/-- Rounding of positive quotients is monotone. -/
theorem roundPos_mono (a1 b1 a2 b2 : Nat) (ha1 : 0 < a1) (hb1 : 0 < b1) (ha2 : 0 < a2)
    (hb2 : 0 < b2) (h : (a1 : ℚ) / b1 ≤ (a2 : ℚ) / b2) :
    (roundPos a1 b1).val ≤ (roundPos a2 b2).val := by
  obtain ⟨hlo1, hhi1⟩ := binExp_spec a1 b1 ha1 hb1
  obtain ⟨hlo2, hhi2⟩ := binExp_spec a2 b2 ha2 hb2
  have h2 : (1 : ℚ) < 2 := by norm_num
  have hexp : binExp a1 b1 ≤ binExp a2 b2 := by
    by_contra hc
    have hlt : binExp a2 b2 + 1 ≤ binExp a1 b1 := by omega
    have : (2 : ℚ) ^ (binExp a2 b2 + 1) ≤ (2 : ℚ) ^ binExp a1 b1 :=
      zpow_le_zpow_right₀ h2.le hlt
    linarith
  rcases lt_or_eq_of_le hexp with hlt | heq
  · have hstep : (2 : ℚ) ^ (binExp a1 b1 + 1) ≤ (2 : ℚ) ^ binExp a2 b2 :=
      zpow_le_zpow_right₀ h2.le (by omega)
    exact le_trans (roundPos_binade a1 b1 ha1 hb1).2
      (le_trans hstep (roundPos_binade a2 b2 ha2 hb2).1)
  · rw [roundPos_val, roundPos_val, heq]
    have hs : (0 : ℚ) < (2 : ℚ) ^ (52 - binExp a2 b2) := zpow_pos (by norm_num) _
    apply div_le_div_of_nonneg_right _ hs.le
    have hb1q : (0 : ℚ) < b1 := by exact_mod_cast hb1
    have hb2q : (0 : ℚ) < b2 := by exact_mod_cast hb2
    have hcross : a1 * b2 ≤ a2 * b1 := by
      have := (div_le_div_iff₀ hb1q hb2q).1 h
      exact_mod_cast this
    have : roundHalfEven (a1 * 2 ^ (52 - binExp a2 b2).toNat)
          (b1 * 2 ^ (-(52 - binExp a2 b2)).toNat) ≤
        roundHalfEven (a2 * 2 ^ (52 - binExp a2 b2).toNat)
          (b2 * 2 ^ (-(52 - binExp a2 b2)).toNat) := by
      apply roundHalfEven_mono
      · exact Nat.mul_pos hb1 (pow_pos (by decide) _)
      · exact Nat.mul_pos hb2 (pow_pos (by decide) _)
      · calc a1 * 2 ^ (52 - binExp a2 b2).toNat * (b2 * 2 ^ (-(52 - binExp a2 b2)).toNat)
            = a1 * b2 * (2 ^ (52 - binExp a2 b2).toNat * 2 ^ (-(52 - binExp a2 b2)).toNat) := by
              ring
          _ ≤ a2 * b1 * (2 ^ (52 - binExp a2 b2).toNat * 2 ^ (-(52 - binExp a2 b2)).toNat) :=
              Nat.mul_le_mul_right _ hcross
          _ = a2 * 2 ^ (52 - binExp a2 b2).toNat * (b1 * 2 ^ (-(52 - binExp a2 b2)).toNat) := by
              ring
    exact_mod_cast this

theorem f64_den_pos (q : Frac) : 0 < (f64 q).den := by
  unfold f64
  split
  · decide
  · split
    · exact roundPos_den_pos _ _
    · exact roundPos_den_pos _ _

theorem Frac.val_neg_num (n : Int) (d : Nat) : (⟨-n, d⟩ : Frac).val = -(⟨n, d⟩ : Frac).val := by
  unfold Frac.val
  simp only
  push_cast
  ring

theorem Frac.val_natAbs (q : Frac) (h : 0 < q.num) :
    ((q.num.natAbs : ℚ)) / q.den = q.val := by
  unfold Frac.val
  have : ((q.num.natAbs : Int)) = q.num := Int.natAbs_of_nonneg h.le
  have h2 : ((q.num.natAbs : ℚ)) = ((q.num.natAbs : Int) : ℚ) :=
    (Int.cast_natCast q.num.natAbs).symm
  rw [h2, this]

theorem Frac.val_natAbs_neg (q : Frac) (h : q.num < 0) :
    ((q.num.natAbs : ℚ)) / q.den = -q.val := by
  unfold Frac.val
  have : ((q.num.natAbs : Int)) = -q.num := by omega
  have h2 : ((q.num.natAbs : ℚ)) = ((q.num.natAbs : Int) : ℚ) :=
    (Int.cast_natCast q.num.natAbs).symm
  rw [h2, this]
  push_cast
  ring

theorem Frac.val_pos_iff (q : Frac) (hd : 0 < q.den) : 0 < q.val ↔ 0 < q.num := by
  unfold Frac.val
  have hdq : (0 : ℚ) < q.den := by exact_mod_cast hd
  rw [div_pos_iff_of_pos_right hdq]
  exact_mod_cast Iff.rfl

theorem Frac.val_neg_iff (q : Frac) (hd : 0 < q.den) : q.val < 0 ↔ q.num < 0 := by
  unfold Frac.val
  have hdq : (0 : ℚ) < q.den := by exact_mod_cast hd
  rw [div_neg_iff]
  constructor
  · rintro (⟨_, h⟩ | ⟨h, _⟩)
    · linarith
    · exact_mod_cast h
  · intro h
    exact Or.inr ⟨by exact_mod_cast h, hdq⟩

theorem Frac.val_zero_iff (q : Frac) (hd : 0 < q.den) : q.val = 0 ↔ q.num = 0 := by
  unfold Frac.val
  have hdq : (q.den : ℚ) ≠ 0 := by
    have : (0 : ℚ) < q.den := by exact_mod_cast hd
    exact ne_of_gt this
  rw [div_eq_zero_iff]
  constructor
  · rintro (h | h)
    · exact_mod_cast h
    · exact absurd h hdq
  · intro h
    exact Or.inl (by exact_mod_cast h)

theorem f64_val_zero (q : Frac) (h : q.num = 0) : (f64 q).val = 0 := by
  unfold f64
  rw [if_pos h]
  simp [Frac.val]

theorem f64_val_pos (q : Frac) (h : 0 < q.num) :
    (f64 q).val = (roundPos q.num.natAbs q.den).val := by
  unfold f64
  rw [if_neg (ne_of_gt h), if_pos h]

theorem f64_val_neg (q : Frac) (h : q.num < 0) :
    (f64 q).val = -(roundPos q.num.natAbs q.den).val := by
  unfold f64
  rw [if_neg (ne_of_lt h), if_neg (not_lt.2 h.le)]
  exact Frac.val_neg_num _ _

/-- Rounding to binary64 keeps the sign. -/
theorem f64_nonneg (q : Frac) (hd : 0 < q.den) (h : 0 ≤ q.num) : 0 ≤ (f64 q).val := by
  rcases lt_or_eq_of_le h with hlt | heq
  · rw [f64_val_pos q hlt]
    exact (roundPos_pos _ _ (Int.natAbs_pos.2 (ne_of_gt hlt)) hd).le
  · rw [f64_val_zero q heq.symm]

theorem f64_nonpos (q : Frac) (hd : 0 < q.den) (h : q.num ≤ 0) : (f64 q).val ≤ 0 := by
  rcases lt_or_eq_of_le h with hlt | heq
  · rw [f64_val_neg q hlt]
    have := roundPos_pos _ _ (Int.natAbs_pos.2 (ne_of_lt hlt)) hd
    linarith
  · rw [f64_val_zero q heq]

/-- Rounding to binary64 is monotone. -/
theorem f64_mono (q1 q2 : Frac) (hd1 : 0 < q1.den) (hd2 : 0 < q2.den)
    (h : q1.val ≤ q2.val) : (f64 q1).val ≤ (f64 q2).val := by
  rcases lt_trichotomy q1.num 0 with hn1 | hz1 | hp1
  · rcases lt_or_ge q2.num 0 with hn2 | hp2
    · rw [f64_val_neg q1 hn1, f64_val_neg q2 hn2]
      have := roundPos_mono q2.num.natAbs q2.den q1.num.natAbs q1.den
        (Int.natAbs_pos.2 (ne_of_lt hn2)) hd2 (Int.natAbs_pos.2 (ne_of_lt hn1)) hd1
        (by rw [Frac.val_natAbs_neg q2 hn2, Frac.val_natAbs_neg q1 hn1]; linarith)
      linarith
    · exact le_trans (f64_nonpos q1 hd1 hn1.le) (f64_nonneg q2 hd2 hp2)
  · have h0 : 0 ≤ q2.val := by
      have := (Frac.val_zero_iff q1 hd1).2 hz1
      linarith
    have hq2 : 0 ≤ q2.num := by
      by_contra hc
      have := (Frac.val_neg_iff q2 hd2).2 (not_le.1 hc)
      linarith
    rw [f64_val_zero q1 hz1]
    exact f64_nonneg q2 hd2 hq2
  · have h0 : 0 < q2.val := lt_of_lt_of_le ((Frac.val_pos_iff q1 hd1).2 hp1) h
    have hp2 : 0 < q2.num := (Frac.val_pos_iff q2 hd2).1 h0
    rw [f64_val_pos q1 hp1, f64_val_pos q2 hp2]
    exact roundPos_mono _ _ _ _ (Int.natAbs_pos.2 (ne_of_gt hp1)) hd1
      (Int.natAbs_pos.2 (ne_of_gt hp2)) hd2
      (by rw [Frac.val_natAbs q1 hp1, Frac.val_natAbs q2 hp2]; exact h)

/-- Rounding to binary64 is odd. -/
theorem f64_neg (n : Int) (d : Nat) : (f64 ⟨-n, d⟩).val = -(f64 ⟨n, d⟩).val := by
  rcases lt_trichotomy n 0 with hn | hz | hp
  · rw [f64_val_pos ⟨-n, d⟩ (by simp only; omega), f64_val_neg ⟨n, d⟩ hn]
    simp
  · subst hz
    simp [f64_val_zero]
  · rw [f64_val_neg ⟨-n, d⟩ (by simp only; omega), f64_val_pos ⟨n, d⟩ hp]
    simp

/-- An integer of magnitude below `2 ^ 53` is a binary64 value. -/
theorem f64_int (d : Int) (h0 : 0 ≤ d) (h : d < 2 ^ 53) : (f64 ⟨d, 1⟩).val = d := by
  rcases lt_or_eq_of_le h0 with hpos | hz
  · rw [f64_val_pos ⟨d, 1⟩ hpos]
    simp only
    have ha : 0 < d.natAbs := Int.natAbs_pos.2 (ne_of_gt hpos)
    obtain ⟨hlo, _⟩ := binExp_spec d.natAbs 1 ha (by decide)
    have hdq : ((d.natAbs : ℚ)) = d := by
      have : ((d.natAbs : Int)) = d := Int.natAbs_of_nonneg h0
      have h2 : ((d.natAbs : ℚ)) = ((d.natAbs : Int) : ℚ) :=
        (Int.cast_natCast d.natAbs).symm
      rw [h2, this]
    have hexp : binExp d.natAbs 1 < 53 := by
      by_contra hc
      have h53 : (2 : ℚ) ^ ((53 : Nat) : Int) ≤ (2 : ℚ) ^ binExp d.natAbs 1 :=
        zpow_le_zpow_right₀ (by norm_num) (by push_cast; omega)
      rw [zpow_natCast] at h53
      simp only [Nat.cast_one, div_one] at hlo
      rw [hdq] at hlo
      have : (d : ℚ) < 2 ^ 53 := by exact_mod_cast h
      linarith
    rw [roundPos_val]
    have hs0 : (-(52 - binExp d.natAbs 1)).toNat = 0 := by omega
    have hrhe : ∀ N : Nat, roundHalfEven N 1 = N := by
      intro N
      unfold roundHalfEven
      simp [Nat.mod_one]
    rw [hs0, pow_zero, mul_one, hrhe]
    have hs : (0 : ℚ) < (2 : ℚ) ^ (52 - binExp d.natAbs 1) := zpow_pos (by norm_num) _
    rw [div_eq_iff (ne_of_gt hs)]
    push_cast
    rw [hdq]
    congr 1
    have : (52 - binExp d.natAbs 1) = (((52 - binExp d.natAbs 1).toNat : Nat) : Int) := by omega
    conv_rhs => rw [this]
    rw [zpow_natCast]
  · subst hz
    simp [f64_val_zero]

theorem f64_one : (f64 ⟨1, 1⟩).val = 1 := by
  have := f64_int 1 (by norm_num) (by norm_num)
  simpa using this

theorem Frac.val_mk_one (n : Int) : (⟨n, 1⟩ : Frac).val = n := by
  simp [Frac.val]

theorem Frac.num_nonneg_of_val (q : Frac) (hd : 0 < q.den) (h : 0 ≤ q.val) : 0 ≤ q.num := by
  by_contra hc
  have := (Frac.val_neg_iff q hd).2 (not_le.1 hc)
  linarith

theorem f64_le_one (q : Frac) (hd : 0 < q.den) (h : q.val ≤ 1) : (f64 q).val ≤ 1 := by
  have := f64_mono q ⟨1, 1⟩ hd Nat.one_pos (by rw [Frac.val_mk_one]; exact_mod_cast h)
  rw [f64_one] at this
  exact this

theorem f64_val_nonneg (q : Frac) (hd : 0 < q.den) (h : 0 ≤ q.val) : 0 ≤ (f64 q).val :=
  f64_nonneg q hd (Frac.num_nonneg_of_val q hd h)

/-- The value of the quotient `math.Abs(float64(rem))/float64(total)` before it is
rounded, for `total > 0` and `rem < 0`, and the facts on its operands. -/
theorem quot_val (r T : Int) (hT : 0 < T) (hr : r < 0) :
    0 < (f64 ⟨T, 1⟩).val ∧
      0 < (f64 ⟨r, 1⟩).den * (f64 ⟨T, 1⟩).num.natAbs ∧
      (⟨|(f64 ⟨r, 1⟩).num| * (f64 ⟨T, 1⟩).den * (f64 ⟨T, 1⟩).num.sign,
          (f64 ⟨r, 1⟩).den * (f64 ⟨T, 1⟩).num.natAbs⟩ : Frac).val =
        -(f64 ⟨r, 1⟩).val / (f64 ⟨T, 1⟩).val := by
  have hTval : 1 ≤ (f64 ⟨T, 1⟩).val := by
    have := f64_mono ⟨1, 1⟩ ⟨T, 1⟩ Nat.one_pos Nat.one_pos
      (by rw [Frac.val_mk_one, Frac.val_mk_one]; exact_mod_cast hT)
    rw [f64_one] at this
    exact this
  have hTpos : 0 < (f64 ⟨T, 1⟩).val := lt_of_lt_of_le one_pos hTval
  have hTden := f64_den_pos ⟨T, 1⟩
  have hrden := f64_den_pos ⟨r, 1⟩
  have hTnum : 0 < (f64 ⟨T, 1⟩).num := (Frac.val_pos_iff _ hTden).1 hTpos
  have hrval : (f64 ⟨r, 1⟩).val ≤ 0 := f64_nonpos ⟨r, 1⟩ Nat.one_pos hr.le
  have hrnum : (f64 ⟨r, 1⟩).num ≤ 0 := by
    by_contra hc
    have := (Frac.val_pos_iff _ hrden).2 (not_le.1 hc)
    linarith
  refine ⟨hTpos, Nat.mul_pos hrden (Int.natAbs_pos.2 (ne_of_gt hTnum)), ?_⟩
  unfold Frac.val
  simp only
  have hsign : (f64 ⟨T, 1⟩).num.sign = 1 := Int.sign_eq_one_of_pos hTnum
  have habs : |(f64 ⟨r, 1⟩).num| = -(f64 ⟨r, 1⟩).num := abs_of_nonpos hrnum
  have hnat : (((f64 ⟨T, 1⟩).num.natAbs : Nat) : ℚ) = (((f64 ⟨T, 1⟩).num : Int) : ℚ) := by
    have h1 : (((f64 ⟨T, 1⟩).num.natAbs : Nat) : Int) = (f64 ⟨T, 1⟩).num :=
      Int.natAbs_of_nonneg hTnum.le
    rw [← Int.cast_natCast, h1]
  rw [hsign, habs]
  push_cast
  rw [hnat]
  have h1 : ((f64 ⟨T, 1⟩).num : ℚ) ≠ 0 := by exact_mod_cast (ne_of_gt hTnum)
  have h2 : ((f64 ⟨T, 1⟩).den : ℚ) ≠ 0 := by exact_mod_cast (ne_of_gt hTden)
  have h3 : ((f64 ⟨r, 1⟩).den : ℚ) ≠ 0 := by exact_mod_cast (ne_of_gt hrden)
  field_simp

/-- The rounded quotient lies between `0` and `1` when `-total ≤ rem < 0`. -/
theorem f64Quot_bounds (r T : Int) (hT : 0 < T) (hlow : -T ≤ r) (hr : r < 0) :
    0 ≤ (f64Quot r T).val ∧ (f64Quot r T).val ≤ 1 := by
  obtain ⟨hTpos, hden, hval⟩ := quot_val r T hT hr
  have hrval : (f64 ⟨r, 1⟩).val ≤ 0 := f64_nonpos ⟨r, 1⟩ Nat.one_pos hr.le
  have hlowval : -(f64 ⟨T, 1⟩).val ≤ (f64 ⟨r, 1⟩).val := by
    have := f64_mono ⟨-T, 1⟩ ⟨r, 1⟩ Nat.one_pos Nat.one_pos
      (by rw [Frac.val_mk_one, Frac.val_mk_one]; exact_mod_cast hlow)
    rw [f64_neg] at this
    exact this
  unfold f64Quot
  simp only
  constructor
  · apply f64_val_nonneg _ hden
    rw [hval]
    exact div_nonneg (by linarith) hTpos.le
  · apply f64_le_one _ hden
    rw [hval, div_le_one hTpos]
    linarith

theorem f64Quot_den_pos (r T : Int) : 0 < (f64Quot r T).den := by
  unfold f64Quot
  exact f64_den_pos _

theorem f64Perc_den_pos (r T : Int) : 0 < (f64Perc r T).den := by
  unfold f64Perc
  exact f64_den_pos _

theorem sub_val (q : Frac) (hd : 0 < q.den) :
    (⟨q.den - q.num, q.den⟩ : Frac).val = 1 - q.val := by
  unfold Frac.val
  simp only
  have h : (q.den : ℚ) ≠ 0 := by exact_mod_cast (ne_of_gt hd)
  push_cast
  field_simp

/-- The factor `perc` lies between `0` and `1` when `-total ≤ rem < 0`. -/
theorem f64Perc_bounds (r T : Int) (hT : 0 < T) (hlow : -T ≤ r) (hr : r < 0) :
    0 ≤ (f64Perc r T).val ∧ (f64Perc r T).val ≤ 1 := by
  obtain ⟨h0, h1⟩ := f64Quot_bounds r T hT hlow hr
  have hden := f64Quot_den_pos r T
  have hinput : (⟨(f64Quot r T).den - (f64Quot r T).num, (f64Quot r T).den⟩ : Frac).val =
      1 - (f64Quot r T).val := sub_val _ hden
  unfold f64Perc
  simp only
  constructor
  · apply f64_val_nonneg ⟨(f64Quot r T).den - (f64Quot r T).num, (f64Quot r T).den⟩ hden
    rw [hinput]
    linarith
  · apply f64_le_one ⟨(f64Quot r T).den - (f64Quot r T).num, (f64Quot r T).den⟩ hden
    rw [hinput]
    linarith

/-- The factor `perc` does not decrease when `rem` grows. -/
theorem f64Perc_mono (r r' T : Int) (hT : 0 < T) (hrr : r ≤ r') (hr' : r' < 0) :
    (f64Perc r T).val ≤ (f64Perc r' T).val := by
  have hr : r < 0 := lt_of_le_of_lt hrr hr'
  obtain ⟨hTpos, hden, hval⟩ := quot_val r T hT hr
  obtain ⟨_, hden', hval'⟩ := quot_val r' T hT hr'
  have hmono : (f64 ⟨r, 1⟩).val ≤ (f64 ⟨r', 1⟩).val :=
    f64_mono ⟨r, 1⟩ ⟨r', 1⟩ Nat.one_pos Nat.one_pos
      (by rw [Frac.val_mk_one, Frac.val_mk_one]; exact_mod_cast hrr)
  have hquot : (f64Quot r' T).val ≤ (f64Quot r T).val := by
    unfold f64Quot
    simp only
    apply f64_mono _ _ hden' hden
    rw [hval', hval]
    exact div_le_div_of_nonneg_right (by linarith) hTpos.le
  unfold f64Perc
  simp only
  apply f64_mono ⟨(f64Quot r T).den - (f64Quot r T).num, (f64Quot r T).den⟩
    ⟨(f64Quot r' T).den - (f64Quot r' T).num, (f64Quot r' T).den⟩
    (f64Quot_den_pos r T) (f64Quot_den_pos r' T)
  rw [sub_val _ (f64Quot_den_pos r T), sub_val _ (f64Quot_den_pos r' T)]
  linarith

theorem mul_val (p q : Frac) (hp : 0 < p.den) (hq : 0 < q.den) :
    (⟨p.num * q.num, p.den * q.den⟩ : Frac).val = p.val * q.val := by
  unfold Frac.val
  simp only
  have h1 : (p.den : ℚ) ≠ 0 := by exact_mod_cast (ne_of_gt hp)
  have h2 : (q.den : ℚ) ≠ 0 := by exact_mod_cast (ne_of_gt hq)
  push_cast
  field_simp

/-- The conversion of a non-negative binary64 value to an integer is the integer part
of its value. -/
theorem tdiv_eq_floor (x : Frac) (hd : 0 < x.den) (h : 0 ≤ x.val) :
    Int.tdiv x.num x.den = ⌊x.val⌋ := by
  have hn := Frac.num_nonneg_of_val x hd h
  rw [Int.tdiv_eq_ediv hn (by exact_mod_cast hd.le)]
  unfold Frac.val
  rw [Rat.floor_intCast_div_natCast]

/-- The value `f64Scale` truncates, for a duration `0 ≤ d < 2 ^ 53`. -/
theorem f64Scale_eq (d : Duration) (r T : Int) (hd0 : 0 ≤ d) (hd : d < 2 ^ 53) (hT : 0 < T)
    (hlow : -T ≤ r) (hr : r < 0) :
    0 ≤ (f64 ⟨(f64 ⟨d, 1⟩).num * (f64Perc r T).num,
          (f64 ⟨d, 1⟩).den * (f64Perc r T).den⟩).val ∧
      (f64 ⟨(f64 ⟨d, 1⟩).num * (f64Perc r T).num,
          (f64 ⟨d, 1⟩).den * (f64Perc r T).den⟩).val ≤ d ∧
      f64Scale d r T = ⌊(f64 ⟨(f64 ⟨d, 1⟩).num * (f64Perc r T).num,
          (f64 ⟨d, 1⟩).den * (f64Perc r T).den⟩).val⌋ := by
  obtain ⟨hp0, hp1⟩ := f64Perc_bounds r T hT hlow hr
  have hfd : (f64 ⟨d, 1⟩).val = d := f64_int d hd0 hd
  have hdq : (0 : ℚ) ≤ d := by exact_mod_cast hd0
  have hpden : 0 < (f64Perc r T).den := f64Perc_den_pos r T
  have hden : 0 < (f64 ⟨d, 1⟩).den * (f64Perc r T).den :=
    Nat.mul_pos (f64_den_pos _) hpden
  have hxi : (⟨(f64 ⟨d, 1⟩).num * (f64Perc r T).num,
      (f64 ⟨d, 1⟩).den * (f64Perc r T).den⟩ : Frac).val = d * (f64Perc r T).val := by
    rw [mul_val _ _ (f64_den_pos _) hpden, hfd]
  have h0 : 0 ≤ (f64 ⟨(f64 ⟨d, 1⟩).num * (f64Perc r T).num,
      (f64 ⟨d, 1⟩).den * (f64Perc r T).den⟩).val := by
    apply f64_val_nonneg ⟨(f64 ⟨d, 1⟩).num * (f64Perc r T).num,
      (f64 ⟨d, 1⟩).den * (f64Perc r T).den⟩ hden
    rw [hxi]
    exact mul_nonneg hdq hp0
  refine ⟨h0, ?_, ?_⟩
  · have := f64_mono ⟨(f64 ⟨d, 1⟩).num * (f64Perc r T).num,
      (f64 ⟨d, 1⟩).den * (f64Perc r T).den⟩ ⟨d, 1⟩ hden Nat.one_pos
      (by
        rw [hxi, Frac.val_mk_one]
        calc (d : ℚ) * (f64Perc r T).val ≤ d * 1 := mul_le_mul_of_nonneg_left hp1 hdq
          _ = d := mul_one _)
    rw [hfd] at this
    exact this
  · unfold f64Scale
    simp only
    exact tdiv_eq_floor _ (f64_den_pos _) h0

/-! ## `Estimate` with zero rates -/

/-- With zero rates only, the loop of `Estimate` runs to the horizon and is left
without an estimate, given fuel for the nanoseconds up to the horizon. -/
theorem estimateLoop_zero (X : Env) (cfg : Configuration) (until_ : Time)
    (hzero : ∀ w ∈ cfg.windows, w.rate.n = 0)
    (htotal : ∀ s : Schedule, s.rate.n = 0 → X.total s = 0)
    (hadv : Advances X cfg) (hfound : ∀ w ∈ cfg.windows, endFound X w) :
    ∀ (k fuel : Nat) (rem : Int) (at_ : Time), until_ - at_ ≤ k → k ≤ fuel →
      estimateLoop X cfg until_ fuel rem at_ = .ret none := by
  intro k
  induction k with
  | zero =>
    intro fuel rem at_ hk _
    apply estimateLoop_done
    simp only [Nat.cast_zero] at hk
    intro hc
    linarith
  | succ k ih =>
    intro fuel rem at_ hk hfuel
    by_cases hat : at_ < until_
    · obtain ⟨f, rfl⟩ : ∃ f, fuel = f + 1 := ⟨fuel - 1, by omega⟩
      obtain ⟨s, hs⟩ := scheduleAt_ret X cfg at_ false hfound
      obtain ⟨hfrom, hdur⟩ := scheduleAt_shape X cfg at_ false s hadv hs
      have hn : s.rate.n = 0 := by
        rcases scheduleAt_rate X cfg at_ false s hs with h | ⟨w, hw, h⟩
        · rw [h]
        · rw [h]; exact hzero w hw
      have ht := htotal s hn
      rw [estimateLoop_step X cfg until_ f rem at_ s hat hs]
      have h1 : ¬ X.total s = -1 := by rw [ht]; decide
      rw [if_neg h1, if_pos ht]
      apply ih f rem s.ValidUntil _ (by omega)
      unfold Schedule.ValidUntil
      rw [hfrom]
      push_cast at hk
      have : (1 : Int) ≤ s.duration := hdur
      linarith
    · exact estimateLoop_done X cfg until_ fuel rem at_ hat

/-- C10. With at least one window and every window at the zero rate, `Estimate` returns
no estimate for every queue position, given fuel for the nanoseconds of the 7-day
horizon.  The total capacity of a schedule at the zero rate is assumed to be `0`, the
windows to advance (`Advances`) and their closing instants to be found (`endFound`). -/
theorem Estimate_zero_rates (X : Env) (cfg : Configuration) (hne : cfg.windows ≠ [])
    (hzero : ∀ w ∈ cfg.windows, w.rate.n = 0)
    (htotal : ∀ s : Schedule, s.rate.n = 0 → X.total s = 0)
    (hadv : Advances X cfg) (hfound : ∀ w ∈ cfg.windows, endFound X w)
    (now : Time) (n : Int) (fuel : Nat) (hfuel : 604800000000000 ≤ fuel) :
    Estimate X cfg fuel now n = .ret none := by
  have hw : cfg.HasRolloutWindows = true := by
    cases h : cfg.windows with
    | nil => exact absurd h hne
    | cons w ws => simp [Configuration.HasRolloutWindows, h]
  unfold Estimate
  rw [hw]
  simp only [Bool.not_true, Bool.false_eq_true, if_false]
  apply estimateLoop_zero X cfg _ hzero htotal hadv hfound 604800000000000 fuel n now _ hfuel
  have h7 : (7 * 24 * Hour : Int) = 604800000000000 := by norm_num [Hour, Minute, Second]
  rw [h7]
  push_cast
  linarith

/-! ## The instance after the specification -/

theorem specNextFrom_cases (w : Window) (now : Time) :
    ∀ (k : Nat) (day : Time),
      (now ≤ specNextFrom w now k day ∧ specIsOpen w (specNextFrom w now k day) = true) ∨
        specNextFrom w now k day = now + 7 * 24 * Hour := by
  intro k
  induction k with
  | zero => intro day; right; rfl
  | succ k ih =>
    intro day
    simp only [specNextFrom]
    split
    · rename_i h
      left; exact h
    · exact ih _

/-- The windows of the instance after the specification advance. -/
theorem specEnv_advances (scale : Duration → Int → Int → Duration)
    (parseWindow : RawWindow → Except GoError Window) (cfg : Configuration) :
    Advances (specEnv scale parseWindow) cfg := by
  constructor
  · intro w _ t hclosed
    show t < specNextOpenAfter w t
    have hclosed' : specIsOpen w t = false := hclosed
    unfold specNextOpenAfter
    rw [hclosed']
    simp only [Bool.false_eq_true, if_false]
    rcases specNextFrom_cases w t 8 (Truncate t (24 * Hour)) with ⟨hle, hopen⟩ | h
    · rcases lt_or_eq_of_le hle with hlt | heq
      · exact hlt
      · rw [← heq, hclosed'] at hopen
        cases hopen
    · rw [h]
      have : (0 : Int) < 7 * 24 * Hour := by norm_num [Hour, Minute, Second]
      linarith
  · intro w _ t e hopen hend
    have hopen' : specIsOpen w t = true := hopen
    unfold specIsOpen at hopen'
    rw [hend] at hopen'
    simp only [Bool.and_eq_true, decide_eq_true_eq] at hopen'
    have hlt := hopen'.2
    unfold timeOfDay.offset at hlt
    unfold Date Truncate
    linarith

/-- The exact scaling is within the bounds assumed of the floating point expression. -/
theorem exactScale_bounds (X : Env) (h : X.scale = exactScale) : ScaleBounds X := by
  have habs : ∀ (r T : Int), r < 0 → T - |r| = T + r := by
    intro r T hr
    rw [abs_of_neg hr]; ring
  constructor
  · intro d r T hd _ hT hlow hr
    rw [h]
    unfold exactScale
    rw [habs r T hr]
    exact Int.tdiv_nonneg (mul_nonneg hd (by linarith)) (le_of_lt hT)
  · intro d r T hd _ hT hlow hr
    rw [h]
    unfold exactScale
    rw [habs r T hr, Int.tdiv_eq_ediv (mul_nonneg hd (by linarith)) (le_of_lt hT)]
    apply Int.ediv_le_of_le_mul hT
    exact mul_le_mul_of_nonneg_left (by linarith) hd
  · intro d r r' T hd _ hT hlow hrr hr'
    have hr : r < 0 := lt_of_le_of_lt hrr hr'
    rw [h]
    unfold exactScale
    rw [habs r T hr, habs r' T hr',
      Int.tdiv_eq_ediv (mul_nonneg hd (by linarith)) (le_of_lt hT),
      Int.tdiv_eq_ediv (mul_nonneg hd (by linarith)) (le_of_lt hT)]
    apply Int.ediv_le_ediv hT
    exact mul_le_mul_of_nonneg_left (by linarith) hd

theorem specTotal_zero (s : Schedule) (h : s.rate.n = 0) : specTotal s = 0 := by
  unfold specTotal
  rw [h]
  simp

theorem seven_bits (m : Nat) (hm : m < 128) (h0 : m ≠ 0) (h127 : m ≠ 127) :
    ∃ d, d < 7 ∧ m.testBit d = false := by
  revert m
  decide

/-- In the instance after the specification the closing instant of a window is found
when the window has an end time or its day set does not list the seven weekdays. -/
theorem specEnv_endFound (scale : Duration → Int → Int → Duration)
    (parseWindow : RawWindow → Except GoError Window) (w : Window)
    (h : w.end_ ≠ none ∨ w.days % 128 ≠ 127) :
    endFound (specEnv scale parseWindow) w := by
  unfold endFound
  rcases h with h | h127
  · exact Or.inl h
  · by_cases h0 : w.days % 128 = 0
    · right; left
      show specAll w.days = true
      simp [specAll, h0]
    · right; right
      obtain ⟨d, hd, hbit⟩ := seven_bits (w.days % 128) (Nat.mod_lt _ (by decide)) h0 h127
      refine ⟨d, hd, ?_⟩
      show specIncludes w.days d = false
      simp [specIncludes, h0, hbit]

/-- The binary64 scaling is within the bounds assumed of the floating point
expression. -/
theorem f64Scale_bounds (X : Env) (h : X.scale = f64Scale) : ScaleBounds X := by
  constructor
  · intro d r T hd0 hd hT hlow hr
    rw [h]
    obtain ⟨h0, _, he⟩ := f64Scale_eq d r T hd0 hd hT hlow hr
    rw [he]
    exact Int.floor_nonneg.2 h0
  · intro d r T hd0 hd hT hlow hr
    rw [h]
    obtain ⟨_, h1, he⟩ := f64Scale_eq d r T hd0 hd hT hlow hr
    rw [he]
    have := Int.floor_le (f64 ⟨(f64 ⟨d, 1⟩).num * (f64Perc r T).num,
      (f64 ⟨d, 1⟩).den * (f64Perc r T).den⟩).val
    exact_mod_cast le_trans this h1
  · intro d r r' T hd0 hd hT hlow hrr hr'
    have hr : r < 0 := lt_of_le_of_lt hrr hr'
    rw [h]
    obtain ⟨_, _, he⟩ := f64Scale_eq d r T hd0 hd hT hlow hr
    obtain ⟨_, _, he'⟩ := f64Scale_eq d r' T hd0 hd hT (le_trans hlow hrr) hr'
    rw [he, he']
    apply Int.floor_mono
    have hfd : (f64 ⟨d, 1⟩).val = d := f64_int d hd0 hd
    have hdq : (0 : ℚ) ≤ d := by exact_mod_cast hd0
    apply f64_mono ⟨(f64 ⟨d, 1⟩).num * (f64Perc r T).num,
        (f64 ⟨d, 1⟩).den * (f64Perc r T).den⟩
      ⟨(f64 ⟨d, 1⟩).num * (f64Perc r' T).num, (f64 ⟨d, 1⟩).den * (f64Perc r' T).den⟩
      (Nat.mul_pos (f64_den_pos _) (f64Perc_den_pos r T))
      (Nat.mul_pos (f64_den_pos _) (f64Perc_den_pos r' T))
    rw [mul_val _ _ (f64_den_pos _) (f64Perc_den_pos r T),
      mul_val _ _ (f64_den_pos _) (f64Perc_den_pos r' T), hfd]
    exact mul_le_mul_of_nonneg_left (f64Perc_mono r r' T hT hrr hr') hdq

theorem specNextFrom_form (w : Window) (now : Time) :
    ∀ (k : Nat) (day : Time),
      specNextFrom w now k day = now + 7 * 24 * Hour ∨
        ∃ j : Nat, j < k ∧ specNextFrom w now k day =
          day + j * (24 * Hour) + (match w.start with
                                   | none => 0
                                   | some s => s.offset) := by
  intro k
  induction k with
  | zero => intro day; left; rfl
  | succ k ih =>
    intro day
    simp only [specNextFrom]
    split
    · right
      exact ⟨0, Nat.succ_pos k, by simp⟩
    · rcases ih (day + 24 * Hour) with h | ⟨j, hj, h⟩
      · left; exact h
      · right
        refine ⟨j + 1, by omega, ?_⟩
        rw [h]
        push_cast
        ring

/-- The windows of the instance after the specification open and end less than
`2 ^ 53` nanoseconds ahead when their times of day lie within the day. -/
theorem specEnv_within (scale : Duration → Int → Int → Duration)
    (parseWindow : RawWindow → Except GoError Window) (cfg : Configuration)
    (hvalid : ∀ w ∈ cfg.windows, validTimes w) :
    Within (specEnv scale parseWindow) cfg := by
  have h53 : (2 : Int) ^ 53 = 9007199254740992 := by norm_num
  have hday := day_eq
  have h7 : (7 * 24 * Hour : Int) = 604800000000000 := by norm_num [Hour, Minute, Second]
  constructor
  · intro w hw t
    show specNextOpenAfter w t - t < 2 ^ 53
    unfold specNextOpenAfter
    split
    · rw [h53]; linarith
    · rcases specNextFrom_form w t 8 (Truncate t (24 * Hour)) with h | ⟨j, hj, h⟩
      · rw [h, h53, h7]; linarith
      · rw [h, h53]
        have htr := Truncate_le t
        have hj' : (j : Int) ≤ 7 := by exact_mod_cast (by omega : j ≤ 7)
        have hoff : (match w.start with
                     | none => (0 : Int)
                     | some s => s.offset) ≤ 24 * Hour := by
          cases hs : w.start with
          | none => simp only; rw [hday]; norm_num
          | some s => exact (hvalid w hw).1 s hs
        nlinarith
  · intro w hw t e hend
    have hoff := (hvalid w hw).2 e hend
    unfold timeOfDay.offset at hoff
    unfold Date Truncate
    have hmod : 0 ≤ t % (24 * Hour) := by
      rw [hday]
      exact Int.emod_nonneg t (by norm_num)
    rw [h53]
    linarith

/-! ## The theorems at concrete configurations -/

set_option maxRecDepth 10000

/-- C5 at the scenario of the specification: a raw list whose entries 0 and 2 fail to
parse gives exactly the two errors "window 0" and "window 2". -/
theorem NewConfiguration_collects_witness :
    NewConfiguration (specEnv f64Scale nilRejecting)
        (some [none, some ⟨none, none, none, ""⟩, none]) =
      .error [⟨"window 0", "nil window"⟩, ⟨"window 2", "nil window"⟩] :=
  (NewConfiguration_collects (specEnv f64Scale nilRejecting)
    [none, some ⟨none, none, none, ""⟩, none]).2.1.trans rfl

/-- C6 at the same raw list: validation returns the two errors of construction. -/
theorem ValidateConfiguration_eq_NewConfiguration_witness :
    ValidateConfiguration (specEnv f64Scale nilRejecting)
        (some [none, some ⟨none, none, none, ""⟩, none]) =
      some [⟨"window 0", "nil window"⟩, ⟨"window 2", "nil window"⟩] :=
  (ValidateConfiguration_eq_NewConfiguration (specEnv f64Scale nilRejecting)
    (some [none, some ⟨none, none, none, ""⟩, none])).trans rfl

/-- C2 at 12:30 with a window from 09:00 to 17:00 followed by one from 12:00 to 13:00:
both are open and `currentFor` returns the second. -/
theorem currentFor_last_open_witness :
    floatEnv.IsOpen dayShift (12 * Hour + 30 * Minute) = true ∧
      floatEnv.IsOpen lunch (12 * Hour + 30 * Minute) = true ∧
      ∃ v, currentFor floatEnv ⟨[dayShift, lunch]⟩ (12 * Hour + 30 * Minute) =
        .ret (some lunch, v) :=
  ⟨by decide, by decide,
    (currentFor_last_open floatEnv ⟨[dayShift, lunch]⟩ (12 * Hour + 30 * Minute)).2.1 1 lunch
      rfl (by decide)
      (fun j w' hj h => by
        obtain ⟨k, rfl⟩ : ∃ k, j = k + 2 := ⟨j - 2, by omega⟩
        simp at h)
      (Or.inl (by decide))⟩

/-- C3 at 08:00 with a window from 09:00 to 17:00 and one from 12:00 to 13:00: none is
open and `currentFor` returns a nil window and the duration to the least next opening. -/
theorem currentFor_none_open_witness :
    ∃ d : Duration, currentFor floatEnv ⟨[dayShift, lunch]⟩ (8 * Hour) = .ret (none, some d) ∧
      (∃ w ∈ [dayShift, lunch], floatEnv.NextOpenAfter w (8 * Hour) = 8 * Hour + d) ∧
      ∀ w ∈ [dayShift, lunch], 8 * Hour + d ≤ floatEnv.NextOpenAfter w (8 * Hour) :=
  currentFor_none_open floatEnv ⟨[dayShift, lunch]⟩ (8 * Hour) (by decide) (by decide)

/-- C4 at 10:00 with a window from 09:00 to 17:00 followed by one from 12:00 to 13:00:
the first window is the one open, and the validity is cut at the opening of the second
window, two hours later. -/
theorem currentFor_validity_witness :
    currentFor floatEnv ⟨[dayShift, lunch]⟩ (10 * Hour) = .ret (some dayShift, some (2 * Hour)) ∧
      ∃ own, ownEnd floatEnv dayShift (10 * Hour) = .ret own ∧
        (closings floatEnv (10 * Hour) own [lunch] = [] →
          currentFor floatEnv ⟨[dayShift, lunch]⟩ (10 * Hour) = .ret (some dayShift, none)) ∧
        (closings floatEnv (10 * Hour) own [lunch] ≠ [] →
          ∃ e : Time, currentFor floatEnv ⟨[dayShift, lunch]⟩ (10 * Hour) =
              .ret (some dayShift, some (e - 10 * Hour)) ∧
            e ∈ closings floatEnv (10 * Hour) own [lunch] ∧
            (∀ c ∈ closings floatEnv (10 * Hour) own [lunch], e ≤ c) ∧
            ∀ w' ∈ [lunch], 10 * Hour + (e - 10 * Hour) ≤ floatEnv.NextOpenAfter w' (10 * Hour)) :=
  ⟨by decide,
    currentFor_validity floatEnv ⟨[dayShift, lunch]⟩ (10 * Hour) 0 dayShift rfl (by decide)
      (fun j w' hj h => by
        obtain ⟨k, rfl⟩ : ∃ k, j = k + 1 := ⟨j - 1, by omega⟩
        cases k with
        | zero =>
          simp only [zero_add, List.getElem?_cons_succ, List.getElem?_cons_zero,
            Option.some.injEq] at h
          rw [← h]; decide
        | succ k => simp at h)
      (Or.inl (by decide))⟩

/-- C7 at 09:00 with a window from 11:00 to 12:00 at 10 per hour, in binary64
arithmetic: position 5 is estimated at 11:30 and position 10 at 12:00. -/
theorem Estimate_monotone_witness :
    Estimate floatEnv ⟨[hourly10]⟩ 10 (9 * Hour) 5 = .ret (some (11 * Hour + 30 * Minute)) ∧
      Estimate floatEnv ⟨[hourly10]⟩ 10 (9 * Hour) 10 = .ret (some (12 * Hour)) ∧
      (11 * Hour + 30 * Minute : Time) ≤ 12 * Hour :=
  ⟨by decide, by decide,
    Estimate_monotone floatEnv ⟨[hourly10]⟩ (f64Scale_bounds floatEnv rfl)
      (specEnv_advances _ _ _)
      (specEnv_within _ _ _ (fun w hw => by
        simp only [List.mem_singleton] at hw
        rw [hw]
        constructor
        · intro s hs
          simp only [hourly10, Option.some.injEq] at hs
          rw [← hs]
          norm_num [timeOfDay.offset, Hour, Minute, Second]
        · intro e he
          simp only [hourly10, Option.some.injEq] at he
          rw [← he]
          norm_num [timeOfDay.offset, Hour, Minute, Second]))
      (9 * Hour) 5 10 (by decide) (by decide) 10 10
      (11 * Hour + 30 * Minute) (12 * Hour) (by decide) (by decide)⟩

/-- C8 as stated fails.  At 11:00 with a window from 11:00 to 12:00 at 10 per hour, the
walk meets the window, of capacity 10, and then the closed time until 11:00 of the next
day, of capacity 0, which starts within the horizon.  Position 10 is the sum of the
positive capacities up to and including the second schedule, and `Estimate` returns
12:00, the end of the first schedule, not the end of the second. -/
theorem Estimate_boundary_counterexample :
    isWalk floatEnv ⟨[hourly10]⟩ (11 * Hour)
        [⟨11 * Hour, 1 * Hour, ⟨10, 3⟩⟩, ⟨12 * Hour, 23 * Hour, ⟨0, 0⟩⟩] = true ∧
      floatEnv.total ⟨11 * Hour, 1 * Hour, ⟨10, 3⟩⟩ = 10 ∧
      floatEnv.total ⟨12 * Hour, 23 * Hour, ⟨0, 0⟩⟩ = 0 ∧
      (12 * Hour : Time) < 11 * Hour + 7 * 24 * Hour ∧
      (10 : Int) = positiveTotals floatEnv
        [⟨11 * Hour, 1 * Hour, ⟨10, 3⟩⟩, ⟨12 * Hour, 23 * Hour, ⟨0, 0⟩⟩] ∧
      Estimate floatEnv ⟨[hourly10]⟩ 10 (11 * Hour) 10 = .ret (some (12 * Hour)) ∧
      Estimate floatEnv ⟨[hourly10]⟩ 10 (11 * Hour) 10 ≠
        .ret (some ((12 * Hour : Time) + 23 * Hour)) := by
  refine ⟨by decide, by decide, by decide, by decide, by decide, by decide, by decide⟩

/-- C8 as amended, at 09:00 with a window from 11:00 to 12:00 at 10 per hour: the walk
meets the closed time until 11:00 and then the window, of capacity 10; position 10 is
estimated at the end of the window, 12:00. -/
theorem Estimate_boundary_witness :
    Estimate floatEnv ⟨[hourly10]⟩ 2 (9 * Hour) 10 = .ret (some (11 * Hour + 1 * Hour)) :=
  Estimate_boundary floatEnv ⟨[hourly10]⟩ (by decide) (specEnv_advances _ _ _) (9 * Hour)
    [⟨9 * Hour, 2 * Hour, ⟨0, 0⟩⟩] ⟨11 * Hour, 1 * Hour, ⟨10, 3⟩⟩ (by decide) (by decide)
    (by decide) (by decide) (by decide) 10 (by decide) 2 (by decide)

/-- C9 as stated fails.  At 09:00 with a window from 11:00 to 12:00 at 5 per hour, the
walk meets the closed time until 11:00 and then the window, of duration one hour and
capacity 5.  For position 1 the remaining count before the window is 1, and `Estimate`
returns 11:00 plus 719999999999 nanoseconds, one less than the 720000000000 of
`D * r / T`: in binary64 `1.0 - 4.0/5.0` is below `0.2`. -/
theorem Estimate_inside_counterexample :
    isWalk floatEnv ⟨[hourly5]⟩ (9 * Hour)
        [⟨9 * Hour, 2 * Hour, ⟨0, 0⟩⟩, ⟨11 * Hour, 1 * Hour, ⟨5, 3⟩⟩] = true ∧
      floatEnv.total ⟨9 * Hour, 2 * Hour, ⟨0, 0⟩⟩ = 0 ∧
      floatEnv.total ⟨11 * Hour, 1 * Hour, ⟨5, 3⟩⟩ = 5 ∧
      Estimate floatEnv ⟨[hourly5]⟩ 10 (9 * Hour) 1 =
        .ret (some (11 * Hour + 719999999999)) ∧
      Estimate floatEnv ⟨[hourly5]⟩ 10 (9 * Hour) 1 ≠
        .ret (some (11 * Hour + 1 * Hour * 1 / 5)) := by
  refine ⟨by decide, by decide, by decide, by decide, by decide⟩

/-- C9 as amended, at the example of the claim: at 09:00 a window closed now opens in two
hours, at 11:00, for one hour at 10 per hour; position 5 is estimated 30 minutes after
the opening. -/
theorem Estimate_inside_witness :
    (Estimate floatEnv ⟨[hourly10]⟩ 2 (9 * Hour) 5 =
        .ret (some (11 * Hour + floatEnv.scale (1 * Hour) (5 - 10) 10)) ∧
      exactScale (1 * Hour) (5 - 10) 10 = 1 * Hour * 5 / 10) ∧
      floatEnv.scale (1 * Hour) (5 - 10) 10 = 30 * Minute :=
  ⟨Estimate_inside floatEnv ⟨[hourly10]⟩ (by decide) (specEnv_advances _ _ _) (9 * Hour)
    [⟨9 * Hour, 2 * Hour, ⟨0, 0⟩⟩] ⟨11 * Hour, 1 * Hour, ⟨10, 3⟩⟩ (by decide) (by decide)
    (by decide) (by decide) (by decide) 5 5 (by decide) (by decide) (by decide) (by decide)
    2 (by decide), by decide⟩

/-- C10 with a window from 09:00 to 17:00 at the zero rate, at 09:00 and position 3. -/
theorem Estimate_zero_rates_witness :
    Estimate floatEnv ⟨[frozen]⟩ 604800000000000 (9 * Hour) 3 = .ret none :=
  Estimate_zero_rates floatEnv ⟨[frozen]⟩ (by decide) (by decide)
    (fun s h => specTotal_zero s h) (specEnv_advances _ _ _)
    (fun w hw => by
      simp only [List.mem_singleton] at hw
      rw [hw]
      exact Or.inl (by decide))
    (9 * Hour) 3 604800000000000 (le_refl _)

/-! ## The schedule of `scheduleAt` -/

/-- C14. With windows configured and none open at `at_`, let `d` be the duration to the
next opening, the least `NextOpenAfter(at_)` less `at_`.  Then `scheduleAt` returns a
schedule at the zero rate that starts at `at_`, of duration one minute when `minimal`
is set and `d` is at least one minute, and `d` otherwise; with `minimal` set that is
the least of `d` and one minute, and the duration never exceeds `d`. -/
theorem scheduleAt_closed (X : Env) (cfg : Configuration) (at_ : Time) (minimal : Bool)
    (hne : cfg.windows ≠ []) (hclosed : ∀ w ∈ cfg.windows, X.IsOpen w at_ = false) :
    ∃ d : Duration,
      (∃ w ∈ cfg.windows, X.NextOpenAfter w at_ = at_ + d) ∧
      (∀ w ∈ cfg.windows, at_ + d ≤ X.NextOpenAfter w at_) ∧
      scheduleAt X cfg at_ minimal =
        .ret ⟨at_, if minimal = true ∧ 1 * Minute ≤ d then 1 * Minute else d, ⟨0, 0⟩⟩ ∧
      scheduleAt X cfg at_ true = .ret ⟨at_, min d (1 * Minute), ⟨0, 0⟩⟩ ∧
      scheduleAt X cfg at_ false = .ret ⟨at_, d, ⟨0, 0⟩⟩ ∧
      (if minimal = true ∧ 1 * Minute ≤ d then 1 * Minute else d) ≤ d := by
  obtain ⟨d, hd, hatt, hmin⟩ := currentFor_closed_min X cfg at_ hne hclosed
  have hgen : ∀ m : Bool, scheduleAt X cfg at_ m =
      .ret ⟨at_, if m = true ∧ 1 * Minute ≤ d then 1 * Minute else d, ⟨0, 0⟩⟩ := by
    intro m
    unfold scheduleAt
    rw [hd]
    simp only [ge_iff_le, newSchedule]
    by_cases hc : 1 * Minute ≤ d ∧ m = true
    · rw [if_pos hc, if_pos ⟨hc.2, hc.1⟩]
    · rw [if_neg hc, if_neg (fun h => hc ⟨h.2, h.1⟩)]
  refine ⟨d, hatt, hmin, hgen minimal, ?_, ?_, ?_⟩
  · rw [hgen true]
    by_cases hc : 1 * Minute ≤ d
    · rw [if_pos ⟨rfl, hc⟩, min_eq_right hc]
    · rw [if_neg (fun h => hc h.2), min_eq_left (le_of_lt (not_le.1 hc))]
  · rw [hgen false]
    simp
  · by_cases hc : minimal = true ∧ 1 * Minute ≤ d
    · rw [if_pos hc]; exact hc.2
    · rw [if_neg hc]

/-- C15. When `currentFor` returns an active window `w` with validity `v`, `scheduleAt`
returns, for both values of `minimal`, a schedule that starts at `at_` and carries the
rate of `w`; its duration is `v` when `v` is bounded, and otherwise one hour if the unit
of the rate is per-hour and one minute for any other rate. -/
theorem scheduleAt_open (X : Env) (cfg : Configuration) (at_ : Time) (minimal : Bool)
    (w : Window) (v : Option Duration) (h : currentFor X cfg at_ = .ret (some w, v)) :
    ∃ s : Schedule, scheduleAt X cfg at_ minimal = .ret s ∧ s.validFrom = at_ ∧
      s.rate = w.rate ∧
      (∀ d : Duration, v = some d → s.duration = d) ∧
      (v = none → w.rate.unit = X.ratePerHour → s.duration = 1 * Hour) ∧
      (v = none → w.rate.unit ≠ X.ratePerHour → s.duration = 1 * Minute) := by
  cases v with
  | some d =>
    refine ⟨newSchedule at_ d w.rate, ?_, rfl, rfl, ?_, ?_, ?_⟩
    · unfold scheduleAt
      rw [h]
    · intro d' hd'
      cases hd'
      rfl
    · intro hv
      cases hv
    · intro hv
      cases hv
  | none =>
    by_cases hu : w.rate.unit = X.ratePerHour
    · refine ⟨newSchedule at_ (1 * Hour) w.rate, ?_, rfl, rfl, ?_, ?_, ?_⟩
      · unfold scheduleAt
        rw [h]
        simp only
        rw [if_pos hu]
      · intro d' hd'
        cases hd'
      · intro _ _
        rfl
      · intro _ hu'
        exact absurd hu hu'
    · refine ⟨newSchedule at_ (1 * Minute) w.rate, ?_, rfl, rfl, ?_, ?_, ?_⟩
      · unfold scheduleAt
        rw [h]
        simp only
        rw [if_neg hu]
      · intro d' hd'
        cases hd'
      · intro _ hu'
        exact absurd hu' hu
      · intro _ _
        rfl

/-- C16. Without windows `Schedule` returns the schedule anchored at the clock instant,
of duration ten minutes and with the unlimited rate `n = -1`, whose total capacity
after the specification is `-1`; with windows it is `scheduleAt` at the clock instant
with `minimal` set. -/
theorem Schedule_eq (X : Env) (cfg : Configuration) (clock : Time) :
    (cfg.windows = [] →
      cfg.Schedule X clock = .ret ⟨clock, 10 * Minute, ⟨-1, 0⟩⟩ ∧
        specTotal ⟨clock, 10 * Minute, ⟨-1, 0⟩⟩ = -1) ∧
    (cfg.windows ≠ [] → cfg.Schedule X clock = scheduleAt X cfg clock true) := by
  constructor
  · intro h
    constructor
    · simp [Configuration.Schedule, Configuration.HasRolloutWindows, h, newSchedule]
    · simp [specTotal]
  · intro h
    have hw : cfg.HasRolloutWindows = true := by
      cases hc : cfg.windows with
      | nil => exact absurd hc h
      | cons w ws => simp [Configuration.HasRolloutWindows, hc]
    simp [Configuration.Schedule, hw]

/-- C19. With at least one window, the windows advancing (`Advances`: a window closed at
`t` next opens after `t`, and the end time of day of a window open at `t` lies after
`t`) and their closing instants found (`endFound`), `scheduleAt` returns, for every
instant and both values of `minimal`, a schedule that starts at `at_` and has a strictly
positive duration, so that its end instant is strictly after `at_`. -/
theorem scheduleAt_advances (X : Env) (cfg : Configuration)
    (hadv : Advances X cfg) (hfound : ∀ w ∈ cfg.windows, endFound X w) (at_ : Time)
    (minimal : Bool) :
    ∃ s : Schedule, scheduleAt X cfg at_ minimal = .ret s ∧ s.validFrom = at_ ∧
      0 < s.duration ∧ at_ < s.ValidUntil := by
  obtain ⟨s, hs⟩ := scheduleAt_ret X cfg at_ minimal hfound
  obtain ⟨hfrom, hdur⟩ := scheduleAt_shape X cfg at_ minimal s hadv hs
  refine ⟨s, hs, hfrom, hdur, ?_⟩
  unfold Schedule.ValidUntil
  rw [hfrom]
  linarith

/-! ## The walk of `Estimate`: where an estimate lies, and termination -/

/-- The search of `currentFor` never runs out of fuel: eight rounds suffice. -/
theorem currentFor_ne_noFuel (X : Env) (cfg : Configuration) (now : Time) :
    currentFor X cfg now ≠ .noFuel := by
  rcases currentFor_cases X cfg now with ⟨_, h⟩ | ⟨_, _, w, _, h⟩ | ⟨i, w, _, _, _, h⟩
  · rw [h]; intro hc; cases hc
  · rw [h]; intro hc; cases hc
  · rw [h]
    cases ho : ownEnd X w now with
    | panic msg => intro hc; cases hc
    | noFuel => exact absurd ho (ownEnd_ne_noFuel X w now)
    | ret e =>
      simp only
      cases laterEnd X now (cfg.windows.drop (i + 1)) e with
      | none => intro hc; cases hc
      | some e' => intro hc; cases hc

/-- The fuel of the model never runs out inside `scheduleAt`. -/
theorem scheduleAt_ne_noFuel (X : Env) (cfg : Configuration) (at_ : Time) (minimal : Bool) :
    scheduleAt X cfg at_ minimal ≠ .noFuel := by
  unfold scheduleAt
  cases hc : currentFor X cfg at_ with
  | panic msg => intro h; cases h
  | noFuel => exact absurd hc (currentFor_ne_noFuel X cfg at_)
  | ret r =>
    obtain ⟨ow, ov⟩ := r
    cases ow <;> cases ov <;> simp only <;> try split
    all_goals intro h; cases h

/-- An estimate of the loop lies in a schedule that starts before the horizon: between
the start and the end instant of the schedule the loop returns from. -/
theorem estimateLoop_in_schedule (X : Env) (cfg : Configuration) (until_ : Time)
    (hscale : ScaleBounds X) (hadv : Advances X cfg) (hwithin : Within X cfg) :
    ∀ (fuel : Nat) (rem : Int) (at_ t : Time), 0 ≤ rem →
      estimateLoop X cfg until_ fuel rem at_ = .ret (some t) →
      ∃ (a : Time) (s : Schedule), at_ ≤ a ∧ a < until_ ∧
        scheduleAt X cfg a false = .ret s ∧ a ≤ t ∧ t ≤ s.ValidUntil := by
  intro fuel
  induction fuel with
  | zero =>
    intro rem at_ t _ h
    obtain ⟨_, k, s, hk, _⟩ := estimateLoop_some X cfg until_ 0 rem at_ t h
    omega
  | succ fuel ih =>
    intro rem at_ t hrem h
    obtain ⟨hat, _, s, _, hs⟩ := estimateLoop_some X cfg until_ _ rem at_ t h
    obtain ⟨hfrom, hdur⟩ := scheduleAt_shape X cfg at_ false s hadv hs
    have hshort := scheduleAt_duration_lt X cfg at_ false s hwithin hs
    have hvu : s.ValidUntil = at_ + s.duration := by
      unfold Schedule.ValidUntil; rw [hfrom]
    rw [estimateLoop_step X cfg until_ _ rem at_ s hat hs] at h
    by_cases h1 : X.total s = -1
    · simp only [h1, if_true, Outcome.ret.injEq, Option.some.injEq] at h
      refine ⟨at_, s, le_refl _, hat, hs, le_of_eq h, ?_⟩
      rw [← h, hvu]
      linarith
    · by_cases h0 : X.total s = 0
      · simp only [h1, h0, if_false, if_true] at h
        obtain ⟨a, s', ha, hau, hs', hat', hts⟩ := ih rem _ t hrem h
        refine ⟨a, s', ?_, hau, hs', hat', hts⟩
        rw [hvu] at ha
        linarith
      · by_cases hneg : rem - X.total s < 0
        · simp only [h1, h0, hneg, if_false, if_true, Outcome.ret.injEq,
            Option.some.injEq] at h
          have hd : s.ValidUntil - at_ = s.duration := by rw [hvu]; ring
          rw [hd] at h
          have hlo := hscale.nonneg s.duration (rem - X.total s) (X.total s) (le_of_lt hdur)
            hshort (by linarith) (by linarith) hneg
          have hhi := hscale.le s.duration (rem - X.total s) (X.total s) (le_of_lt hdur)
            hshort (by linarith) (by linarith) hneg
          refine ⟨at_, s, le_refl _, hat, hs, ?_, ?_⟩
          · rw [← h]; linarith
          · rw [← h, hvu]; linarith
        · by_cases hz : rem - X.total s = 0
          · rw [if_neg h1, if_neg h0, if_neg hneg, if_pos hz] at h
            simp only [Outcome.ret.injEq, Option.some.injEq] at h
            refine ⟨at_, s, le_refl _, hat, hs, ?_, le_of_eq h.symm⟩
            rw [← h, hvu]
            linarith
          · simp only [h1, h0, hneg, hz, if_false] at h
            have hpos : 0 ≤ rem - X.total s := not_lt.1 hneg
            obtain ⟨a, s', ha, hau, hs', hat', hts⟩ := ih _ _ t hpos h
            refine ⟨a, s', ?_, hau, hs', hat', hts⟩
            rw [hvu] at ha
            linarith

/-- C11. An estimate of `Estimate` for a position `n ≥ 0` lies in a schedule that starts
before the 7-day horizon: it is `now`, or it lies between the start `a < now + 7 days`
and the end instant of the schedule `scheduleAt` returns at `a`, so that it is less than
`now + 7 days` plus the duration of that schedule.  The floating point expression is
assumed to scale within bounds (`ScaleBounds`), the windows to advance (`Advances`) and
the closing instants to lie within `2 ^ 53` nanoseconds (`Within`). -/
theorem Estimate_horizon (X : Env) (cfg : Configuration) (hscale : ScaleBounds X)
    (hadv : Advances X cfg) (hwithin : Within X cfg) (now : Time) (n : Int) (hn : 0 ≤ n)
    (fuel : Nat) (t : Time) (h : Estimate X cfg fuel now n = .ret (some t)) :
    t = now ∨
    ∃ (a : Time) (s : Schedule), now ≤ a ∧ a < now + 7 * 24 * Hour ∧
      scheduleAt X cfg a false = .ret s ∧ a ≤ t ∧ t ≤ s.ValidUntil ∧
      t < now + 7 * 24 * Hour + s.duration := by
  unfold Estimate at h
  by_cases hw : cfg.HasRolloutWindows = true
  · rw [hw] at h
    simp only [Bool.not_true, Bool.false_eq_true, if_false] at h
    obtain ⟨a, s, ha, hau, hs, hat, hts⟩ :=
      estimateLoop_in_schedule X cfg _ hscale hadv hwithin fuel n now t hn h
    refine Or.inr ⟨a, s, ha, hau, hs, hat, hts, ?_⟩
    obtain ⟨hfrom, _⟩ := scheduleAt_shape X cfg a false s hadv hs
    unfold Schedule.ValidUntil at hts
    rw [hfrom] at hts
    linarith
  · simp only [Bool.not_eq_true] at hw
    rw [hw] at h
    simp only [Bool.not_false, if_true, Outcome.ret.injEq, Option.some.injEq] at h
    exact Or.inl h.symm

/-- C20. An estimate of `Estimate` for a position `n ≥ 0` is not before `now`.  The
floating point expression is assumed to scale within bounds (`ScaleBounds`), the windows
to advance (`Advances`) and the closing instants to lie within `2 ^ 53` nanoseconds
(`Within`). -/
theorem Estimate_not_before (X : Env) (cfg : Configuration) (hscale : ScaleBounds X)
    (hadv : Advances X cfg) (hwithin : Within X cfg) (now : Time) (n : Int) (hn : 0 ≤ n)
    (fuel : Nat) (t : Time) (h : Estimate X cfg fuel now n = .ret (some t)) : now ≤ t := by
  unfold Estimate at h
  by_cases hw : cfg.HasRolloutWindows = true
  · rw [hw] at h
    simp only [Bool.not_true, Bool.false_eq_true, if_false] at h
    exact estimateLoop_ge X cfg _ hscale hadv hwithin fuel n now t hn h
  · simp only [Bool.not_eq_true] at hw
    rw [hw] at h
    simp only [Bool.not_false, if_true, Outcome.ret.injEq, Option.some.injEq] at h
    exact le_of_eq h

/-- More fuel does not change an outcome of the loop of `Estimate` other than running
out of fuel. -/
theorem estimateLoop_fuel_ne (X : Env) (cfg : Configuration) (until_ : Time) :
    ∀ (fuel fuel' : Nat) (rem : Int) (at_ : Time), fuel ≤ fuel' →
      estimateLoop X cfg until_ fuel rem at_ ≠ .noFuel →
      estimateLoop X cfg until_ fuel' rem at_ = estimateLoop X cfg until_ fuel rem at_ := by
  intro fuel
  induction fuel with
  | zero =>
    intro fuel' rem at_ _ h
    by_cases hat : at_ < until_
    · simp [estimateLoop, hat] at h
    · rw [estimateLoop_done X cfg until_ _ rem at_ hat,
        estimateLoop_done X cfg until_ _ rem at_ hat]
  | succ fuel ih =>
    intro fuel' rem at_ hle h
    by_cases hat : at_ < until_
    · obtain ⟨k, rfl⟩ : ∃ k, fuel' = k + 1 := ⟨fuel' - 1, by omega⟩
      cases hs : scheduleAt X cfg at_ false with
      | panic msg => simp [estimateLoop, hat, hs]
      | noFuel => simp [estimateLoop, hat, hs]
      | ret s =>
        rw [estimateLoop_step X cfg until_ _ rem at_ s hat hs] at h ⊢
        rw [estimateLoop_step X cfg until_ _ rem at_ s hat hs]
        by_cases h1 : X.total s = -1
        · rw [if_pos h1, if_pos h1]
        · by_cases h0 : X.total s = 0
          · rw [if_neg h1, if_pos h0] at h
            rw [if_neg h1, if_pos h0, if_neg h1, if_pos h0]
            exact ih k rem _ (by omega) h
          · by_cases hneg : rem - X.total s < 0
            · rw [if_neg h1, if_neg h0, if_pos hneg, if_neg h1, if_neg h0, if_pos hneg]
            · by_cases hz : rem - X.total s = 0
              · rw [if_neg h1, if_neg h0, if_neg hneg, if_pos hz, if_neg h1, if_neg h0,
                  if_neg hneg, if_pos hz]
              · rw [if_neg h1, if_neg h0, if_neg hneg, if_neg hz] at h
                rw [if_neg h1, if_neg h0, if_neg hneg, if_neg hz, if_neg h1, if_neg h0,
                  if_neg hneg, if_neg hz]
                exact ih k _ _ (by omega) h
    · rw [estimateLoop_done X cfg until_ _ rem at_ hat,
        estimateLoop_done X cfg until_ _ rem at_ hat]

/-- With windows that advance, the loop of `Estimate` ends within as many rounds as
there are nanoseconds up to the horizon: each round returns, panics, or moves on by at
least one nanosecond. -/
theorem estimateLoop_terminates (X : Env) (cfg : Configuration) (until_ : Time)
    (hadv : Advances X cfg) :
    ∀ (k fuel : Nat) (rem : Int) (at_ : Time), until_ - at_ ≤ k → k ≤ fuel →
      estimateLoop X cfg until_ fuel rem at_ ≠ .noFuel := by
  intro k
  induction k with
  | zero =>
    intro fuel rem at_ hk _
    rw [estimateLoop_done]
    · intro hc; cases hc
    · simp only [Nat.cast_zero] at hk
      intro hc
      linarith
  | succ k ih =>
    intro fuel rem at_ hk hfuel
    by_cases hat : at_ < until_
    · obtain ⟨f, rfl⟩ : ∃ f, fuel = f + 1 := ⟨fuel - 1, by omega⟩
      cases hs : scheduleAt X cfg at_ false with
      | panic msg => simp [estimateLoop, hat, hs]
      | noFuel => exact absurd hs (scheduleAt_ne_noFuel X cfg at_ false)
      | ret s =>
        obtain ⟨hfrom, hdur⟩ := scheduleAt_shape X cfg at_ false s hadv hs
        have hnext : until_ - s.ValidUntil ≤ (k : Int) := by
          unfold Schedule.ValidUntil
          rw [hfrom]
          push_cast at hk
          have : (1 : Int) ≤ s.duration := hdur
          linarith
        rw [estimateLoop_step X cfg until_ f rem at_ s hat hs]
        by_cases h1 : X.total s = -1
        · rw [if_pos h1]; intro hc; cases hc
        · by_cases h0 : X.total s = 0
          · rw [if_neg h1, if_pos h0]
            exact ih f rem _ hnext (by omega)
          · by_cases hneg : rem - X.total s < 0
            · rw [if_neg h1, if_neg h0, if_pos hneg]; intro hc; cases hc
            · by_cases hz : rem - X.total s = 0
              · rw [if_neg h1, if_neg h0, if_neg hneg, if_pos hz]; intro hc; cases hc
              · rw [if_neg h1, if_neg h0, if_neg hneg, if_neg hz]
                exact ih f _ _ hnext (by omega)
    · rw [estimateLoop_done X cfg until_ fuel rem at_ hat]
      intro hc; cases hc

/-- C12. `Estimate` terminates, for windows that advance (`Advances`): every schedule of
the walk ends strictly after the instant it is taken at, so each round of the loop
returns or moves `at_` on by at least one nanosecond, and with fuel for the nanoseconds
of the 7-day horizon the loop never runs out of fuel; more fuel does not change the
outcome. -/
theorem Estimate_terminates (X : Env) (cfg : Configuration) (hadv : Advances X cfg)
    (now : Time) (n : Int) :
    (∀ (at_ : Time) (s : Schedule), scheduleAt X cfg at_ false = .ret s →
      at_ < s.ValidUntil) ∧
    (∀ fuel : Nat, 604800000000000 ≤ fuel → Estimate X cfg fuel now n ≠ .noFuel) ∧
    (∀ fuel : Nat, 604800000000000 ≤ fuel →
      Estimate X cfg fuel now n = Estimate X cfg 604800000000000 now n) := by
  have h7 : (7 * 24 * Hour : Int) = 604800000000000 := by norm_num [Hour, Minute, Second]
  have hterm : ∀ fuel : Nat, 604800000000000 ≤ fuel →
      estimateLoop X cfg (now + 7 * 24 * Hour) fuel n now ≠ .noFuel := by
    intro fuel hfuel
    apply estimateLoop_terminates X cfg _ hadv 604800000000000 fuel n now _ hfuel
    rw [h7]
    norm_num
  refine ⟨?_, ?_, ?_⟩
  · intro at_ s hs
    obtain ⟨hfrom, hdur⟩ := scheduleAt_shape X cfg at_ false s hadv hs
    unfold Schedule.ValidUntil
    rw [hfrom]
    linarith
  · intro fuel hfuel
    unfold Estimate
    split
    · intro hc; cases hc
    · exact hterm fuel hfuel
  · intro fuel hfuel
    unfold Estimate
    split
    · rfl
    · exact estimateLoop_fuel_ne X cfg _ 604800000000000 fuel n now hfuel
        (hterm 604800000000000 (le_refl _))

/-! ## The closing instant of `currentFor`: open-ended windows, the day search -/

/-- The fourth loop of `currentFor` leaves the end unset exactly when it was unset and
no window is declared later. -/
theorem laterEnd_none_iff (X : Env) (now : Time) (ws : List Window) (end_ : Option Time) :
    laterEnd X now ws end_ = none ↔ end_ = none ∧ ws = [] := by
  rw [laterEnd_eq_nextOpen]
  obtain ⟨_, h2⟩ := nextOpen_min X now ws end_
  constructor
  · intro h
    cases end_ with
    | some e =>
      obtain ⟨e', he', _⟩ := h2 (by simp)
      rw [h] at he'
      cases he'
    | none =>
      cases ws with
      | nil => exact ⟨rfl, rfl⟩
      | cons w ws' =>
        obtain ⟨e', he', _⟩ := h2 (by simp)
        rw [h] at he'
        cases he'
  · rintro ⟨rfl, rfl⟩
    rfl

/-- The window itself has no closing instant exactly when it has no end time and its
day set is `all`. -/
theorem ownEnd_none_iff (X : Env) (w : Window) (now : Time) :
    ownEnd X w now = .ret none ↔ w.end_ = none ∧ X.all w.days = true := by
  unfold ownEnd
  cases he : w.end_ with
  | some e => simp
  | none =>
    cases hall : X.all w.days with
    | true => simp
    | false =>
      simp only [Bool.not_false, if_true, Bool.false_eq_true, and_false, iff_false]
      cases dayEnd X w now 8 (Truncate now (24 * Hour)) with
      | ret s => simp
      | panic msg => simp
      | noFuel => simp

/-- The windows declared after index `i` are none exactly when `i` is the last index. -/
theorem drop_succ_eq_nil (ws : List Window) (i : Nat) (w : Window) (hi : ws[i]? = some w) :
    ws.drop (i + 1) = [] ↔ i + 1 = ws.length := by
  have hlt : i < ws.length := by
    by_contra hc
    rw [List.getElem?_eq_none (not_lt.1 hc)] at hi
    cases hi
  rw [List.drop_eq_nil_iff]
  omega

/-- C18. At an instant at which some window is open, with `w` the last open window in
declaration order, `currentFor` returns `w` without a validity exactly when `w` has no
end time, its day set is `all`, and it is the last window of the configuration; in
every other case the validity returned is set, given that the closing instant of `w` is
found (`endFound`). -/
theorem currentFor_indefinite (X : Env) (cfg : Configuration) (now : Time) (i : Nat)
    (w : Window) (hi : cfg.windows[i]? = some w) (hopen : X.IsOpen w now = true)
    (hlast : ∀ (j : Nat) (w' : Window), i < j → cfg.windows[j]? = some w' →
      X.IsOpen w' now = false) :
    (currentFor X cfg now = .ret (some w, none) ↔
      w.end_ = none ∧ X.all w.days = true ∧ i + 1 = cfg.windows.length) ∧
    (endFound X w →
      ¬ (w.end_ = none ∧ X.all w.days = true ∧ i + 1 = cfg.windows.length) →
      ∃ v : Duration, currentFor X cfg now = .ret (some w, some v)) := by
  have hcf := currentFor_open X cfg now i w hi hopen hlast
  have hdrop := drop_succ_eq_nil cfg.windows i w hi
  have hiff : currentFor X cfg now = .ret (some w, none) ↔
      w.end_ = none ∧ X.all w.days = true ∧ i + 1 = cfg.windows.length := by
    rw [hcf]
    cases ho : ownEnd X w now with
    | panic msg =>
      have hn : ¬ (w.end_ = none ∧ X.all w.days = true) := by
        rw [← ownEnd_none_iff X w now, ho]; intro hc; cases hc
      constructor
      · intro hc; cases hc
      · rintro ⟨h1, h2, _⟩; exact absurd ⟨h1, h2⟩ hn
    | noFuel => exact absurd ho (ownEnd_ne_noFuel X w now)
    | ret e =>
      simp only
      cases hl : laterEnd X now (cfg.windows.drop (i + 1)) e with
      | none =>
        obtain ⟨he, hd⟩ := (laterEnd_none_iff X now _ e).1 hl
        rw [he] at ho
        obtain ⟨h1, h2⟩ := (ownEnd_none_iff X w now).1 ho
        simp only [true_iff]
        exact ⟨h1, h2, hdrop.1 hd⟩
      | some e' =>
        constructor
        · intro hc; cases hc
        · rintro ⟨h1, h2, h3⟩
          have hon := (ownEnd_none_iff X w now).2 ⟨h1, h2⟩
          rw [ho] at hon
          cases hon
          have := (laterEnd_none_iff X now (cfg.windows.drop (i + 1)) none).2
            ⟨rfl, hdrop.2 h3⟩
          rw [hl] at this
          cases this
  refine ⟨hiff, ?_⟩
  intro hfound hnot
  obtain ⟨own, hown⟩ := ownEnd_ret X w now hfound
  cases hl : laterEnd X now (cfg.windows.drop (i + 1)) own with
  | none =>
    exfalso
    apply hnot
    rw [← hiff, hcf, hown]
    simp only [hl]
  | some e =>
    refine ⟨e - now, ?_⟩
    rw [hcf, hown]
    simp only [hl]

/-- Where the closing instant of the last open window is not found, `currentFor`
panics: the window has no end time, its day set is not `all`, and it includes the seven
weekdays. -/
theorem currentFor_panics (X : Env) (cfg : Configuration) (now : Time) (i : Nat)
    (w : Window) (hi : cfg.windows[i]? = some w) (hopen : X.IsOpen w now = true)
    (hlast : ∀ (j : Nat) (w' : Window), i < j → cfg.windows[j]? = some w' →
      X.IsOpen w' now = false) (h : ¬ endFound X w) :
    currentFor X cfg now = .panic dayPanic := by
  rw [currentFor_open X cfg now i w hi hopen hlast, ownEnd_panic X w now h]

/-- The day search of `currentFor` for a last window without end time whose day set is
not `all`: the validity runs to the first midnight after `now` whose weekday is not
included. -/
theorem currentFor_day_search (X : Env) (cfg : Configuration) (now : Time) (i : Nat)
    (w : Window) (hi : cfg.windows[i]? = some w) (hopen : X.IsOpen w now = true)
    (hend : w.end_ = none) (hdays : X.all w.days = false)
    (hex : ∃ d, d < 7 ∧ X.includes w.days d = false)
    (hlastw : i + 1 = cfg.windows.length) :
    ∃ k : Nat, 1 ≤ k ∧ k ≤ 7 ∧
      X.includes w.days (Weekday (Truncate now (24 * Hour) + k * (24 * Hour))) = false ∧
      (∀ j : Nat, 1 ≤ j → j < k →
        X.includes w.days (Weekday (Truncate now (24 * Hour) + j * (24 * Hour))) = true) ∧
      currentFor X cfg now =
        .ret (some w, some (Truncate now (24 * Hour) + k * (24 * Hour) - now)) := by
  obtain ⟨k, hk1, hk7, hk, hout, hin⟩ := dayEnd_of_excluded X w now hex
  refine ⟨k, hk1, hk7, hout, hin, ?_⟩
  have hlast : ∀ (j : Nat) (w' : Window), i < j → cfg.windows[j]? = some w' →
      X.IsOpen w' now = false := by
    intro j w' hj hw'
    rw [List.getElem?_eq_none (by omega)] at hw'
    cases hw'
  have hown : ownEnd X w now = .ret (some (Truncate now (24 * Hour) + k * (24 * Hour))) := by
    unfold ownEnd
    rw [hend]
    simp [hdays, hk]
  rw [currentFor_open X cfg now i w hi hopen hlast, hown,
    (drop_succ_eq_nil cfg.windows i w hi).2 hlastw]
  rfl

/-- C17. For a winning window without end time whose day set is not `all` and leaves a
weekday out, with no window declared after it, the closing instant `currentFor` uses is
the end of the current run of permitted days: with `k` the first day after the day of
`now` whose weekday is not included, at most seven days on, the remaining validity ends
within the last second before the midnight that starts day `k`, that midnight included.
When the day after `now` is not included, that is the next midnight after `now`. -/
theorem currentFor_day_limited (X : Env) (cfg : Configuration) (now : Time) (i : Nat)
    (w : Window) (hi : cfg.windows[i]? = some w) (hopen : X.IsOpen w now = true)
    (hend : w.end_ = none) (hdays : X.all w.days = false)
    (hex : ∃ d, d < 7 ∧ X.includes w.days d = false)
    (hlastw : i + 1 = cfg.windows.length) :
    ∃ (k : Nat) (v : Duration), 1 ≤ k ∧ k ≤ 7 ∧
      X.includes w.days (Weekday (Truncate now (24 * Hour) + k * (24 * Hour))) = false ∧
      (∀ j : Nat, 1 ≤ j → j < k →
        X.includes w.days (Weekday (Truncate now (24 * Hour) + j * (24 * Hour))) = true) ∧
      currentFor X cfg now = .ret (some w, some v) ∧
      Truncate now (24 * Hour) + k * (24 * Hour) - Second ≤ now + v ∧
      now + v ≤ Truncate now (24 * Hour) + k * (24 * Hour) ∧
      (X.includes w.days (Weekday (Truncate now (24 * Hour) + 24 * Hour)) = false →
        k = 1) := by
  obtain ⟨k, hk1, hk7, hout, hin, hcf⟩ :=
    currentFor_day_search X cfg now i w hi hopen hend hdays hex hlastw
  refine ⟨k, _, hk1, hk7, hout, hin, hcf, ?_, ?_, ?_⟩
  · have hs : (0 : Int) ≤ Second := by norm_num [Second]
    linarith
  · linarith
  · intro hnext
    by_contra hk
    have h1 := hin 1 (le_refl 1) (by omega)
    simp only [Nat.cast_one, one_mul] at h1
    rw [hnext] at h1
    cases h1

/-! ## The schedules, the walk and the day search at concrete configurations -/

/-- The times of day of the window from 11:00 to 12:00 lie within the day. -/
theorem hourly10_validTimes : ∀ w ∈ [hourly10], validTimes w := by
  intro w hw
  simp only [List.mem_singleton] at hw
  rw [hw]
  constructor
  · intro s hs
    simp only [hourly10, Option.some.injEq] at hs
    rw [← hs]
    norm_num [timeOfDay.offset, Hour, Minute, Second]
  · intro e he
    simp only [hourly10, Option.some.injEq] at he
    rw [← he]
    norm_num [timeOfDay.offset, Hour, Minute, Second]

/-- A list of one window has no window after index 0. -/
theorem singleton_last (X : Env) (w : Window) (now : Time) :
    ∀ (j : Nat) (w' : Window), 0 < j → [w][j]? = some w' → X.IsOpen w' now = false := by
  intro j w' hj h
  obtain ⟨k, rfl⟩ : ∃ k, j = k + 1 := ⟨j - 1, by omega⟩
  simp at h

/-- C11 as stated fails.  At 11:30 with a window from 11:00 to 12:00 at 10 per hour, the
windows up to the horizon hold 5 and six times 10 positions, and the window of the
seventh day opens at 11:00, before the horizon at 11:30 of that day.  Position 75 is the
last one of that window, and `Estimate` returns its end, 12:00 of the seventh day, 30
minutes after `now + 7 days`. -/
theorem Estimate_horizon_counterexample :
    Estimate floatEnv ⟨[hourly10]⟩ 20 (11 * Hour + 30 * Minute) 75 =
        .ret (some (7 * 24 * Hour + 12 * Hour)) ∧
      ¬ ((7 * 24 * Hour + 12 * Hour : Time) ≤ 11 * Hour + 30 * Minute + 7 * 24 * Hour) := by
  refine ⟨by decide, by decide⟩

/-- C11 as amended, at 11:30 with a window from 11:00 to 12:00 at 10 per hour and
position 74: the estimate, 11:54 of the seventh day, lies in a schedule that starts
before the horizon. -/
theorem Estimate_horizon_witness :
    Estimate floatEnv ⟨[hourly10]⟩ 20 (11 * Hour + 30 * Minute) 74 =
        .ret (some (7 * 24 * Hour + 11 * Hour + 54 * Minute)) ∧
      ((7 * 24 * Hour + 11 * Hour + 54 * Minute : Time) = 11 * Hour + 30 * Minute ∨
        ∃ (a : Time) (s : Schedule), 11 * Hour + 30 * Minute ≤ a ∧
          a < 11 * Hour + 30 * Minute + 7 * 24 * Hour ∧
          scheduleAt floatEnv ⟨[hourly10]⟩ a false = .ret s ∧
          a ≤ 7 * 24 * Hour + 11 * Hour + 54 * Minute ∧
          7 * 24 * Hour + 11 * Hour + 54 * Minute ≤ s.ValidUntil ∧
          7 * 24 * Hour + 11 * Hour + 54 * Minute <
            11 * Hour + 30 * Minute + 7 * 24 * Hour + s.duration) :=
  ⟨by decide,
    Estimate_horizon floatEnv ⟨[hourly10]⟩ (f64Scale_bounds floatEnv rfl)
      (specEnv_advances _ _ _) (specEnv_within _ _ _ hourly10_validTimes)
      (11 * Hour + 30 * Minute) 74 (by decide) 20
      (7 * 24 * Hour + 11 * Hour + 54 * Minute) (by decide)⟩

/-- C12 at 09:00 with a window from 11:00 to 12:00 at 10 per hour and position 5. -/
theorem Estimate_terminates_witness :
    (∀ (at_ : Time) (s : Schedule), scheduleAt floatEnv ⟨[hourly10]⟩ at_ false = .ret s →
      at_ < s.ValidUntil) ∧
    (∀ fuel : Nat, 604800000000000 ≤ fuel →
      Estimate floatEnv ⟨[hourly10]⟩ fuel (9 * Hour) 5 ≠ .noFuel) ∧
    (∀ fuel : Nat, 604800000000000 ≤ fuel →
      Estimate floatEnv ⟨[hourly10]⟩ fuel (9 * Hour) 5 =
        Estimate floatEnv ⟨[hourly10]⟩ 604800000000000 (9 * Hour) 5) :=
  Estimate_terminates floatEnv ⟨[hourly10]⟩ (specEnv_advances _ _ _) (9 * Hour) 5

/-- C20 at 09:00 with a window from 11:00 to 12:00 at 10 per hour: position 5 is
estimated at 11:30, not before 09:00. -/
theorem Estimate_not_before_witness :
    Estimate floatEnv ⟨[hourly10]⟩ 10 (9 * Hour) 5 = .ret (some (11 * Hour + 30 * Minute)) ∧
      (9 * Hour : Time) ≤ 11 * Hour + 30 * Minute :=
  ⟨by decide,
    Estimate_not_before floatEnv ⟨[hourly10]⟩ (f64Scale_bounds floatEnv rfl)
      (specEnv_advances _ _ _) (specEnv_within _ _ _ hourly10_validTimes)
      (9 * Hour) 5 (by decide) 10 (11 * Hour + 30 * Minute) (by decide)⟩

/-- C14 at 10:00 with a window from 11:00 to 12:00: the next opening is one hour ahead,
and the schedule lasts one minute with `minimal` set and one hour without. -/
theorem scheduleAt_closed_witness :
    scheduleAt floatEnv ⟨[hourly10]⟩ (10 * Hour) true =
        .ret ⟨10 * Hour, 1 * Minute, ⟨0, 0⟩⟩ ∧
      scheduleAt floatEnv ⟨[hourly10]⟩ (10 * Hour) false =
        .ret ⟨10 * Hour, 1 * Hour, ⟨0, 0⟩⟩ ∧
      ∃ d : Duration,
        (∃ w ∈ [hourly10], floatEnv.NextOpenAfter w (10 * Hour) = 10 * Hour + d) ∧
        (∀ w ∈ [hourly10], 10 * Hour + d ≤ floatEnv.NextOpenAfter w (10 * Hour)) ∧
        scheduleAt floatEnv ⟨[hourly10]⟩ (10 * Hour) true =
          .ret ⟨10 * Hour, if true = true ∧ 1 * Minute ≤ d then 1 * Minute else d, ⟨0, 0⟩⟩ ∧
        scheduleAt floatEnv ⟨[hourly10]⟩ (10 * Hour) true =
          .ret ⟨10 * Hour, min d (1 * Minute), ⟨0, 0⟩⟩ ∧
        scheduleAt floatEnv ⟨[hourly10]⟩ (10 * Hour) false = .ret ⟨10 * Hour, d, ⟨0, 0⟩⟩ ∧
        (if true = true ∧ 1 * Minute ≤ d then 1 * Minute else d) ≤ d :=
  ⟨by decide, by decide,
    scheduleAt_closed floatEnv ⟨[hourly10]⟩ (10 * Hour) true (by decide) (by decide)⟩

/-- C15 at 11:30 with a window from 11:00 to 12:00 at 10 per hour: the window is active
for 30 minutes more, and the schedule carries its rate for 30 minutes. -/
theorem scheduleAt_open_witness :
    currentFor floatEnv ⟨[hourly10]⟩ (11 * Hour + 30 * Minute) =
        .ret (some hourly10, some (30 * Minute)) ∧
      ∃ s : Schedule,
        scheduleAt floatEnv ⟨[hourly10]⟩ (11 * Hour + 30 * Minute) true = .ret s ∧
        s.validFrom = 11 * Hour + 30 * Minute ∧ s.rate = hourly10.rate ∧
        (∀ d : Duration, some (30 * Minute) = some d → s.duration = d) ∧
        ((some (30 * Minute) : Option Duration) = none →
          hourly10.rate.unit = floatEnv.ratePerHour → s.duration = 1 * Hour) ∧
        ((some (30 * Minute) : Option Duration) = none →
          hourly10.rate.unit ≠ floatEnv.ratePerHour → s.duration = 1 * Minute) :=
  ⟨by decide,
    scheduleAt_open floatEnv ⟨[hourly10]⟩ (11 * Hour + 30 * Minute) true hourly10
      (some (30 * Minute)) (by decide)⟩

/-- C16 without windows, the clock at 09:00. -/
theorem Schedule_eq_witness :
    Configuration.Schedule floatEnv ⟨[]⟩ (9 * Hour) =
        .ret ⟨9 * Hour, 10 * Minute, ⟨-1, 0⟩⟩ ∧
      specTotal ⟨9 * Hour, 10 * Minute, ⟨-1, 0⟩⟩ = -1 :=
  (Schedule_eq floatEnv ⟨[]⟩ (9 * Hour)).1 rfl

/-- C17 as stated fails.  On Monday at 10:00 with one window on Monday to Friday
without times of day, the window is open and has no end time, its day set is not `all`
and no window is declared after it.  The next midnight after `now` is 14 hours ahead,
and `currentFor` returns a validity of 110 hours, up to the midnight that starts
Saturday. -/
theorem currentFor_day_limited_counterexample :
    floatEnv.IsOpen weekdays (10 * Hour) = true ∧ weekdays.end_ = none ∧
      floatEnv.all weekdays.days = false ∧
      currentFor floatEnv ⟨[weekdays]⟩ (10 * Hour) =
        .ret (some weekdays, some (5 * (24 * Hour) - 10 * Hour)) ∧
      Truncate (10 * Hour) (24 * Hour) + 24 * Hour - 10 * Hour = 14 * Hour ∧
      (5 * (24 * Hour) - 10 * Hour : Duration) ≠ 14 * Hour := by
  refine ⟨by decide, by decide, by decide, by decide, by decide, by decide⟩

/-- C17 as amended, on Monday at 10:00 with one window on Monday to Friday: the first day
that is not included is the fifth after Monday, and the validity ends within the last
second before the midnight that starts it. -/
theorem currentFor_day_limited_witness :
    ∃ (k : Nat) (v : Duration), 1 ≤ k ∧ k ≤ 7 ∧
      floatEnv.includes weekdays.days
        (Weekday (Truncate (10 * Hour) (24 * Hour) + k * (24 * Hour))) = false ∧
      (∀ j : Nat, 1 ≤ j → j < k →
        floatEnv.includes weekdays.days
          (Weekday (Truncate (10 * Hour) (24 * Hour) + j * (24 * Hour))) = true) ∧
      currentFor floatEnv ⟨[weekdays]⟩ (10 * Hour) = .ret (some weekdays, some v) ∧
      Truncate (10 * Hour) (24 * Hour) + k * (24 * Hour) - Second ≤ 10 * Hour + v ∧
      10 * Hour + v ≤ Truncate (10 * Hour) (24 * Hour) + k * (24 * Hour) ∧
      (floatEnv.includes weekdays.days
          (Weekday (Truncate (10 * Hour) (24 * Hour) + 24 * Hour)) = false → k = 1) :=
  currentFor_day_limited floatEnv ⟨[weekdays]⟩ (10 * Hour) 0 weekdays rfl (by decide) rfl
    (by decide) ⟨0, by decide, by decide⟩ rfl

/-- C18 at 10:00 with one window without restriction: `currentFor` returns it without
validity. -/
theorem currentFor_indefinite_witness :
    currentFor floatEnv ⟨[always]⟩ (10 * Hour) = .ret (some always, none) :=
  (currentFor_indefinite floatEnv ⟨[always]⟩ (10 * Hour) 0 always rfl (by decide)
    (singleton_last floatEnv always (10 * Hour))).1.2 ⟨rfl, by decide, rfl⟩

/-- C19 at 10:00 with a window from 11:00 to 12:00 and `minimal` set. -/
theorem scheduleAt_advances_witness :
    ∃ s : Schedule, scheduleAt floatEnv ⟨[hourly10]⟩ (10 * Hour) true = .ret s ∧
      s.validFrom = 10 * Hour ∧ 0 < s.duration ∧ 10 * Hour < s.ValidUntil :=
  scheduleAt_advances floatEnv ⟨[hourly10]⟩ (specEnv_advances _ _ _)
    (fun w hw => by
      simp only [List.mem_singleton] at hw
      rw [hw]
      exact Or.inl (by decide))
    (10 * Hour) true

end window
